import Mathlib

/-!
# Thick-restarted Lanczos eigensolver (lib/eigensolve_quda.cpp)

A shallow embedding of the control logic and of the numerical member functions
of the QUDA eigensolver.

Conventions of the embedding.

* C++ `int` values are `Int`. The constructors do their `int` arithmetic in 32-bit
  two's complement (`int32`) and their size computations in `size_t`, and their
  allocations may fail (`Host`). Elsewhere no arithmetic of the modelled code
  leaves the range of an `int` for the configurations considered, and the
  temporaries allocated during a solve are taken to be granted.
* `double` values are elements of a linearly ordered field `K` (exact
  arithmetic, no NaN); concrete evaluations use `ℚ`. The comparisons of
  `reorder` are modelled for any relation, total or not, and `Double` adds a NaN
  to the numbers.
* Raw arrays (`double *`, `std::vector` accessed through `operator[]`) are
  total maps from `Int` indices, since the source performs no bounds check:
  an access outside the allocated range is visible as an access to an index
  outside `[0, n)`.
* `errorQuda` ends the program; it is modelled by `Except.error`.
* Fields (`ColorSpinorField`) are elements of a `K`-module `V`. The inner
  product of the vector BLAS layer and `sqrt` are parameters (`Externals`). One
  inner product `dot` stands for `cDotProduct` and for `reDotProduct`, its real
  part: the two agree in the real case, in which a complex coefficient is a real
  one, and wherever the inner product taken is a real number. The dense
  eigensolver of Eigen is a parameter as well.
* A counted loop `for (int i = lo; i < hi; i++)` is `forRange lo hi`, which runs
  its body for each `i` of `[lo, hi)` in increasing order.
-/

namespace quda

/-! ## Configuration and error codes -/

/-- Values of the enum `QudaEigSpectrumType`; `QUDA_SPECTRUM_INVALID` stands for
any value that is not one of the six named cases (the `default:` branch). -/
inductive QudaEigSpectrumType where
  | QUDA_SPECTRUM_SR_EIG
  | QUDA_SPECTRUM_LR_EIG
  | QUDA_SPECTRUM_SM_EIG
  | QUDA_SPECTRUM_LM_EIG
  | QUDA_SPECTRUM_SI_EIG
  | QUDA_SPECTRUM_LI_EIG
  | QUDA_SPECTRUM_INVALID
  deriving DecidableEq, Repr

/-- Values of the enum `QudaPrecision` read by `TRLM::operator()`. -/
inductive QudaPrecision where
  | QUDA_DOUBLE_PRECISION
  | QUDA_SINGLE_PRECISION
  | QUDA_HALF_PRECISION
  | QUDA_QUARTER_PRECISION
  | QUDA_INVALID_PRECISION
  deriving DecidableEq, Repr

/-- One constructor per `errorQuda` call site of the modelled code. -/
inductive QudaError where
  /-- Line 56: `nKr <= nEv`. -/
  | nKr_le_nEv
  /-- Line 57: `nEv < nConv`. -/
  | nConv_gt_nEv
  /-- Line 58: `nEv == 0`. -/
  | nEv_zero
  /-- Line 59: `nKr == 0`. -/
  | nKr_zero
  /-- Line 60: `nConv == 0`. -/
  | nConv_zero
  /-- Line 76: unexpected spectrum type. -/
  | unexpected_spectrum
  /-- Line 508: `nKr < nEv + 6`. -/
  | nKr_lt_nEv_plus_6
  /-- Line 511: spectrum is neither LR nor SR. -/
  | not_real_spectrum
  /-- Line 146: polynomial acceleration with degree zero. -/
  | zero_poly_deg
  /-- Line 578: invalid precision. -/
  | invalid_precision
  /-- Line 681: restart budget exhausted and convergence required. -/
  | not_converged
  /-- Lines 405, 408: `loadVectors` without an input file or without QIO. -/
  | load_failed
  /-- Line 453: `saveVectors` in a build without QIO. -/
  | qio_not_built
  /-- The `errorQuda` of `safe_malloc` (malloc.cpp): `malloc` returned no block. -/
  | alloc_failed
  deriving DecidableEq, Repr

/-- The fields of `QudaEigParam` read by the eigensolver. The sizes `nEv`, `nKr`
and `nConv` are `int`s, that is, values of `[-2^31, 2^31)`. The strings
`vec_infile` and `vec_outfile` are only ever compared with the empty string. -/
structure QudaEigParam (K : Type) where
  nEv : Int
  nKr : Int
  nConv : Int
  tol : K
  max_restarts : Int
  check_interval : Int
  spectrum : QudaEigSpectrumType
  use_poly_acc : Bool
  poly_deg : Int
  a_min : K
  a_max : K
  require_convergence : Bool
  vec_infile : String
  vec_outfile : String

/-- A host buffer obtained from `safe_malloc`: its name and the number of bytes
asked for. -/
structure Buffer where
  name : String
  size : Nat
  deriving DecidableEq, Repr

/-- The outcome of running a constructor: the buffers allocated so far, in
order, and either the constructed object or the error that ended the program. -/
structure Constructed (σ : Type) where
  allocated : List Buffer
  outcome : Except QudaError σ

/-- The value of an `int` expression whose exact value is `x`: arithmetic on
`int` is 32-bit two's complement, so a result outside `[-2^31, 2^31)` wraps
around. This is what the compiled code computes; the language itself leaves
signed overflow undefined. -/
def int32 (x : Int) : Int :=
  (x + 2 ^ 31) % 2 ^ 32 - 2 ^ 31

/-- The conversion of an `int` to `size_t`, the unsigned 64-bit type of
`sizeof`: the value modulo `2^64`. -/
def size_t (x : Int) : Nat :=
  (x % 2 ^ 64).toNat

/-- The argument `count * sizeof(T)` of a `safe_malloc` call: `count` is an `int`,
`sizeof(T)` a `size_t`, so `count` is converted to `size_t` and the product is
taken modulo `2^64`. -/
def sizeBytes (count : Int) (sizeofT : Nat) : Nat :=
  size_t count * sizeofT % 2 ^ 64

/-- The host allocator: `grants name size` tells whether `malloc` returns a block
for the request of `size` bytes made for the buffer `name`. -/
structure Host where
  grants : String → Nat → Bool

/-- Modelled from the spec: `safe_malloc(size)` (malloc.cpp, not part of the
sources) returns the block `malloc(size)` returns, and ends the program through
`errorQuda` when `malloc` returns none. -/
def safe_malloc (host : Host) (name : String) (size : Nat) : Except QudaError Buffer :=
  if host.grants name size = true then .ok ⟨name, size⟩ else .error .alloc_failed

/-! ## `EigenSolver::EigenSolver` and `TRLM::TRLM` -/

/-- Member variables of the class `EigenSolver`. -/
structure EigenSolver (K : Type) where
  eig_param : QudaEigParam K
  nEv : Int
  nKr : Int
  nConv : Int
  tol : K
  reverse : Bool
  spectrum : List Char
  converged : Bool
  restart_iter : Int
  max_restarts : Int
  check_interval : Int
  iter : Int
  iter_converged : Int
  iter_locked : Int
  iter_keep : Int
  num_converged : Int
  num_locked : Int
  num_keep : Int
  residua : Int → K

/-- The `switch` of lines 69-77: the two-letter name of the spectrum type, or
`none` in the `default:` case. -/
def spectrumName : QudaEigSpectrumType → Option (List Char)
  | .QUDA_SPECTRUM_SR_EIG => some ['S', 'R']
  | .QUDA_SPECTRUM_LR_EIG => some ['L', 'R']
  | .QUDA_SPECTRUM_SM_EIG => some ['S', 'M']
  | .QUDA_SPECTRUM_LM_EIG => some ['L', 'M']
  | .QUDA_SPECTRUM_SI_EIG => some ['S', 'I']
  | .QUDA_SPECTRUM_LI_EIG => some ['L', 'I']
  | .QUDA_SPECTRUM_INVALID => none

/-- Lines 79-88: deduce whether to reverse the sorting; returns the flag and
the (possibly relabelled) spectrum name. `strncmp("L", spectrum, 1) == 0`
compares the first character only. -/
def deduceReverse (spectrum : List Char) (use_poly_acc : Bool) : Bool × List Char :=
  if spectrum.head? = some 'L' ∧ use_poly_acc = false then (true, spectrum)
  else if spectrum.head? = some 'S' ∧ use_poly_acc = true then (true, spectrum.set 0 'L')
  else if spectrum.head? = some 'L' ∧ use_poly_acc = true then (true, spectrum.set 0 'S')
  else (false, spectrum)

/-- The constructor `EigenSolver::EigenSolver` (lines 27-105): the sanity checks
in source order, then the allocation of `residua` (line 62, `nKr` doubles of 8
bytes) and of `Qmat` (line 66, `nEv * nKr` complex numbers of 16 bytes, the
product `nEv * nKr` being taken in `int`), then the spectrum switch and the
deduction of `reverse`. -/
def EigenSolver.construct {K : Type} [Zero K] (host : Host) (eig_param : QudaEigParam K) :
    Constructed (EigenSolver K) :=
  let nEv := eig_param.nEv
  let nKr := eig_param.nKr
  let nConv := eig_param.nConv
  if nKr ≤ nEv then ⟨[], .error .nKr_le_nEv⟩
  else if nEv < nConv then ⟨[], .error .nConv_gt_nEv⟩
  else if nEv = 0 then ⟨[], .error .nEv_zero⟩
  else if nKr = 0 then ⟨[], .error .nKr_zero⟩
  else if nConv = 0 then ⟨[], .error .nConv_zero⟩
  else
    -- residua = (double *)safe_malloc(nKr * sizeof(double));
    match safe_malloc host "residua" (sizeBytes nKr 8) with
    | .error e => ⟨[], .error e⟩
    | .ok residua =>
      -- Qmat = (Complex *)safe_malloc(nEv * nKr * sizeof(Complex));
      match safe_malloc host "Qmat" (sizeBytes (int32 (nEv * nKr)) 16) with
      | .error e => ⟨[residua], .error e⟩
      | .ok Qmat =>
        let allocated : List Buffer := [residua, Qmat]
        match spectrumName eig_param.spectrum with
        | none => ⟨allocated, .error .unexpected_spectrum⟩
        | some name =>
          let rs := deduceReverse name eig_param.use_poly_acc
          ⟨allocated, .ok
            { eig_param := eig_param
              nEv := nEv
              nKr := nKr
              nConv := nConv
              tol := eig_param.tol
              reverse := rs.1
              spectrum := rs.2
              converged := false
              restart_iter := 0
              max_restarts := eig_param.max_restarts
              check_interval := eig_param.check_interval
              iter := 0
              iter_converged := 0
              iter_locked := 0
              iter_keep := 0
              num_converged := 0
              num_locked := 0
              num_keep := 0
              residua := fun _ => 0 }⟩

/-- Member variables of the class `TRLM`, which derives from `EigenSolver`. The
vector `ritz_mat` is flattened, as in the source. -/
structure TRLM (K : Type) extends EigenSolver K where
  alpha : Int → K
  beta : Int → K
  ritz_mat : Int → K

/-- The constructor `TRLM::TRLM` (lines 493-515): the base constructor runs
first; then `alpha` and `beta` are allocated (`nKr` doubles each) and zeroed,
and the two thick-restart checks are made, the sum `nEv + 6` being taken in
`int`. -/
def TRLM.construct {K : Type} [Zero K] (host : Host) (eig_param : QudaEigParam K) :
    Constructed (TRLM K) :=
  match EigenSolver.construct host eig_param with
  | ⟨allocated, .error e⟩ => ⟨allocated, .error e⟩
  | ⟨allocated, .ok base⟩ =>
    -- alpha = (double *)safe_malloc(nKr * sizeof(double));
    match safe_malloc host "alpha" (sizeBytes base.nKr 8) with
    | .error e => ⟨allocated, .error e⟩
    | .ok alpha =>
      -- beta = (double *)safe_malloc(nKr * sizeof(double));
      match safe_malloc host "beta" (sizeBytes base.nKr 8) with
      | .error e => ⟨allocated ++ [alpha], .error e⟩
      | .ok beta =>
        let allocated := allocated ++ [alpha, beta]
        if base.nKr < int32 (base.nEv + 6) then ⟨allocated, .error .nKr_lt_nEv_plus_6⟩
        else if ¬ (eig_param.spectrum = .QUDA_SPECTRUM_LR_EIG ∨
            eig_param.spectrum = .QUDA_SPECTRUM_SR_EIG) then
          ⟨allocated, .error .not_real_spectrum⟩
        else
          ⟨allocated, .ok
            { toEigenSolver := base
              alpha := fun _ => 0
              beta := fun _ => 0
              ritz_mat := fun _ => 0 }⟩

/-- Whether a constructor returned an object. -/
def Constructed.succeeded {σ : Type} (c : Constructed σ) : Bool :=
  match c.outcome with
  | .ok _ => true
  | .error _ => false

/-! ## `TRLM::reorder` -/

/-- The variables of the loop of `TRLM::reorder`: the position `i`, the array
`alpha` and the vector of basis-vector pointers `kSpace`. -/
structure ReorderState (α V : Type) where
  i : Int
  alpha : Int → α
  kSpace : Int → V

/-- The effect of `std::swap(v[a], v[b])` on the entries of `v`. -/
def swapEntries {V : Type} (v : Int → V) (a b : Int) : Int → V :=
  Function.update (Function.update v a (v b)) b (v a)

/-- One iteration of the `while (i < nKr)` loop of `TRLM::reorder` (lines 779-786
and 790-797), `ordered x y` being the comparison of `alpha[i - 1]` with
`alpha[i]`. In the `else` branch `alpha[--i] = tmp` decrements `i` before
`std::swap(kSpace[i], kSpace[i - 1])` is evaluated. -/
def reorderBody {α V : Type} (ordered : α → α → Bool) (s : ReorderState α V) :
    ReorderState α V :=
  if s.i = 0 ∨ ordered (s.alpha (s.i - 1)) (s.alpha s.i) = true then
    { s with i := s.i + 1 }
  else
    let tmp := s.alpha s.i
    let alpha1 := Function.update s.alpha s.i (s.alpha (s.i - 1))
    let i1 := s.i - 1
    let alpha2 := Function.update alpha1 i1 tmp
    { i := i1, alpha := alpha2, kSpace := swapEntries s.kSpace i1 (i1 - 1) }

/-- The loop `while (i < nKr)`, run for at most `fuel` iterations. -/
def reorderLoop {α V : Type} (ordered : α → α → Bool) (nKr : Int) :
    Nat → ReorderState α V → ReorderState α V
  | 0, s => s
  | fuel + 1, s => if s.i < nKr then reorderLoop ordered nKr fuel (reorderBody ordered s) else s

/-- A `double` as the comparisons `<=` and `>=` of `reorder` see it: a number
(an infinity compares like a number) or a NaN. -/
inductive Double (K : Type) where
  | num (x : K)
  | nan
  deriving DecidableEq

/-- The comparison `x <= y` of two doubles: false as soon as one of them is a
NaN. The comparison `x >= y` is `y <= x`. -/
def Double.le {K : Type} [LE K] : Double K → Double K → Prop
  | .num x, .num y => x ≤ y
  | _, _ => False

instance Double.instLE {K : Type} [LE K] : LE (Double K) :=
  ⟨Double.le⟩

instance Double.decidableLE {K : Type} [LE K] [DecidableRel (LE.le : K → K → Prop)] :
    DecidableRel (LE.le : Double K → Double K → Prop)
  | .num x, .num y => inferInstanceAs (Decidable (x ≤ y))
  | .num _, .nan => isFalse (fun h => h)
  | .nan, _ => isFalse (fun h => h)

/-- The member function `TRLM::reorder` (lines 773-800): `i` starts at 0 and one
of two loops runs, comparing with `>=` when `reverse` is set and with `<=`
otherwise; the comparison need not be total (a NaN is not comparable). The
result is `none` when the loop has not left through its condition after
`nKr * nKr` iterations: `reorderLoop_sorts` shows that it has whenever the
entries `alpha[0..nKr)` are comparable with each other, and
`reorderLoop_unordered_running` that it never does when one of them is a NaN and
`nKr >= 2`. -/
def reorder {α V : Type} [LE α] [DecidableRel (LE.le : α → α → Prop)] (reverse : Bool)
    (nKr : Int) (alpha : Int → α) (kSpace : Int → V) : Option (ReorderState α V) :=
  let out : ReorderState α V :=
    if reverse then
      reorderLoop (fun x y => decide (x ≥ y)) nKr (nKr.toNat * nKr.toNat) ⟨0, alpha, kSpace⟩
    else
      reorderLoop (fun x y => decide (x ≤ y)) nKr (nKr.toNat * nKr.toNat) ⟨0, alpha, kSpace⟩
  if out.i < nKr then none else some out

/-- The entries `a[lo], a[lo + 1], ..., a[lo + n - 1]` of an array, as a list. -/
def seg {α : Type} (a : Int → α) : Int → Nat → List α
  | _, 0 => []
  | lo, n + 1 => a lo :: seg a (lo + 1) n

/-- The number of pairs of positions of a list that are out of order. -/
def inversions {α : Type} (ordered : α → α → Bool) : List α → Nat
  | [] => 0
  | x :: xs => List.countP (fun y => !ordered x y) xs + inversions ordered xs

/-- The loop invariant of `reorder` on an array of `n` entries that started as
`a0`: the position stays in `[0, n]`, the entries before it are in order, and
the entries of the array are a rearrangement of the initial ones. -/
def ReorderInv {α V : Type} (ordered : α → α → Bool) (n : Nat) (a0 : Int → α)
    (s : ReorderState α V) : Prop :=
  0 ≤ s.i ∧ s.i ≤ n ∧
    (∀ j k : Int, 0 ≤ j → j < k → k < s.i → ordered (s.alpha j) (s.alpha k) = true) ∧
    (seg s.alpha 0 n).Perm (seg a0 0 n)

/-- The termination measure of the loop of `reorder`: every iteration lowers
it by exactly one. -/
def reorderMeasure {α V : Type} (ordered : α → α → Bool) (n : Nat) (s : ReorderState α V) :
    Nat :=
  2 * inversions ordered (seg s.alpha 0 n) + ((n : Int) - s.i).toNat

/-! ## `EigenSolver::chebyOp` -/

/-- Modelled from the spec: `blas::caxpby(a, x, b, y)` of the vector BLAS layer
(declared in blas_quda.h, not part of the sources), the scaled add
`y = a * x + b * y`; the function returns the new `y`. The comment of line 159
reads the call of line 162 the same way: `out = d2 * in + d1 * out`. -/
def blas.caxpby {K V : Type} [Field K] [AddCommGroup V] [Module K V] (a : K) (x : V) (b : K)
    (y : V) : V :=
  a • x + b • y

/-- Modelled from the spec: `blas::caxpbypczw(a, x, b, y, c, z, w)` of the vector
BLAS layer (declared in blas_quda.h, not part of the sources), the three-vector
linear combination `w = a * x + b * y + c * z`; the function returns the new `w`. -/
def blas.caxpbypczw {K V : Type} [Field K] [AddCommGroup V] [Module K V] (a : K) (x : V)
    (b : K) (y : V) (c : K) (z : V) : V :=
  a • x + b • y + c • z

/-- What `chebyOp` leaves behind: the vector `out` and the number of calls of
`matVec` it made. -/
structure ChebyResult (V : Type) where
  out : V
  matVecs : Nat

/-- The variables that live across iterations of the recursion loop of
`chebyOp`; `tmp1` and `tmp2` are the vectors the two pointers refer to. -/
structure ChebyState (K V : Type) where
  out : V
  tmp1 : V
  tmp2 : V
  sigma_old : K
  matVecs : Nat

/-- One iteration of the loop of lines 181-199. -/
def chebyBody {K V : Type} [Field K] [AddCommGroup V] [Module K V] (mat : V → V)
    (delta theta sigma1 : K) (s : ChebyState K V) : ChebyState K V :=
  let sigma := 1 / (2 / sigma1 - s.sigma_old)
  let d1 := 2 * sigma / delta
  let d2 := -d1 * theta
  let d3 := -sigma * s.sigma_old
  -- matVec(mat, out, *tmp2)
  let out := mat s.tmp2
  -- blas::caxpbypczw(d3c, *tmp1, d2c, *tmp2, d1c, out, *tmp1)
  let w := blas.caxpbypczw d3 s.tmp1 d2 s.tmp2 d1 out
  -- std::swap(tmp1, tmp2); sigma_old = sigma
  { out := out, tmp1 := s.tmp2, tmp2 := w, sigma_old := sigma, matVecs := s.matVecs + 1 }

/-- The loop `for (int i = 2; i < poly_deg; i++)`, run for at most `fuel`
iterations starting at the given `i`. -/
def chebyLoop {K V : Type} [Field K] [AddCommGroup V] [Module K V] (mat : V → V)
    (delta theta sigma1 : K) (poly_deg : Int) : Nat → Int → ChebyState K V → ChebyState K V
  | 0, _, s => s
  | fuel + 1, i, s =>
    if i < poly_deg then
      chebyLoop mat delta theta sigma1 poly_deg fuel (i + 1) (chebyBody mat delta theta sigma1 s)
    else s

/-- The member function `EigenSolver::chebyOp` (lines 138-204), `mat` being the
raw operator applied by `matVec`. The loop runs from `i = 2` and is given
`poly_deg - 2` iterations, the number of values of `i` below `poly_deg`. -/
def chebyOp {K V : Type} [Field K] [AddCommGroup V] [Module K V] (eig_param : QudaEigParam K)
    (mat : V → V) (inp : V) : Except QudaError (ChebyResult V) :=
  if eig_param.use_poly_acc = false then
    .ok ⟨mat inp, 1⟩
  else if eig_param.poly_deg = 0 then
    .error .zero_poly_deg
  else
    let a := eig_param.a_min
    let b := eig_param.a_max
    let delta := (b - a) / 2
    let theta := (b + a) / 2
    let sigma1 := -delta / theta
    let d1 := sigma1 / delta
    let d2 : K := 1
    -- matVec(mat, out, in); blas::caxpby(d2, in, d1, out)
    let out := blas.caxpby d2 inp d1 (mat inp)
    if eig_param.poly_deg = 1 then
      .ok ⟨out, 1⟩
    else
      let s := chebyLoop mat delta theta sigma1 eig_param.poly_deg
        (eig_param.poly_deg - 2).toNat 2 ⟨out, inp, out, sigma1, 1⟩
      -- blas::copy(out, *tmp2)
      .ok ⟨s.tmp2, s.matVecs⟩

/-! ## `TRLM::operator()`: the restart loop -/

/-- The numerical data of a solve: the recurrence coefficients, the residual
estimates, the flattened Ritz matrix, the Krylov basis with its current size
and the residual vector `r[0]`. -/
structure Krylov (K V : Type) where
  alpha : Int → K
  beta : Int → K
  residua : Int → K
  ritz_mat : Int → K
  kSpace : Int → V
  kSpace_size : Int
  r : V

/-- The control data of a solve: the members of the solver object other than
its arrays, the argument `evals` (a complex number is a pair of its real and
imaginary part) and the locals `mat_norm` and `epsilon` of `operator()`. -/
structure Control (K : Type) where
  eig_param : QudaEigParam K
  nEv : Int
  nKr : Int
  nConv : Int
  tol : K
  reverse : Bool
  spectrum : List Char
  converged : Bool
  restart_iter : Int
  max_restarts : Int
  check_interval : Int
  iter : Int
  iter_converged : Int
  iter_locked : Int
  iter_keep : Int
  num_converged : Int
  num_locked : Int
  num_keep : Int
  evals : List (K × K)
  mat_norm : K
  epsilon : K

/-- The state of one call of `TRLM::operator()`: the control data `ctl` and the
arrays `arr`. -/
structure Session (K V : Type) where
  ctl : Control K
  arr : Krylov K V

/-- Write the arrays computed by a numerical phase back into the session; the
control data are untouched. -/
def Session.install {K V : Type} (s : Session K V) (kr : Krylov K V) : Session K V :=
  { s with arr := kr }

/-- The numerical phases called by `TRLM::operator()`. Their arithmetic (vector
BLAS, the operator, the dense eigensolver, file I/O) lies outside the
embedding of the control logic: each phase is an arbitrary function of the
session that returns the arrays it leaves behind. `lanczosStep` may end the
program (through `chebyOp`), and so may `loadFromFile` (through `loadVectors`).
Every statement about the restart loop holds for all values of this record. -/
structure Kernels (K V : Type) where
  /-- The call `lanczosStep(kSpace, step)`, lines 740-771. -/
  lanczosStep : Session K V → Int → Except QudaError (Krylov K V)
  /-- The call `eigensolveFromArrowMat(num_locked, arrow_pos)`, lines 802-862. -/
  eigensolveFromArrowMat : Session K V → Int → Int → Krylov K V
  /-- The call `computeKeptRitz(kSpace)`, lines 864-905. -/
  computeKeptRitz : Session K V → Krylov K V
  /-- The call `computeEvals(mat, kSpace, evals, nConv)`, lines 345-360: the new `evals`
  and `residua`. -/
  computeEvals : Session K V → Int → List (K × K) × (Int → K)
  /-- Lines 526-543: the initial guess `kSpace[0]`, randomised if zero, then
  normalised. -/
  initialGuess : Session K V → V
  /-- The call `loadFromFile(mat, kSpace, evals)`, lines 457-480. -/
  loadFromFile : Session K V → Except QudaError (Session K V)

/-- The loop `for (int step = num_keep; step < nKr; step++) lanczosStep(kSpace, step)`
of line 594, run for at most `fuel` iterations from the given `step`. -/
def lanczosExtend {K V : Type} (k : Kernels K V) :
    Nat → Int → Session K V → Except QudaError (Session K V)
  | 0, _, s => .ok s
  | fuel + 1, step, s =>
    if step < s.ctl.nKr then
      match k.lanczosStep s step with
      | .error e => .error e
      | .ok kr => lanczosExtend k fuel (step + 1) (s.install kr)
    else .ok s

/-- The loop of lines 605-606, run for at most `fuel` iterations from the given
`i`: `if (fabs(alpha[i]) > mat_norm) mat_norm = fabs(alpha[i])`. -/
def updateMatNorm {K : Type} [LinearOrderedField K] (alpha : Int → K) (nKr : Int) :
    Nat → Int → K → K
  | 0, _, mat_norm => mat_norm
  | fuel + 1, i, mat_norm =>
    if i < nKr then
      updateMatNorm alpha nKr fuel (i + 1) (if |alpha i| > mat_norm then |alpha i| else mat_norm)
    else mat_norm

/-- The two classification scans (lines 610-620 and 624-633) are the same loop
`for (; i < nKr - num_locked; i++) if (residua[i + num_locked] < threshold) found = i; else break;`
run for at most `fuel` iterations from the given `i`; the result is the final
value of `found` (`iter_locked`, resp. `iter_converged`). -/
def residuaScan {K : Type} [LinearOrderedField K] (residua : Int → K) (nKr num_locked : Int)
    (threshold : K) : Nat → Int → Int → Int
  | 0, _, found => found
  | fuel + 1, i, found =>
    if i < nKr - num_locked then
      if residua (i + num_locked) < threshold then
        residuaScan residua nKr num_locked threshold fuel (i + 1) i
      else found
    else found

/-- Lines 609-620: the locking check, `iter_locked = 0` then the scan from
`i = 1` with threshold `epsilon * mat_norm`. -/
def lockingCheck {K : Type} [LinearOrderedField K] (residua : Int → K) (nKr num_locked : Int)
    (epsilon mat_norm : K) : Int :=
  residuaScan residua nKr num_locked (epsilon * mat_norm) (nKr - num_locked - 1).toNat 1 0

/-- Lines 623-633: the convergence check, `iter_converged = iter_locked` then
the scan from `i = iter_locked + 1` with threshold `tol * mat_norm`. -/
def convergenceCheck {K : Type} [LinearOrderedField K] (residua : Int → K)
    (nKr num_locked : Int) (tol mat_norm : K) (iter_locked : Int) : Int :=
  residuaScan residua nKr num_locked (tol * mat_norm)
    (nKr - num_locked - (iter_locked + 1)).toNat (iter_locked + 1) iter_locked

/-- Line 635: `std::min(iter_converged + (nKr - num_converged) / 2, nKr - num_locked - 12)`,
with the truncating division of C++. -/
def iterKeep (nKr num_converged num_locked iter_converged : Int) : Int :=
  min (iter_converged + Int.tdiv (nKr - num_converged) 2) (nKr - num_locked - 12)

/-- Line 595: `iter += (nKr - num_keep)`. -/
def Session.countSteps {K V : Type} (s : Session K V) : Session K V :=
  { s with ctl := { s.ctl with iter := s.ctl.iter + (s.ctl.nKr - s.ctl.num_keep) } }

/-- Lines 598-601: `arrow_pos = std::max(num_keep - num_locked + 1, 2)` and the
call `eigensolveFromArrowMat(num_locked, arrow_pos)`. -/
def Session.eigenStep {K V : Type} (k : Kernels K V) (s : Session K V) : Session K V :=
  s.install (k.eigensolveFromArrowMat s s.ctl.num_locked
    (max (s.ctl.num_keep - s.ctl.num_locked + 1) 2))

/-- Lines 604-635 on the control data, given the arrays `alpha` and `residua`
left by the eigen-step: the update of `mat_norm`, the locking check, the
convergence check and the computation of `iter_keep`. -/
def Control.classify {K : Type} [LinearOrderedField K] (c : Control K) (alpha residua : Int → K) :
    Control K :=
  let mat_norm : K :=
    updateMatNorm alpha c.nKr (c.nKr - c.num_locked).toNat c.num_locked c.mat_norm
  let iter_locked : Int := lockingCheck residua c.nKr c.num_locked c.epsilon mat_norm
  let iter_converged : Int :=
    convergenceCheck residua c.nKr c.num_locked c.tol mat_norm iter_locked
  let iter_keep : Int := iterKeep c.nKr c.num_converged c.num_locked iter_converged
  { c with
    mat_norm := mat_norm
    iter_locked := iter_locked
    iter_converged := iter_converged
    iter_keep := iter_keep }

/-- Lines 604-635 on a session. -/
def Session.classify {K V : Type} [LinearOrderedField K] (s : Session K V) : Session K V :=
  { s with ctl := s.ctl.classify s.arr.alpha s.arr.residua }

/-- Line 637: the call `computeKeptRitz(kSpace)`. -/
def Session.compress {K V : Type} (k : Kernels K V) (s : Session K V) : Session K V :=
  s.install (k.computeKeptRitz s)

/-- Lines 639-641: `num_converged = num_locked + iter_converged`,
`num_keep = num_locked + iter_keep`, `num_locked += iter_locked`. -/
def Control.updateCounters {K : Type} (c : Control K) : Control K :=
  { c with
    num_converged := c.num_locked + c.iter_converged
    num_keep := c.num_locked + c.iter_keep
    num_locked := c.num_locked + c.iter_locked }

/-- Lines 639-641 on a session. -/
def Session.updateCounters {K V : Type} (s : Session K V) : Session K V :=
  { s with ctl := s.ctl.updateCounters }

/-- Lines 659-663: `if (num_converged >= nConv) { reorder(kSpace); converged = true; }`.
The entries of `alpha` are numbers of the ordered field `K`, on which `reorder`
always returns (`reorder_returns`); the branch of a call that does not return
is never taken, and leaves the session as it is. -/
def Session.checkConvergence {K V : Type} [LinearOrderedField K] (s : Session K V) :
    Session K V :=
  if s.ctl.num_converged ≥ s.ctl.nConv then
    match reorder s.ctl.reverse s.ctl.nKr s.arr.alpha s.arr.kSpace with
    | some sorted =>
      { ctl := { s.ctl with converged := true }
        arr := { s.arr with alpha := sorted.alpha, kSpace := sorted.kSpace } }
    | none => s
  else s

/-- Line 665: `restart_iter++`. -/
def Session.nextRestart {K V : Type} (s : Session K V) : Session K V :=
  { s with ctl := { s.ctl with restart_iter := s.ctl.restart_iter + 1 } }

/-- The body of the restart loop (lines 594-665), one sweep: the Lanczos
extension from `num_keep` to `nKr`, then the phases above in source order. -/
def sweep {K V : Type} [LinearOrderedField K] (k : Kernels K V) (s : Session K V) :
    Except QudaError (Session K V) :=
  match lanczosExtend k (s.ctl.nKr - s.ctl.num_keep).toNat s.ctl.num_keep s with
  | .error e => .error e
  | .ok s1 =>
    .ok (((((s1.countSteps.eigenStep k).classify.compress k).updateCounters).checkConvergence).nextRestart)

/-- A run of the restart loop: the sessions at the end of each completed sweep,
in order, and the error of the sweep that ended the program, if one did. -/
structure LoopRun (K V : Type) where
  sweeps : List (Session K V)
  aborted : Option QudaError

/-- The loop `while (restart_iter < max_restarts && !converged)` of line 592, run
for at most `fuel` sweeps; `none` when the loop would go on after that. -/
def restartLoop {K V : Type} [LinearOrderedField K] (k : Kernels K V) :
    Nat → Session K V → Option (LoopRun K V)
  | 0, s =>
    if s.ctl.restart_iter < s.ctl.max_restarts ∧ s.ctl.converged = false then none
    else some ⟨[], none⟩
  | fuel + 1, s =>
    if s.ctl.restart_iter < s.ctl.max_restarts ∧ s.ctl.converged = false then
      match sweep k s with
      | .error e => some ⟨[], some e⟩
      | .ok s1 =>
        match restartLoop k fuel s1 with
        | none => none
        | some run => some ⟨s1 :: run.sweeps, run.aborted⟩
    else some ⟨[], none⟩

/-- The session in which a run of the loop from `s` ends. -/
def LoopRun.final {K V : Type} (run : LoopRun K V) (s : Session K V) : Session K V :=
  run.sweeps.getLast?.getD s

/-- One sweep from `a` to `b`, taken because the loop condition holds in `a`. -/
def SweepStep {K V : Type} [LinearOrderedField K] (k : Kernels K V) (a b : Session K V) : Prop :=
  a.ctl.restart_iter < a.ctl.max_restarts ∧ a.ctl.converged = false ∧ sweep k a = .ok b

/-! ## `TRLM::operator()`: before and after the loop -/

/-- The `switch (prec)` of lines 561-579: `DBL_EPSILON` is `2^-52`, `FLT_EPSILON`
is `2^-23`; `none` in the `default:` case. -/
def epsilonOf {K : Type} [LinearOrderedField K] : QudaPrecision → Option K
  | .QUDA_DOUBLE_PRECISION => some (1 / 2 ^ 52)
  | .QUDA_SINGLE_PRECISION => some (1 / 2 ^ 23)
  | .QUDA_HALF_PRECISION => some (2 / 1000)
  | .QUDA_QUARTER_PRECISION => some (5 / 100)
  | .QUDA_INVALID_PRECISION => none

/-- Lines 526-579: the initial guess is normalised, `kSpace` grows by one new
vector for each `i` in `[nConv, nKr + 1)`, `evals` by one zero for each `i` in
`[nConv, nEv)`, `mat_norm` starts at 0 and `epsilon` is chosen from the
precision of `kSpace[0]`. -/
def Session.prepare {K V : Type} [LinearOrderedField K] (k : Kernels K V) (prec : QudaPrecision)
    (s : Session K V) : Except QudaError (Session K V) :=
  let arr : Krylov K V :=
    { s.arr with
      kSpace := Function.update s.arr.kSpace 0 (k.initialGuess s)
      kSpace_size := s.arr.kSpace_size + (s.ctl.nKr + 1 - s.ctl.nConv).toNat }
  let evals : List (K × K) :=
    s.ctl.evals ++ List.replicate (s.ctl.nEv - s.ctl.nConv).toNat (0, 0)
  match epsilonOf prec with
  | none => .error .invalid_precision
  | some epsilon =>
    .ok { ctl := { s.ctl with evals := evals, mat_norm := 0, epsilon := epsilon }, arr := arr }

/-- The error with which a computation ended the program, if it did. -/
def abortOf {σ : Type} : Except QudaError σ → Option QudaError
  | .error e => some e
  | .ok _ => none

/-- The session on which `operator()` is called right after construction: the
members of the constructed solver together with the caller's `kSpace` (of
`nConv` vectors) and `evals`; `mat_norm` and `epsilon` are set by the call
itself. -/
def Session.start {K V : Type} [Zero K] (t : TRLM K) (kSpace : Int → V) (evals : List (K × K))
    (r : V) : Session K V :=
  { ctl :=
      { eig_param := t.eig_param
        nEv := t.nEv
        nKr := t.nKr
        nConv := t.nConv
        tol := t.tol
        reverse := t.reverse
        spectrum := t.spectrum
        converged := t.converged
        restart_iter := t.restart_iter
        max_restarts := t.max_restarts
        check_interval := t.check_interval
        iter := t.iter
        iter_converged := t.iter_converged
        iter_locked := t.iter_locked
        iter_keep := t.iter_keep
        num_converged := t.num_converged
        num_locked := t.num_locked
        num_keep := t.num_keep
        evals := evals
        mat_norm := 0
        epsilon := 0 }
    arr :=
      { alpha := t.alpha
        beta := t.beta
        residua := t.residua
        ritz_mat := t.ritz_mat
        kSpace := kSpace
        kSpace_size := t.nConv
        r := r } }

/-! ## Concrete configurations -/

/-- The configuration `nEv = 4`, `nKr = 10`, `nConv = -1` with spectrum SR. -/
def negativeConvParam : QudaEigParam ℚ :=
  { nEv := 4, nKr := 10, nConv := -1, tol := 1 / 10 ^ 10, max_restarts := 100,
    check_interval := 1, spectrum := .QUDA_SPECTRUM_SR_EIG, use_poly_acc := false,
    poly_deg := 0, a_min := 0, a_max := 0, require_convergence := false,
    vec_infile := "", vec_outfile := "" }

/-- The configuration `nEv = 4`, `nKr = 8`, `nConv = 3` with spectrum SR. -/
def shortKrylovParam : QudaEigParam ℚ :=
  { negativeConvParam with nKr := 8, nConv := 3 }

/-- The configuration of the scenario of the specification: `nEv = 4`, `nKr = 10`,
`nConv = 3`, `tol = 1e-10`, spectrum SR, no polynomial acceleration. -/
def scenarioParam : QudaEigParam ℚ :=
  { negativeConvParam with nConv := 3 }

/-- A configuration with room for the twelve reserved slots: `nEv = 8`,
`nKr = 16`, `nConv = 4`, one restart allowed, convergence not required. -/
def wideParam : QudaEigParam ℚ :=
  { negativeConvParam with nEv := 8, nKr := 16, nConv := 4, max_restarts := 1 }

/-- The configuration `wideParam` with an output file for the eigenvectors. -/
def outfileParam : QudaEigParam ℚ :=
  { wideParam with vec_outfile := "evecs" }

/-- The solver a configuration with spectrum SR and no polynomial acceleration
constructs when it passes the checks: every counter is 0, every array is zero,
`reverse` is unset. -/
def freshSolver (p : QudaEigParam ℚ) : TRLM ℚ :=
  { eig_param := p
    nEv := p.nEv
    nKr := p.nKr
    nConv := p.nConv
    tol := p.tol
    reverse := false
    spectrum := ['S', 'R']
    converged := false
    restart_iter := 0
    max_restarts := p.max_restarts
    check_interval := p.check_interval
    iter := 0
    iter_converged := 0
    iter_locked := 0
    iter_keep := 0
    num_converged := 0
    num_locked := 0
    num_keep := 0
    residua := fun _ => 0
    alpha := fun _ => 0
    beta := fun _ => 0
    ritz_mat := fun _ => 0 }

/-- A host whose allocator grants every request below `2^63` bytes, the
largest size `malloc` accepts. -/
def roomyHost : Host :=
  ⟨fun _ size => decide (size < 2 ^ 63)⟩

/-- The configuration `nEv = 46341`, `nKr = 46347`, `nConv = 3` with spectrum SR:
the product `nEv * nKr = 2147766327` exceeds `2^31 - 1`. -/
def overflowParam : QudaEigParam ℚ :=
  { negativeConvParam with nEv := 46341, nKr := 46347, nConv := 3 }

/-- The configuration `nEv = 2147483642`, `nKr = 2147483644`, `nConv = 1` with
spectrum SR: the sum `nEv + 6` exceeds `2^31 - 1`. -/
def wrappedSumParam : QudaEigParam ℚ :=
  { negativeConvParam with nEv := 2147483642, nKr := 2147483644, nConv := 1 }

/-- A basis in which the vector stored at position `i` carries the label `i`. -/
def labelledBasis : Int → Int :=
  fun i => i

/-- The session on which `operator()` is called for a fresh solver, with the
labelled basis and `nConv` zero eigenvalues. -/
def freshSession (p : QudaEigParam ℚ) : Session ℚ Int :=
  Session.start (freshSolver p) labelledBasis (List.replicate p.nConv.toNat (0, 0)) 0

/-- Numerical phases whose dense eigen-step always returns the given Ritz values
and residual estimates, and whose other phases leave the arrays as they are. -/
def fixedRitzKernels (alpha residua : Int → ℚ) : Kernels ℚ Int :=
  { lanczosStep := fun s _ => .ok s.arr
    eigensolveFromArrowMat := fun s _ _ => { s.arr with alpha := alpha, residua := residua }
    computeKeptRitz := fun s => s.arr
    computeEvals := fun s _ => (s.ctl.evals, s.arr.residua)
    initialGuess := fun s => s.arr.kSpace 0
    loadFromFile := fun s => .ok s }

/-- Polynomial acceleration of degree 1 with the bounds `a_min = 1`, `a_max = 3`. -/
def degreeOneParam : QudaEigParam ℚ :=
  { wideParam with use_poly_acc := true, poly_deg := 1, a_min := 1, a_max := 3 }

/-- Ritz values `1, 3, 2` at positions 0, 1, 2 and zero elsewhere. -/
def unsortedAlpha : Int → ℚ :=
  fun i => if i = 0 then 1 else if i = 1 then 3 else if i = 2 then 2 else 0

/-- Residual estimates that are 0 at position 1 and 1 everywhere else. -/
def lateFirstResidua : Int → ℚ :=
  fun i => if i = 1 then 0 else 1


/-! ## Data for the statements about `chebyOp` and the counters -/

/-- Stated from the specification, not from the source: the Chebyshev polynomial of
the first kind, `T_0 = 1`, `T_1 = x`, `T_(n+2) = 2 x T_(n+1) - T_n`, with which
the output of `chebyOp` is compared. -/
def chebyshevT {K : Type} [Field K] : Nat → K → K
  | 0, _ => 1
  | 1, x => x
  | n + 2, x => 2 * x * chebyshevT (n + 1) x - chebyshevT n x

/-- Polynomial acceleration of degree 2 with the bounds `a_min = 1`, `a_max = 3`. -/
def degreeTwoParam : QudaEigParam ℚ :=
  { degreeOneParam with poly_deg := 2 }

/-- The configuration `wideParam` with a budget of 2 restarts. -/
def twoRestartParam : QudaEigParam ℚ :=
  { wideParam with max_restarts := 2 }

/-- Residual estimates `1e-11` at positions 1 and 2 (below `tol = 1e-10`, above
`DBL_EPSILON`) and 1 everywhere else. -/
def twoNearlyConverged : Int → ℚ :=
  fun i => if i = 1 ∨ i = 2 then 1 / 10 ^ 11 else 1

/-- Numerical phases whose dense eigen-step returns Ritz values 1 and the
residual estimates `first` in the first sweep (`restart_iter = 0`) and `later`
in every other sweep; the other phases leave the arrays as they are. -/
def phasedKernels (first later : Int → ℚ) : Kernels ℚ Int :=
  { lanczosStep := fun s _ => .ok s.arr
    eigensolveFromArrowMat := fun s _ _ =>
      { s.arr with
        alpha := fun _ => 1
        residua := if s.ctl.restart_iter = 0 then first else later }
    computeKeptRitz := fun s => s.arr
    computeEvals := fun s _ => (s.ctl.evals, s.arr.residua)
    initialGuess := fun s => s.arr.kSpace 0
    loadFromFile := fun s => .ok s }

/-! ## The external layers used by the numerical member functions -/

/-- The parts of the external layers that the embedding leaves open: the inner
product `<x, y>` computed by `blas::cDotProduct` of the vector BLAS layer, which
also stands for `blas::reDotProduct`, its real part (the two agree in the real
case, in which a complex coefficient is a real one, and wherever `<x, y>` is
real), and `sqrt` of `<math.h>`. -/
structure Externals (K V : Type) where
  dot : V → V → K
  sqrt : K → K

/-- What exact arithmetic means for the inner product: it is symmetric and
linear in its first argument. -/
structure IsInner {K V : Type} [Field K] [AddCommGroup V] [Module K V] (dot : V → V → K) :
    Prop where
  symm : ∀ x y, dot x y = dot y x
  add_left : ∀ x y z, dot (x + y) z = dot x z + dot y z
  smul_left : ∀ (a : K) x z, dot (a • x) z = a * dot x z

/-- A dense eigen-decomposition as returned by `Eigen::SelfAdjointEigenSolver`:
`eigenvalues i` is `eigenvalues()[i]` and `eigenvectors i j` is
`eigenvectors().col(i)[j]`. -/
structure EigenSolution (K : Type) where
  eigenvalues : Int → K
  eigenvectors : Int → Int → K

/-- Modelled from the spec: `blas::axpy(a, x, y)` of the vector BLAS layer (not
part of the sources), `y += a * x`; the function returns the new `y`. -/
def blas.axpy {K V : Type} [Field K] [AddCommGroup V] [Module K V] (a : K) (x y : V) : V :=
  y + a • x

/-- Modelled from the spec: `blas::ax(a, x)` of the vector BLAS layer (not part
of the sources), `x *= a`; the function returns the new `x`. -/
def blas.ax {K V : Type} [Field K] [AddCommGroup V] [Module K V] (a : K) (x : V) : V :=
  a • x

/-- Modelled from the spec: `blas::norm2(x)` of the vector BLAS layer (not part
of the sources), the squared norm `<x, x>`. -/
def blas.norm2 {K V : Type} (e : Externals K V) (x : V) : K :=
  e.dot x x

/-- A loop `for (int i = ...; i < hi; i++) body`, run for at most `fuel`
iterations from the given `i`. -/
def forLoop {σ : Type} (hi : Int) (body : Int → σ → σ) : Nat → Int → σ → σ
  | 0, _, s => s
  | fuel + 1, i, s => if i < hi then forLoop hi body fuel (i + 1) (body i s) else s

/-- The loop `for (int i = lo; i < hi; i++) body`; it is given `hi - lo`
iterations, the number of values `i` takes. -/
def forRange {σ : Type} (lo hi : Int) (body : Int → σ → σ) (s : σ) : σ :=
  forLoop hi body (hi - lo).toNat lo s

/-- Modelled from the spec: the block forms `blas::axpy(a, x, y)` and
`blas::caxpy(a, x, y)` of the vector BLAS layer (not part of the sources) for
`n` vectors `x[0..n)`, coefficients `a[0..n)` and a single vector `y`:
`y += sum_i a[i] * x[i]`; the function returns the new `y`. -/
def blas.blockAxpy {K V : Type} [Field K] [AddCommGroup V] [Module K V] (a : Int → K)
    (x : Int → V) (n : Int) (y : V) : V :=
  forRange 0 n (fun i y => y + a i • x i) y

/-! ## `EigenSolver::blockOrthogonalize` and `TRLM::lanczosStep` -/

/-- The member function `EigenSolver::blockOrthogonalize(vecs, rvec, j)` (lines
207-226): the `j + 1` inner products `s[i] = <vecs[i], rvec>` are taken in one
batched call, summed and negated, and one batched multiply-add updates `rvec`.
Returns the new `rvec` and the sum. -/
def blockOrthogonalize {K V : Type} [Field K] [AddCommGroup V] [Module K V] (e : Externals K V)
    (vecs : Int → V) (rvec : V) (j : Int) : V × K :=
  -- blas::cDotProduct(s, vecs_ptr, rvec)
  let s : Int → K := fun i => e.dot (vecs i) rvec
  -- for (int i = 0; i < j + 1; i++) { sum += s[i]; s[i] *= -1.0; }
  let st : K × (Int → K) :=
    forRange 0 (j + 1) (fun i p => (p.1 + p.2 i, Function.update p.2 i (p.2 i * -1))) (0, s)
  -- blas::caxpy(s, vecs_ptr, rvec)
  (blas.blockAxpy st.2 vecs (j + 1) rvec, st.1)

/-- The member function `TRLM::lanczosStep(v, j)` (lines 740-771) on the arrays of
a solve; `mat` is the raw operator and `num_keep` the member of that name. -/
def lanczosStep {K V : Type} [Field K] [AddCommGroup V] [Module K V] (e : Externals K V)
    (eig_param : QudaEigParam K) (mat : V → V) (num_keep : Int) (kr : Krylov K V) (j : Int) :
    Except QudaError (Krylov K V) :=
  -- r = A * v_j
  match chebyOp eig_param mat (kr.kSpace j) with
  | .error err => .error err
  | .ok cheb =>
    -- a_j = v_j^dag * r
    let alpha : Int → K := Function.update kr.alpha j (e.dot (kr.kSpace j) cheb.out)
    -- r = r - a_j * v_j
    let r1 : V := blas.axpy (-alpha j) (kr.kSpace j) cheb.out
    let start : Int := if j > num_keep then j - 1 else 0
    -- r = r - b_{j-1} * v_{j-1}
    let r2 : V := forRange start j (fun i r => blas.axpy (-kr.beta i) (kr.kSpace i) r) r1
    -- Orthogonalise r against the Krylov space
    let r3 : V := if j > 0 then (blockOrthogonalize e kr.kSpace r2 j).1 else r2
    -- b_j = ||r||
    let beta : Int → K := Function.update kr.beta j (e.sqrt (blas.norm2 e r3))
    -- v_{j+1} = r / b_j
    let v1 : Int → V := Function.update kr.kSpace (j + 1) 0
    let v2 : Int → V := Function.update v1 (j + 1) (blas.axpy (1 / beta j) r3 (v1 (j + 1)))
    .ok { kr with alpha := alpha, beta := beta, kSpace := v2, r := r3 }

/-- Stated from the specification, not from the source: what a Lanczos step `j` leaves
in the arrays, given `w = chebyOp(v_j)`. With `a = <v_j, w>`,
`r1 = w - a v_j - sum_{i = start}^{j - 1} beta[i] v_i` where `start = j - 1` if
`j > num_keep` and `start = 0` otherwise, `r2 = r1 - sum_{i = 0}^{j} <v_i, r1> v_i`
if `j > 0` and `r2 = r1` otherwise, and `b = sqrt <r2, r2>`: entry `j` of `alpha`
becomes `a`, entry `j` of `beta` becomes `b`, `v_{j+1}` becomes `r2 / b`, the
vector `r[0]` holds `r2`, and nothing else changes. -/
def lanczosStepSpec {K V : Type} [Field K] [AddCommGroup V] [Module K V] (e : Externals K V)
    (num_keep : Int) (kr : Krylov K V) (j : Int) (w : V) : Krylov K V :=
  let a : K := e.dot (kr.kSpace j) w
  let start : Int := if j > num_keep then j - 1 else 0
  let r1 : V :=
    w - a • kr.kSpace j - (seg (fun i => kr.beta i • kr.kSpace i) start (j - start).toNat).sum
  let r2 : V :=
    if j > 0 then r1 - (seg (fun i => e.dot (kr.kSpace i) r1 • kr.kSpace i) 0 (j + 1).toNat).sum
    else r1
  let b : K := e.sqrt (e.dot r2 r2)
  { kr with
    alpha := Function.update kr.alpha j a
    beta := Function.update kr.beta j b
    kSpace := Function.update kr.kSpace (j + 1) ((1 / b) • r2)
    r := r2 }

/-! ## `EigenSolver::computeEvals` -/

/-- The arrays `computeEvals` writes: `evals` (an eigenvalue is a real number in
the real case), the member `residua` and the vector `r[0]`. -/
structure EvalState (K V : Type) where
  evals : Int → K
  residua : Int → K
  r : V

/-- The member function `EigenSolver::computeEvals(mat, evecs, evals, size)` (lines
345-360). -/
def computeEvals {K V : Type} [Field K] [AddCommGroup V] [Module K V] (e : Externals K V)
    (mat : V → V) (evecs : Int → V) (size : Int) (st : EvalState K V) : EvalState K V :=
  forRange 0 size
    (fun i st =>
      -- r = A * v_i
      let r : V := mat (evecs i)
      -- evals[i] = blas::cDotProduct(*evecs[i], *r[0]) / sqrt(blas::norm2(*evecs[i]))
      let evals : Int → K :=
        Function.update st.evals i (e.dot (evecs i) r / e.sqrt (blas.norm2 e (evecs i)))
      -- blas::caxpby(evals[i], *evecs[i], n_unit, *r[0])
      let r1 : V := blas.caxpby (evals i) (evecs i) (-1) r
      -- residua[i] = sqrt(blas::norm2(*r[0]))
      { evals := evals
        residua := Function.update st.residua i (e.sqrt (blas.norm2 e r1))
        r := r1 })
    st

/-! ## `TRLM::eigensolveFromArrowMat` -/

/-- The assignment `A(i, j) = x` to an entry of a dense matrix. -/
def setEntry {K : Type} (A : Int → Int → K) (i j : Int) (x : K) : Int → Int → K :=
  Function.update A i (Function.update (A i) j x)

/-- Lines 812-819: if `reverse` is set, `alpha[i]` and `beta[i]` are negated for
`num_locked <= i < nKr - 1`, then `alpha[nKr - 1]`. Returns `alpha` and `beta`. -/
def invertSpectrum {K : Type} [Field K] (reverse : Bool) (nKr num_locked : Int)
    (alpha beta : Int → K) : (Int → K) × (Int → K) :=
  if reverse then
    let ab : (Int → K) × (Int → K) :=
      forRange num_locked (nKr - 1)
        (fun i ab => (Function.update ab.1 i (ab.1 i * -1), Function.update ab.2 i (ab.2 i * -1)))
        (alpha, beta)
    (Function.update ab.1 (nKr - 1) (ab.1 (nKr - 1) * -1), ab.2)
  else (alpha, beta)

/-- Lines 808 and 821-840: the matrix `A`, zero at first, then filled by three
loops from the arrays `alpha` and `beta` as they are at that point. -/
def arrowMatrix {K : Type} [Field K] (alpha beta : Int → K) (dim num_locked arrow_pos : Int) :
    Int → Int → K :=
  -- MatrixXd A = MatrixXd::Zero(dim, dim)
  let A0 : Int → Int → K := fun _ _ => 0
  -- alpha populates the diagonal
  let A1 := forRange 0 dim (fun i A => setEntry A i i (alpha (i + num_locked))) A0
  -- beta populates the arrow
  let A2 := forRange 0 (arrow_pos - 1)
    (fun i A =>
      setEntry (setEntry A i (arrow_pos - 1) (beta (i + num_locked))) (arrow_pos - 1) i
        (beta (i + num_locked)))
    A1
  -- beta populates the sub-diagonal
  forRange (arrow_pos - 1) (dim - 1)
    (fun i A =>
      setEntry (setEntry A i (i + 1) (beta (i + num_locked))) (i + 1) i (beta (i + num_locked)))
    A2

/-- The arrays `eigensolveFromArrowMat` reads and writes. -/
structure ArrowState (K : Type) where
  alpha : Int → K
  beta : Int → K
  residua : Int → K
  ritz_mat : Int → K

/-- The member function `TRLM::eigensolveFromArrowMat(num_locked, arrow_pos)`
(lines 802-862); `eigensolver dim A` is what `SelfAdjointEigenSolver` computes
for the `dim x dim` matrix `A`. -/
def eigensolveFromArrowMat {K : Type} [LinearOrderedField K]
    (eigensolver : Int → (Int → Int → K) → EigenSolution K) (reverse : Bool) (nKr : Int)
    (st : ArrowState K) (num_locked arrow_pos : Int) : ArrowState K :=
  let dim : Int := nKr - num_locked
  -- ritz_mat.resize(dim * dim); for (int i = 0; i < dim * dim; i++) ritz_mat[i] = 0.0;
  let ritz0 : Int → K := forRange 0 (dim * dim) (fun i m => Function.update m i 0) st.ritz_mat
  -- Invert the spectrum due to chebyshev
  let ab : (Int → K) × (Int → K) := invertSpectrum reverse nKr num_locked st.alpha st.beta
  -- Construct arrow mat A_{dim,dim} and eigensolve it
  let sol : EigenSolution K := eigensolver dim (arrowMatrix ab.1 ab.2 dim num_locked arrow_pos)
  -- repopulate ritz matrix
  let ritz1 : Int → K :=
    forRange 0 dim
      (fun i m => forRange 0 dim (fun j m => Function.update m (dim * i + j) (sol.eigenvectors i j)) m)
      ritz0
  let ra : (Int → K) × (Int → K) :=
    forRange 0 dim
      (fun i ra =>
        (Function.update ra.1 (i + num_locked) |ab.2 (nKr - 1) * sol.eigenvectors i (dim - 1)|,
          -- Update the alpha array
          Function.update ra.2 (i + num_locked) (sol.eigenvalues i)))
      (st.residua, ab.1)
  -- Put spectrum back in order
  let alpha : Int → K :=
    if reverse then forRange num_locked nKr (fun i a => Function.update a i (a i * -1)) ra.2
    else ra.2
  { alpha := alpha, beta := ab.2, residua := ra.1, ritz_mat := ritz1 }

/-! ## `TRLM::computeKeptRitz` -/

/-- Lines 880-896 of `computeKeptRitz`: for each `i < iter_keep` the vector
`kSpace[offset + i]` is built from `kSpace[num_locked]` scaled by
`ritz_mat[dim * i]` and one batched multiply-add over the vectors
`kSpace[num_locked + j]`, `1 <= j < dim`. Returns `kSpace` and `r[0]`. -/
def rotateRitz {K V : Type} [Field K] [AddCommGroup V] [Module K V]
    (nKr num_locked iter_keep : Int) (ritz_mat : Int → K) (kSpace : Int → V) (r : V) :
    (Int → V) × V :=
  let offset : Int := nKr + 1
  let dim : Int := nKr - num_locked
  forRange 0 iter_keep
    (fun i vr =>
      let k : Int := offset + i
      -- *r[0] = *kSpace[num_locked]; blas::ax(ritz_mat[dim * i], *r[0]); *kSpace[k] = *r[0]
      let r : V := blas.ax (ritz_mat (dim * i)) (vr.1 num_locked)
      let v : Int → V := Function.update vr.1 k r
      -- vecs_ptr[j - 1] = kSpace[num_locked + j], ritz_mat_col[j - 1] = ritz_mat[i * dim + j]
      -- for j = 1 .. dim - 1, then blas::axpy(ritz_mat_col, vecs_ptr, kSpace_ptr)
      (Function.update v k
        (blas.blockAxpy (fun m => ritz_mat (i * dim + (m + 1)))
          (fun m => v (num_locked + (m + 1))) (dim - 1) (v k)), r))
    (kSpace, r)

/-- The member function `TRLM::computeKeptRitz(kSpace)` (lines 864-905) on the
arrays of a solve; `nKr`, `num_locked` and `iter_keep` are the members of those
names. -/
def computeKeptRitz {K V : Type} [Field K] [AddCommGroup V] [Module K V]
    (nKr num_locked iter_keep : Int) (kr : Krylov K V) : Krylov K V :=
  let offset : Int := nKr + 1
  -- lines 870-875: kSpace grows to offset + iter_keep vectors if it has fewer
  let size : Int :=
    if kr.kSpace_size < offset + iter_keep then offset + iter_keep else kr.kSpace_size
  let vr : (Int → V) × V := rotateRitz nKr num_locked iter_keep kr.ritz_mat kr.kSpace kr.r
  -- for (int i = 0; i < iter_keep; i++) *kSpace[i + num_locked] = *kSpace[offset + i]
  let v1 : Int → V :=
    forRange 0 iter_keep (fun i v => Function.update v (i + num_locked) (v (offset + i))) vr.1
  -- *kSpace[num_locked + iter_keep] = *kSpace[nKr]
  let v2 : Int → V := Function.update v1 (num_locked + iter_keep) (v1 nKr)
  -- for (int i = 0; i < iter_keep; i++)
  --   beta[i + num_locked] = beta[nKr - 1] * ritz_mat[dim * (i + 1) - 1]
  let beta : Int → K :=
    forRange 0 iter_keep
      (fun i b =>
        Function.update b (i + num_locked)
          (b (nKr - 1) * kr.ritz_mat ((nKr - num_locked) * (i + 1) - 1)))
      kr.beta
  { kr with kSpace := v2, kSpace_size := size, r := vr.2, beta := beta }

/-- The combination `sum_{j < dim} ritz_mat[dim * i + j] * kSpace[num_locked + j]`
of the unlocked basis vectors with the components of eigenvector `i`. -/
def ritzVector {K V : Type} [Field K] [AddCommGroup V] [Module K V] (ritz_mat : Int → K)
    (kSpace : Int → V) (num_locked dim i : Int) : V :=
  (seg (fun j => ritz_mat (dim * i + j) • kSpace (num_locked + j)) 0 dim.toNat).sum

/-! ## Concrete vectors for the numerical statements -/

/-- Vectors with three rational components. -/
abbrev Vec3 : Type := ℚ × ℚ × ℚ

/-- The Euclidean inner product of `Vec3`. -/
def dot3 (x y : Vec3) : ℚ :=
  x.1 * y.1 + x.2.1 * y.2.1 + x.2.2 * y.2.2

/-- The natural number whose square is `n`, or `0` if there is none. -/
def exactRoot (n : Nat) : Nat :=
  ((List.range (n + 1)).find? (fun m => m * m == n)).getD 0

/-- The square root of a rational number whose numerator and denominator are
perfect squares. -/
def ratSqrt (q : ℚ) : ℚ :=
  (exactRoot q.num.toNat : ℚ) / (exactRoot q.den : ℚ)

/-- The Euclidean inner product of `Vec3` together with `ratSqrt`. -/
def euclid3 : Externals ℚ Vec3 :=
  { dot := dot3, sqrt := ratSqrt }

/-- The operator `diag(3, 1, 1)` on `Vec3`. -/
def diag311 (x : Vec3) : Vec3 :=
  (3 * x.1, x.2.1, x.2.2)

/-- An `EvalState` with all entries zero. -/
def zeroEvalState : EvalState ℚ Vec3 :=
  { evals := fun _ => 0, residua := fun _ => 0, r := 0 }

/-- An array `alpha` with `alpha[i] = i`. -/
def sampleAlpha : Int → ℚ := fun i => i

/-- An array `beta` with `beta[i] = 10 + i`. -/
def sampleBeta : Int → ℚ := fun i => 10 + i

/-- A dense backend that is exact on diagonal matrices: eigenvalue `i` is the
diagonal entry `A(i,i)` and eigenvector `i` is minus the unit vector `i`. -/
def diagonalBackend : Int → (Int → Int → ℚ) → EigenSolution ℚ :=
  fun _ A => { eigenvalues := fun i => A i i, eigenvectors := fun i j => if i = j then -1 else 0 }

/-- Arrays for a compression with `nKr = 2` and nothing locked: `kSpace[0 .. 2]`
are the three unit vectors and `ritz_mat` holds the two eigenvectors
`(3/5, 4/5)` and `(-4/5, 3/5)`, one after the other. -/
def rotationKrylov : Krylov ℚ Vec3 :=
  { alpha := fun _ => 0
    beta := fun _ => 1
    residua := fun _ => 0
    ritz_mat := fun i =>
      if i = 0 then 3 / 5 else if i = 1 then 4 / 5 else if i = 2 then -4 / 5
      else if i = 3 then 3 / 5 else 0
    kSpace := fun i =>
      if i = 0 then (1, 0, 0) else if i = 1 then (0, 1, 0) else if i = 2 then (0, 0, 1) else 0
    kSpace_size := 3
    r := 0 }

/-! ## Data for the statements about indices, `mat_norm` and locked pairs -/

/-- Ritz values `2, 1` at positions 0, 1 and zero elsewhere. -/
def descendingPair : Int → ℚ :=
  fun i => if i = 0 then 2 else if i = 1 then 1 else 0

/-- Entries `NaN, 1` at positions 0, 1 and `1` elsewhere. -/
def nanPair : Int → Double ℚ :=
  fun i => if i = 0 then .nan else .num 1

/-- The numbers `1, 3, 2` at positions 0, 1, 2 and `0` elsewhere, as doubles. -/
def numberTriple : Int → Double ℚ :=
  fun i => .num (unsortedAlpha i)

/-- Numerical phases whose dense eigen-step returns Ritz values that are all `5`
in the first sweep and all `1` in every later sweep, with all residual
estimates `1`; the other phases leave the arrays as they are. -/
def shrinkingRitzKernels : Kernels ℚ Int :=
  { lanczosStep := fun s _ => .ok s.arr
    eigensolveFromArrowMat := fun s _ _ =>
      { s.arr with
        alpha := if s.ctl.restart_iter = 0 then fun _ => 5 else fun _ => 1
        residua := fun _ => 1 }
    computeKeptRitz := fun s => s.arr
    computeEvals := fun s _ => (s.ctl.evals, s.arr.residua)
    initialGuess := fun s => s.arr.kSpace 0
    loadFromFile := fun s => .ok s }

/-- The control data of a fresh solver for `wideParam` with the `epsilon` of
double precision. -/
def sampleControl : Control ℚ :=
  { (freshSession wideParam).ctl with epsilon := 1 / 2 ^ 52 }

/-- A valid configuration with the smallest Krylov space for its search space:
`nEv = 8`, `nKr = 14`, `nConv = 8`, two restarts. -/
def tightParam : QudaEigParam ℚ :=
  { negativeConvParam with nEv := 8, nKr := 14, nConv := 8, max_restarts := 2 }

/-- Residual estimates that are 0 at positions 1 to 5 and 1 everywhere else. -/
def fiveSmallResidua : Int → ℚ :=
  fun i => if 1 ≤ i ∧ i ≤ 5 then 0 else 1

/-- Numerical phases that make the writes to the basis visible: `lanczosStep(v, j)`
only stamps the vector it writes, `v_{j+1}`, with `1000 * (restart_iter + 1) + j`;
the dense eigen-step returns Ritz values `1` and the given residual estimates;
the compression leaves the arrays as they are. -/
def stampingKernels (residua : Int → ℚ) : Kernels ℚ Int :=
  { lanczosStep := fun s j =>
      .ok { s.arr with
        kSpace := Function.update s.arr.kSpace (j + 1) (1000 * (s.ctl.restart_iter + 1) + j) }
    eigensolveFromArrowMat := fun s _ _ => { s.arr with alpha := fun _ => 1, residua := residua }
    computeKeptRitz := fun s => s.arr
    computeEvals := fun s _ => (s.ctl.evals, s.arr.residua)
    initialGuess := fun s => s.arr.kSpace 0
    loadFromFile := fun s => .ok s }

/-- Arrays for an eigen-step with `nKr = 3` and `reverse` set: `alpha[i] = -i`,
`beta[2] = -5` and every other entry of `beta` zero. -/
def descendingArrow : ArrowState ℚ :=
  { alpha := fun i => -i
    beta := fun i => if i = 2 then -5 else 0
    residua := fun _ => 0
    ritz_mat := fun _ => 0 }

/-! ## The array accesses of `eigensolveFromArrowMat` -/

/-- Polynomial acceleration with `poly_deg = 3` and the bounds `a_min = 1`,
`a_max = 3`. -/
def degreeThreeParam : QudaEigParam ℚ :=
  { degreeOneParam with poly_deg := 3 }

/-! ## Construction -/

theorem int32_of_range (x : Int) (h0 : -2 ^ 31 ≤ x) (h1 : x < 2 ^ 31) : int32 x = x := by
  unfold int32
  norm_num at h0 h1 ⊢
  omega

theorem sizeBytes_of_range (count : Int) (sizeofT : Nat) (h0 : 0 ≤ count)
    (h1 : count.toNat * sizeofT < 2 ^ 64) : sizeBytes count sizeofT = count.toNat * sizeofT := by
  unfold sizeBytes size_t
  have hc : count.toNat < 2 ^ 64 ∨ sizeofT = 0 := by
    rcases Nat.eq_zero_or_pos sizeofT with hz | hz
    · exact Or.inr hz
    · left
      calc count.toNat ≤ count.toNat * sizeofT := Nat.le_mul_of_pos_right _ hz
        _ < 2 ^ 64 := h1
  rcases hc with hc | hc
  · have : (count % 2 ^ 64).toNat = count.toNat := by
      norm_num at hc ⊢
      omega
    rw [this, Nat.mod_eq_of_lt h1]
  · subst hc
    simp

theorem safe_malloc_of_grant (host : Host) (name : String) (size : Nat)
    (h : host.grants name size = true) : safe_malloc host name size = .ok ⟨name, size⟩ := by
  unfold safe_malloc
  rw [if_pos h]

theorem safe_malloc_of_refusal (host : Host) (name : String) (size : Nat)
    (h : ¬ host.grants name size = true) : safe_malloc host name size = .error .alloc_failed := by
  unfold safe_malloc
  rw [if_neg h]

theorem base_construct_of_le {K : Type} [Zero K] (host : Host) (p : QudaEigParam K)
    (h : p.nKr ≤ p.nEv) : EigenSolver.construct host p = ⟨[], .error .nKr_le_nEv⟩ := by
  simp [EigenSolver.construct, h]

theorem base_construct_of_lt {K : Type} [Zero K] (host : Host) (p : QudaEigParam K)
    (h1 : ¬ p.nKr ≤ p.nEv) (h : p.nEv < p.nConv) :
    EigenSolver.construct host p = ⟨[], .error .nConv_gt_nEv⟩ := by
  simp [EigenSolver.construct, h, h1]

/-- The base constructor returns an object exactly when its five sanity checks
pass, its two allocations are granted and the spectrum type is one of the six
named values; the object then carries the three sizes of the configuration. -/
theorem base_construct_outcome {K : Type} [Zero K] (host : Host) (p : QudaEigParam K) :
    (∀ base, (EigenSolver.construct host p).outcome = .ok base →
      (p.nEv < p.nKr ∧ p.nConv ≤ p.nEv ∧ p.nEv ≠ 0 ∧ p.nKr ≠ 0 ∧ p.nConv ≠ 0 ∧
        p.spectrum ≠ .QUDA_SPECTRUM_INVALID ∧
        host.grants "residua" (sizeBytes p.nKr 8) = true ∧
        host.grants "Qmat" (sizeBytes (int32 (p.nEv * p.nKr)) 16) = true) ∧
      base.nKr = p.nKr ∧ base.nEv = p.nEv ∧ base.nConv = p.nConv) ∧
    ((p.nEv < p.nKr ∧ p.nConv ≤ p.nEv ∧ p.nEv ≠ 0 ∧ p.nKr ≠ 0 ∧ p.nConv ≠ 0 ∧
        p.spectrum ≠ .QUDA_SPECTRUM_INVALID ∧
        host.grants "residua" (sizeBytes p.nKr 8) = true ∧
        host.grants "Qmat" (sizeBytes (int32 (p.nEv * p.nKr)) 16) = true) →
      ∃ base, (EigenSolver.construct host p).outcome = .ok base) := by
  unfold EigenSolver.construct
  dsimp only
  constructor
  · intro base
    split_ifs with h1 h2 h3 h4 h5
    · intro h; cases h
    · intro h; cases h
    · intro h; cases h
    · intro h; cases h
    · intro h; cases h
    · by_cases g1 : host.grants "residua" (sizeBytes p.nKr 8) = true
      · rw [safe_malloc_of_grant host _ _ g1]
        by_cases g2 : host.grants "Qmat" (sizeBytes (int32 (p.nEv * p.nKr)) 16) = true
        · rw [safe_malloc_of_grant host _ _ g2]
          dsimp only
          cases hs : spectrumName p.spectrum with
          | none => intro h; cases h
          | some name =>
            intro h
            simp only [Except.ok.injEq] at h
            subst h
            refine ⟨⟨by omega, by omega, h3, h4, h5, ?_, g1, g2⟩, rfl, rfl, rfl⟩
            intro hi
            rw [hi] at hs
            cases hs
        · rw [safe_malloc_of_refusal host _ _ g2]
          intro h; cases h
      · rw [safe_malloc_of_refusal host _ _ g1]
        intro h; cases h
  · rintro ⟨h1, h2, h3, h4, h5, h6, g1, g2⟩
    rw [if_neg (by omega), if_neg (by omega), if_neg h3, if_neg h4, if_neg h5,
      safe_malloc_of_grant host _ _ g1, safe_malloc_of_grant host _ _ g2]
    dsimp only
    cases hs : p.spectrum
    all_goals first
      | exact absurd hs h6
      | exact ⟨_, rfl⟩

/-- The derived constructor, by cases on what the base constructor returned. -/
theorem trlm_construct_succeeded {K : Type} [Zero K] (host : Host) (p : QudaEigParam K) :
    (TRLM.construct host p).succeeded = true ↔
      ∃ base, (EigenSolver.construct host p).outcome = .ok base ∧
        host.grants "alpha" (sizeBytes base.nKr 8) = true ∧
        host.grants "beta" (sizeBytes base.nKr 8) = true ∧
        ¬ base.nKr < int32 (base.nEv + 6) ∧
        (p.spectrum = .QUDA_SPECTRUM_LR_EIG ∨ p.spectrum = .QUDA_SPECTRUM_SR_EIG) := by
  unfold TRLM.construct
  rcases hc : EigenSolver.construct host p with ⟨al, e | base⟩
  · simp [Constructed.succeeded]
  · dsimp only
    by_cases g1 : host.grants "alpha" (sizeBytes base.nKr 8) = true
    · rw [safe_malloc_of_grant host _ _ g1]
      by_cases g2 : host.grants "beta" (sizeBytes base.nKr 8) = true
      · rw [safe_malloc_of_grant host _ _ g2]
        dsimp only
        by_cases h1 : base.nKr < int32 (base.nEv + 6)
        · simp [Constructed.succeeded, h1]
        · by_cases h2 : p.spectrum = .QUDA_SPECTRUM_LR_EIG ∨ p.spectrum = .QUDA_SPECTRUM_SR_EIG
          · simp [Constructed.succeeded, h1, h2, g1, g2]
            omega
          · simp [Constructed.succeeded, h1, h2]
      · rw [safe_malloc_of_refusal host _ _ g2]
        simp [Constructed.succeeded, g2]
    · rw [safe_malloc_of_refusal host _ _ g1]
      simp [Constructed.succeeded, g1]

/-- The derived constructor allocates nothing more when the base constructor
fails, and passes its error on. -/
theorem trlm_construct_of_base_error {K : Type} [Zero K] (host : Host) (p : QudaEigParam K)
    (al : List Buffer) (e : QudaError) (h : EigenSolver.construct host p = ⟨al, .error e⟩) :
    TRLM.construct host p = ⟨al, .error e⟩ := by
  unfold TRLM.construct
  rw [h]

/-- Construction succeeds exactly when every check of the two constructors
passes and each of the four allocations is granted. -/
theorem trlm_construct_succeeded_iff {K : Type} [Zero K] (host : Host) (p : QudaEigParam K) :
    (TRLM.construct host p).succeeded = true ↔
      (p.nKr > p.nEv ∧ p.nEv ≥ p.nConv ∧ p.nEv ≠ 0 ∧ p.nKr ≠ 0 ∧ p.nConv ≠ 0 ∧
        p.nKr ≥ int32 (p.nEv + 6) ∧
        (p.spectrum = .QUDA_SPECTRUM_SR_EIG ∨ p.spectrum = .QUDA_SPECTRUM_LR_EIG) ∧
        host.grants "residua" (sizeBytes p.nKr 8) = true ∧
        host.grants "Qmat" (sizeBytes (int32 (p.nEv * p.nKr)) 16) = true ∧
        host.grants "alpha" (sizeBytes p.nKr 8) = true ∧
        host.grants "beta" (sizeBytes p.nKr 8) = true) := by
  rw [trlm_construct_succeeded]
  obtain ⟨hout, hin⟩ := base_construct_outcome host p
  constructor
  · rintro ⟨base, hb, g3, g4, h6, hs⟩
    obtain ⟨⟨h1, h2, h3, h4, h5, _, g1, g2⟩, e1, e2, _⟩ := hout base hb
    rw [e1, e2] at h6
    rw [e1] at g3 g4
    exact ⟨h1, h2, h3, h4, h5, by omega, hs.symm, g1, g2, g3, g4⟩
  · rintro ⟨h1, h2, h3, h4, h5, h6, hs, g1, g2, g3, g4⟩
    have hv : p.spectrum ≠ .QUDA_SPECTRUM_INVALID := by
      rcases hs with hs | hs <;> rw [hs] <;> decide
    obtain ⟨base, hb⟩ := hin ⟨h1, h2, h3, h4, h5, hv, g1, g2⟩
    obtain ⟨_, e1, e2, _⟩ := hout base hb
    exact ⟨base, hb, by rw [e1]; exact g3, by rw [e1]; exact g4, by rw [e1, e2]; omega, hs.symm⟩

/-- C1 (as stated, refuted): the triple `nEv = 4`, `nKr = 10`, `nConv = -1` violates
`nConv > 0`, and construction completes without raising an error (the four
buffers take 80, 640, 80 and 80 bytes). -/
theorem construct_accepts_negative_nConv :
    ¬ (negativeConvParam.nKr > negativeConvParam.nEv ∧
        negativeConvParam.nEv ≥ negativeConvParam.nConv ∧ negativeConvParam.nConv > 0 ∧
        negativeConvParam.nKr ≥ negativeConvParam.nEv + 6) ∧
      (TRLM.construct roomyHost negativeConvParam).succeeded = true := by
  decide

/-- The sum `nEv + 6` of line 508 is taken in `int`: for `nEv = 2147483642`,
`nKr = 2147483644`, `nConv = 1` it wraps around to `-2147483648`, the check
`nKr < nEv + 6` passes although `nKr = nEv + 2`, the product `nEv * nKr` wraps
around to `24`, and construction succeeds on a host that grants the three
buffers of `8 * nKr` bytes. -/
theorem construct_accepts_wrapped_sum :
    wrappedSumParam.nKr < wrappedSumParam.nEv + 6 ∧
      int32 (wrappedSumParam.nEv + 6) = -2147483648 ∧
      int32 (wrappedSumParam.nEv * wrappedSumParam.nKr) = 24 ∧
      (TRLM.construct roomyHost wrappedSumParam).succeeded = true := by
  decide

/-- C1 (amended): for every host and every triple with `nConv >= 0` and
`nEv + 6 <= 2^31 - 1` that violates one of `nKr > nEv >= nConv > 0` and
`nKr >= nEv + 6`, construction fails with an error. -/
theorem construct_fails_of_violation {K : Type} [Zero K] (host : Host) (p : QudaEigParam K)
    (h0 : 0 ≤ p.nConv) (hsum : p.nEv + 6 < 2 ^ 31)
    (hv : ¬ (p.nKr > p.nEv ∧ p.nEv ≥ p.nConv ∧ p.nConv > 0 ∧ p.nKr ≥ p.nEv + 6)) :
    (TRLM.construct host p).succeeded = false := by
  cases hs : (TRLM.construct host p).succeeded
  · rfl
  · exfalso
    obtain ⟨h1, h2, _, _, h5, h6, _⟩ := (trlm_construct_succeeded_iff host p).mp hs
    rw [int32_of_range _ (by norm_num; omega) hsum] at h6
    exact hv ⟨h1, h2, by omega, h6⟩

/-- C1 (amended), at `nEv = 4`, `nKr = 8`, `nConv = 3`, which violates `nKr >= nEv + 6`. -/
theorem construct_fails_of_violation_witness :
    (0 : Int) ≤ shortKrylovParam.nConv ∧ shortKrylovParam.nEv + 6 < 2 ^ 31 ∧
      ¬ (shortKrylovParam.nKr > shortKrylovParam.nEv ∧
        shortKrylovParam.nEv ≥ shortKrylovParam.nConv ∧ shortKrylovParam.nConv > 0 ∧
        shortKrylovParam.nKr ≥ shortKrylovParam.nEv + 6) ∧
      (TRLM.construct roomyHost shortKrylovParam).succeeded = false :=
  ⟨by decide, by decide, by decide,
    construct_fails_of_violation roomyHost shortKrylovParam (by decide) (by decide) (by decide)⟩

/-- C2 (as stated, refuted): `nEv = 46341`, `nKr = 46347`, `nConv = 3` with spectrum
SR are non-negative and pass every check, but construction fails. The product
`nEv * nKr = 2147766327` of line 66 is taken in `int` and wraps around to
`-2147200969`; converted to `size_t` and multiplied by `sizeof(Complex) = 16` it
asks `safe_malloc` for `2^64 - 34355215504` bytes, which no host grants. -/
theorem construct_aborts_on_wrapped_product :
    (0 ≤ overflowParam.nEv ∧ 0 ≤ overflowParam.nKr ∧ 0 ≤ overflowParam.nConv) ∧
      (overflowParam.nKr > overflowParam.nEv ∧ overflowParam.nEv ≥ overflowParam.nConv ∧
        overflowParam.nEv ≠ 0 ∧ overflowParam.nKr ≠ 0 ∧ overflowParam.nConv ≠ 0 ∧
        overflowParam.nKr ≥ overflowParam.nEv + 6 ∧
        overflowParam.spectrum = .QUDA_SPECTRUM_SR_EIG) ∧
      int32 (overflowParam.nEv * overflowParam.nKr) = -2147200969 ∧
      sizeBytes (int32 (overflowParam.nEv * overflowParam.nKr)) 16 = 2 ^ 64 - 34355215504 ∧
      abortOf (TRLM.construct roomyHost overflowParam).outcome = some .alloc_failed ∧
      (TRLM.construct roomyHost overflowParam).allocated = [⟨"residua", 370776⟩] ∧
      ∀ host : Host, (∀ name size, host.grants name size = true → size < 2 ^ 63) →
        (TRLM.construct host overflowParam).succeeded = false := by
  refine ⟨by decide, by decide, by decide, by decide, by decide, by decide, ?_⟩
  intro host hhost
  cases hs : (TRLM.construct host overflowParam).succeeded
  · rfl
  · exfalso
    obtain ⟨_, _, _, _, _, _, _, _, g2, _⟩ := (trlm_construct_succeeded_iff host overflowParam).mp hs
    have := hhost _ _ g2
    revert this
    decide

/-- C2 (amended): construction succeeds if and only if `nKr > nEv`, `nEv >= nConv`,
none of the three is 0, `nKr >= nEv + 6` with the sum taken in `int`, the
spectrum type is SR or LR, and the host grants the four requests of
`safe_malloc`: `nKr * 8` bytes for each of `residua`, `alpha` and `beta`, and
`nEv * nKr * 16` bytes for `Qmat`, the product `nEv * nKr` taken in `int` and the
sizes in `size_t`. For non-negative `int`s with `nEv + 6 <= 2^31 - 1` and
`nEv * nKr <= 2^31 - 1` the sum, the product and the sizes are the exact ones.
If `nConv > nEv`, the base constructor ends the program in one of its first two
sanity checks with no buffer allocated, so no solver object exists on which an
operator application or a restart sweep could run. For the spectrum types SM,
LM, SI and LI the base constructor returns an object whenever its sanity checks
pass and its two buffers are granted, and the derived constructor then fails. -/
theorem construct_succeeds_iff {K : Type} [Zero K] (host : Host) (p : QudaEigParam K) :
    ((TRLM.construct host p).succeeded = true ↔
      (p.nKr > p.nEv ∧ p.nEv ≥ p.nConv ∧ p.nEv ≠ 0 ∧ p.nKr ≠ 0 ∧ p.nConv ≠ 0 ∧
        p.nKr ≥ int32 (p.nEv + 6) ∧
        (p.spectrum = .QUDA_SPECTRUM_SR_EIG ∨ p.spectrum = .QUDA_SPECTRUM_LR_EIG) ∧
        host.grants "residua" (sizeBytes p.nKr 8) = true ∧
        host.grants "Qmat" (sizeBytes (int32 (p.nEv * p.nKr)) 16) = true ∧
        host.grants "alpha" (sizeBytes p.nKr 8) = true ∧
        host.grants "beta" (sizeBytes p.nKr 8) = true)) ∧
    (0 ≤ p.nEv → 0 ≤ p.nKr → p.nKr < 2 ^ 31 → p.nEv + 6 < 2 ^ 31 → p.nEv * p.nKr < 2 ^ 31 →
      int32 (p.nEv + 6) = p.nEv + 6 ∧ int32 (p.nEv * p.nKr) = p.nEv * p.nKr ∧
      sizeBytes p.nKr 8 = p.nKr.toNat * 8 ∧
      sizeBytes (int32 (p.nEv * p.nKr)) 16 = (p.nEv * p.nKr).toNat * 16) ∧
    (p.nConv > p.nEv →
      (EigenSolver.construct host p = ⟨[], .error .nKr_le_nEv⟩ ∨
        EigenSolver.construct host p = ⟨[], .error .nConv_gt_nEv⟩) ∧
      (TRLM.construct host p).allocated = [] ∧ (TRLM.construct host p).succeeded = false) ∧
    ((p.spectrum = .QUDA_SPECTRUM_SM_EIG ∨ p.spectrum = .QUDA_SPECTRUM_LM_EIG ∨
        p.spectrum = .QUDA_SPECTRUM_SI_EIG ∨ p.spectrum = .QUDA_SPECTRUM_LI_EIG) →
      ((EigenSolver.construct host p).succeeded = true ↔
        (p.nKr > p.nEv ∧ p.nEv ≥ p.nConv ∧ p.nEv ≠ 0 ∧ p.nKr ≠ 0 ∧ p.nConv ≠ 0 ∧
          host.grants "residua" (sizeBytes p.nKr 8) = true ∧
          host.grants "Qmat" (sizeBytes (int32 (p.nEv * p.nKr)) 16) = true)) ∧
      (TRLM.construct host p).succeeded = false ∧
      ((EigenSolver.construct host p).succeeded = true →
        (TRLM.construct host p).outcome = .error .alloc_failed ∨
        (TRLM.construct host p).outcome = .error .nKr_lt_nEv_plus_6 ∨
        (TRLM.construct host p).outcome = .error .not_real_spectrum)) := by
  refine ⟨trlm_construct_succeeded_iff host p, ?_, ?_, ?_⟩
  · intro hEv hKr hKr32 hsum hprod
    have hp0 : 0 ≤ p.nEv * p.nKr := mul_nonneg hEv hKr
    refine ⟨int32_of_range _ (by norm_num; omega) hsum, int32_of_range _ (by norm_num; omega) hprod,
      sizeBytes_of_range _ _ hKr ?_, ?_⟩
    · norm_num at hKr32 ⊢
      omega
    · rw [int32_of_range _ (by norm_num; omega) hprod]
      refine sizeBytes_of_range _ _ hp0 ?_
      norm_num at hprod ⊢
      omega
  · intro h
    by_cases h1 : p.nKr ≤ p.nEv
    · have hb := base_construct_of_le host p h1
      have ht := trlm_construct_of_base_error host p _ _ hb
      exact ⟨Or.inl hb, by rw [ht], by rw [ht]; rfl⟩
    · have hb := base_construct_of_lt host p h1 h
      have ht := trlm_construct_of_base_error host p _ _ hb
      exact ⟨Or.inr hb, by rw [ht], by rw [ht]; rfl⟩
  · intro hs
    have hne : p.spectrum ≠ .QUDA_SPECTRUM_INVALID ∧ p.spectrum ≠ .QUDA_SPECTRUM_SR_EIG ∧
        p.spectrum ≠ .QUDA_SPECTRUM_LR_EIG := by
      rcases hs with hs | hs | hs | hs <;> rw [hs] <;> decide
    obtain ⟨hout, hin⟩ := base_construct_outcome host p
    have hfail : (TRLM.construct host p).succeeded = false := by
      cases hsu : (TRLM.construct host p).succeeded
      · rfl
      · exfalso
        obtain ⟨_, _, _, _, _, _, h7, _⟩ := (trlm_construct_succeeded_iff host p).mp hsu
        rcases h7 with h7 | h7
        · exact hne.2.1 h7
        · exact hne.2.2 h7
    refine ⟨?_, hfail, ?_⟩
    · constructor
      · intro hb
        rcases hc : EigenSolver.construct host p with ⟨al, e | base⟩
        · rw [hc] at hb
          cases hb
        · obtain ⟨⟨h1, h2, h3, h4, h5, _, g1, g2⟩, _⟩ := hout base (by rw [hc])
          exact ⟨h1, h2, h3, h4, h5, g1, g2⟩
      · rintro ⟨h1, h2, h3, h4, h5, g1, g2⟩
        obtain ⟨base, hb⟩ := hin ⟨h1, h2, h3, h4, h5, hne.1, g1, g2⟩
        unfold Constructed.succeeded
        rw [hb]
    · intro hb
      unfold TRLM.construct
      rcases hc : EigenSolver.construct host p with ⟨al, e | base⟩
      · rw [hc] at hb
        cases hb
      · dsimp only
        by_cases g1 : host.grants "alpha" (sizeBytes base.nKr 8) = true
        · rw [safe_malloc_of_grant host _ _ g1]
          by_cases g2 : host.grants "beta" (sizeBytes base.nKr 8) = true
          · rw [safe_malloc_of_grant host _ _ g2]
            dsimp only
            by_cases h1 : base.nKr < int32 (base.nEv + 6)
            · right; left
              rw [if_pos h1]
            · right; right
              rw [if_neg h1, if_pos]
              rintro (h | h)
              · exact hne.2.2 h
              · exact hne.2.1 h
          · left
            rw [safe_malloc_of_refusal host _ _ g2]
        · left
          rw [safe_malloc_of_refusal host _ _ g1]


/-- C2 (amended), at `nEv = 4`, `nKr = 10`, `nConv = 3` with spectrum SR on a host
that grants the four buffers of 80, 640, 80 and 80 bytes: construction
succeeds. -/
theorem construct_succeeds_iff_witness :
    sizeBytes scenarioParam.nKr 8 = 80 ∧
      sizeBytes (int32 (scenarioParam.nEv * scenarioParam.nKr)) 16 = 640 ∧
      (TRLM.construct roomyHost scenarioParam).succeeded = true :=
  ⟨by decide, by decide,
    (construct_succeeds_iff roomyHost scenarioParam).1.mpr (by decide)⟩


/-! ## Reordering -/

section Reorder

variable {α V : Type}

theorem seg_length (a : Int → α) (lo : Int) (n : Nat) : (seg a lo n).length = n := by
  induction n generalizing lo with
  | zero => rfl
  | succ n ih => simp [seg, ih]

theorem seg_append (a : Int → α) (lo : Int) (m n : Nat) :
    seg a lo (m + n) = seg a lo m ++ seg a (lo + m) n := by
  induction m generalizing lo with
  | zero => simp [seg]
  | succ m ih =>
    rw [Nat.succ_add]
    simp only [seg, List.cons_append]
    rw [ih]
    have : lo + 1 + (m : Int) = lo + ((m + 1 : Nat) : Int) := by push_cast; ring
    rw [this]

theorem seg_congr (a b : Int → α) (lo : Int) (n : Nat)
    (h : ∀ j, lo ≤ j → j < lo + n → a j = b j) : seg a lo n = seg b lo n := by
  induction n generalizing lo with
  | zero => rfl
  | succ n ih =>
    simp only [seg]
    rw [h lo (le_refl _) (by push_cast; omega), ih (lo + 1)]
    intro j h1 h2
    exact h j (by omega) (by push_cast; omega)

theorem mem_seg (a : Int → α) (lo : Int) (n : Nat) (x : α) :
    x ∈ seg a lo n ↔ ∃ j, lo ≤ j ∧ j < lo + n ∧ a j = x := by
  induction n generalizing lo with
  | zero =>
    simp only [seg, List.not_mem_nil, false_iff]
    rintro ⟨j, h1, h2, _⟩
    simp at h2
    omega
  | succ n ih =>
    simp only [seg, List.mem_cons, ih]
    constructor
    · rintro (h | ⟨j, h1, h2, h3⟩)
      · exact ⟨lo, le_refl _, by push_cast; omega, h.symm⟩
      · exact ⟨j, by omega, by push_cast; omega, h3⟩
    · rintro ⟨j, h1, h2, h3⟩
      by_cases hj : j = lo
      · left
        rw [← h3, hj]
      · right
        exact ⟨j, by omega, by push_cast at h2; omega, h3⟩

theorem seg_pairwise (r : α → α → Prop) (a : Int → α) (lo : Int) (n : Nat)
    (h : ∀ j k, lo ≤ j → j < k → k < lo + n → r (a j) (a k)) :
    List.Pairwise r (seg a lo n) := by
  induction n generalizing lo with
  | zero => exact List.Pairwise.nil
  | succ n ih =>
    simp only [seg, List.pairwise_cons]
    constructor
    · intro x hx
      obtain ⟨j, h1, h2, h3⟩ := (mem_seg a (lo + 1) n x).mp hx
      rw [← h3]
      exact h lo j (le_refl _) (by omega) (by push_cast; omega)
    · apply ih
      intro j k h1 h2 h3
      exact h j k (by omega) h2 (by push_cast; omega)

theorem seg_split (a : Int → α) (p n : Nat) (h : p + 2 ≤ n) :
    seg a 0 n = seg a 0 p ++ a p :: a (p + 1) :: seg a (p + 2) (n - (p + 2)) := by
  have hn : n = p + ((n - (p + 2)) + 1 + 1) := by omega
  conv_lhs => rw [hn]
  rw [seg_append]
  simp only [seg, zero_add]
  have : (p : Int) + 1 + 1 = p + 2 := by ring
  rw [this]

theorem seg_swap (a : Int → α) (p n : Nat) (h : p + 2 ≤ n) :
    seg (Function.update (Function.update a ((p : Int) + 1) (a p)) p (a ((p : Int) + 1))) 0 n =
      seg a 0 p ++ a (p + 1) :: a p :: seg a (p + 2) (n - (p + 2)) := by
  rw [seg_split _ p n h]
  have h1 : (p : Int) + 1 ≠ p := by omega
  congr 1
  · apply seg_congr
    intro j hj1 hj2
    rw [Function.update_noteq (by omega), Function.update_noteq (by omega)]
  · rw [Function.update_same, Function.update_noteq h1, Function.update_same]
    congr 2
    apply seg_congr
    intro j hj1 hj2
    rw [Function.update_noteq (by omega), Function.update_noteq (by omega)]

theorem inversions_swap (ordered : α → α → Bool) (pre post : List α) (x y : α)
    (hxy : ordered x y = false) (hyx : ordered y x = true) :
    inversions ordered (pre ++ x :: y :: post) =
      inversions ordered (pre ++ y :: x :: post) + 1 := by
  induction pre with
  | nil =>
    simp only [List.nil_append, inversions, List.countP_cons, hxy, hyx, Bool.not_false,
      Bool.not_true, if_true]
    simp
    omega
  | cons z pre ih =>
    have e : ∀ l : List α, inversions ordered (z :: l) =
        List.countP (fun y => !ordered z y) l + inversions ordered l := fun l => rfl
    rw [List.cons_append, List.cons_append, e, e, ih]
    have hp : (pre ++ x :: y :: post).Perm (pre ++ y :: x :: post) :=
      List.Perm.append_left pre (List.Perm.swap y x post)
    rw [hp.countP_eq]
    omega

/-- A property of the first `n` entries of an array holds for the first `n`
entries of every rearrangement of them. -/
theorem seg_forall_of_perm (P : α → Prop) (a b : Int → α) (n : Nat)
    (hperm : (seg a 0 n).Perm (seg b 0 n)) (hP : ∀ j : Int, 0 ≤ j → j < n → P (b j)) :
    ∀ j : Int, 0 ≤ j → j < n → P (a j) := by
  intro j h0 hn
  have hmem : a j ∈ seg a 0 n := (mem_seg a 0 n (a j)).mpr ⟨j, h0, by omega, rfl⟩
  obtain ⟨k, hk0, hkn, hk⟩ := (mem_seg b 0 n (a j)).mp (hperm.mem_iff.mp hmem)
  rw [← hk]
  exact hP k hk0 (by omega)

theorem inversions_bound (ordered : α → α → Bool) (l : List α) :
    2 * inversions ordered l + l.length ≤ l.length * l.length := by
  induction l with
  | nil => simp [inversions]
  | cons x xs ih =>
    simp only [inversions, List.length_cons]
    have := List.countP_le_length (fun y => !ordered x y) (l := xs)
    nlinarith

end Reorder


section ReorderLoop

variable {α V : Type}

theorem reorderBody_advance (ordered : α → α → Bool) (s : ReorderState α V)
    (h : s.i = 0 ∨ ordered (s.alpha (s.i - 1)) (s.alpha s.i) = true) :
    reorderBody ordered s = { s with i := s.i + 1 } := by
  unfold reorderBody
  rw [if_pos h]

theorem reorderBody_swap (ordered : α → α → Bool) (s : ReorderState α V)
    (h : ¬ (s.i = 0 ∨ ordered (s.alpha (s.i - 1)) (s.alpha s.i) = true)) :
    reorderBody ordered s =
      ⟨s.i - 1,
        Function.update (Function.update s.alpha s.i (s.alpha (s.i - 1))) (s.i - 1) (s.alpha s.i),
        swapEntries s.kSpace (s.i - 1) (s.i - 1 - 1)⟩ := by
  unfold reorderBody
  rw [if_neg h]

/-- One iteration of the loop keeps the invariant and lowers the measure by one,
when the comparison is total and transitive on the entries of the array (the
values with the property `P`). -/
theorem reorderBody_inv (ordered : α → α → Bool) (P : α → Prop)
    (htot : ∀ x y, P x → P y → ordered x y = true ∨ ordered y x = true)
    (htrans : ∀ x y z, P x → P y → P z → ordered x y = true → ordered y z = true →
      ordered x z = true)
    (n : Nat) (a0 : Int → α) (hP : ∀ j : Int, 0 ≤ j → j < n → P (a0 j))
    (s : ReorderState α V) (hinv : ReorderInv ordered n a0 s)
    (hlt : s.i < n) :
    ReorderInv ordered n a0 (reorderBody ordered s) ∧
      reorderMeasure ordered n (reorderBody ordered s) + 1 = reorderMeasure ordered n s := by
  obtain ⟨i, a, ks⟩ := s
  obtain ⟨h0, hn, hsorted, hperm⟩ := hinv
  simp only at h0 hn hsorted hperm hlt
  have hPa := seg_forall_of_perm P a a0 n hperm hP
  by_cases h : i = 0 ∨ ordered (a (i - 1)) (a i) = true
  · rw [reorderBody_advance ordered _ h]
    refine ⟨⟨by simp only; omega, by simp only; omega, ?_, hperm⟩, ?_⟩
    · intro j k hj hjk hk
      simp only at hk ⊢
      by_cases hki : k < i
      · exact hsorted j k hj hjk hki
      · have hk2 : k = i := by omega
        subst hk2
        rcases h with h | h
        · omega
        · by_cases hj2 : j = k - 1
          · rw [hj2]
            exact h
          · exact htrans _ _ _ (hPa j hj (by omega)) (hPa (k - 1) (by omega) (by omega))
              (hPa k (by omega) hlt) (hsorted j (k - 1) hj (by omega) (by omega)) h
    · simp only [reorderMeasure]
      omega
  · rw [reorderBody_swap ordered _ h]
    simp only at h ⊢
    push_neg at h
    obtain ⟨hi, hord⟩ := h
    obtain ⟨p, rfl⟩ : ∃ p : Nat, i = (p : Int) + 1 := ⟨(i - 1).toNat, by omega⟩
    have hp2 : p + 2 ≤ n := by omega
    have e1 : (p : Int) + 1 - 1 = p := by ring
    rw [e1] at hord ⊢
    have hord2 : ordered (a p) (a ((p : Int) + 1)) = false := by
      cases hc : ordered (a p) (a ((p : Int) + 1))
      · rfl
      · exact absurd hc hord
    have hord3 : ordered (a ((p : Int) + 1)) (a p) = true := by
      rcases htot (a p) (a ((p : Int) + 1)) (hPa p (by omega) (by omega))
        (hPa ((p : Int) + 1) (by omega) hlt) with h | h
      · rw [h] at hord2
        cases hord2
      · exact h
    have hs1 := seg_swap a p n hp2
    have hs2 := seg_split a p n hp2
    refine ⟨⟨by simp only; omega, by simp only; omega, ?_, ?_⟩, ?_⟩
    · intro j k hj hjk hk
      simp only at hk ⊢
      rw [Function.update_noteq (by omega), Function.update_noteq (by omega),
        Function.update_noteq (by omega), Function.update_noteq (by omega)]
      exact hsorted j k hj hjk (by omega)
    · simp only
      rw [hs1]
      refine List.Perm.trans ?_ hperm
      rw [hs2]
      exact List.Perm.append_left _ (List.Perm.swap _ _ _)
    · simp only [reorderMeasure]
      rw [hs1, hs2, inversions_swap ordered _ _ _ _ hord2 hord3]
      omega

/-- Run with at least as many iterations as the measure, the loop ends at
position `n` with the invariant intact. -/
theorem reorderLoop_inv (ordered : α → α → Bool) (P : α → Prop)
    (htot : ∀ x y, P x → P y → ordered x y = true ∨ ordered y x = true)
    (htrans : ∀ x y z, P x → P y → P z → ordered x y = true → ordered y z = true →
      ordered x z = true)
    (n : Nat) (a0 : Int → α) (hP : ∀ j : Int, 0 ≤ j → j < n → P (a0 j)) (fuel : Nat)
    (s : ReorderState α V)
    (hinv : ReorderInv ordered n a0 s) (hfuel : reorderMeasure ordered n s ≤ fuel) :
    ReorderInv ordered n a0 (reorderLoop ordered n fuel s) ∧
      (reorderLoop ordered n fuel s).i = n := by
  induction fuel generalizing s with
  | zero =>
    simp only [reorderLoop]
    refine ⟨hinv, ?_⟩
    obtain ⟨h0, hn, _, _⟩ := hinv
    simp only [reorderMeasure] at hfuel
    omega
  | succ fuel ih =>
    simp only [reorderLoop]
    by_cases hlt : s.i < n
    · rw [if_pos hlt]
      obtain ⟨hinv2, hm⟩ := reorderBody_inv ordered P htot htrans n a0 hP s hinv hlt
      exact ih _ hinv2 (by omega)
    · rw [if_neg hlt]
      refine ⟨hinv, ?_⟩
      obtain ⟨h0, hn, _, _⟩ := hinv
      omega

/-- Once the loop has left through its condition, more iterations change nothing. -/
theorem reorderLoop_stable (ordered : α → α → Bool) (nKr : Int) (fuel extra : Nat)
    (s : ReorderState α V) (h : ¬ (reorderLoop ordered nKr fuel s).i < nKr) :
    reorderLoop ordered nKr (fuel + extra) s = reorderLoop ordered nKr fuel s := by
  induction fuel generalizing s with
  | zero =>
    simp only [reorderLoop] at h
    cases extra with
    | zero => rfl
    | succ e =>
      simp only [Nat.zero_add, reorderLoop]
      rw [if_neg h]
  | succ fuel ih =>
    rw [Nat.succ_add]
    simp only [reorderLoop] at h ⊢
    by_cases hlt : s.i < nKr
    · simp only [hlt, if_true] at h ⊢
      exact ih _ h
    · simp only [hlt, if_false]

end ReorderLoop


/-- The loop of `reorder`, started at position 0 with `nKr * nKr` iterations,
leaves through its condition, rearranges the first `nKr` entries and puts them
in order, for any comparison that is total and transitive on these entries (the
values with the property `P`). -/
theorem reorderLoop_sorts {α V : Type} (ordered : α → α → Bool) (P : α → Prop)
    (htot : ∀ x y, P x → P y → ordered x y = true ∨ ordered y x = true)
    (htrans : ∀ x y z, P x → P y → P z → ordered x y = true → ordered y z = true →
      ordered x z = true)
    (nKr : Int) (alpha : Int → α) (kSpace : Int → V)
    (hP : ∀ j : Int, 0 ≤ j → j < nKr → P (alpha j)) :
    ¬ (reorderLoop ordered nKr (nKr.toNat * nKr.toNat) ⟨0, alpha, kSpace⟩).i < nKr ∧
      (seg (reorderLoop ordered nKr (nKr.toNat * nKr.toNat) ⟨0, alpha, kSpace⟩).alpha 0
        nKr.toNat).Perm (seg alpha 0 nKr.toNat) ∧
      List.Pairwise (fun x y => ordered x y = true)
        (seg (reorderLoop ordered nKr (nKr.toNat * nKr.toNat) ⟨0, alpha, kSpace⟩).alpha 0
          nKr.toNat) := by
  by_cases hneg : nKr < 0
  · have hz : nKr.toNat = 0 := by omega
    rw [hz]
    simp only [Nat.mul_zero, reorderLoop, seg]
    exact ⟨by omega, List.Perm.refl _, List.Pairwise.nil⟩
  · obtain ⟨n, rfl⟩ : ∃ n : Nat, nKr = (n : Int) := ⟨nKr.toNat, by omega⟩
    simp only [Int.toNat_ofNat]
    have hinv0 : ReorderInv ordered n alpha (⟨0, alpha, kSpace⟩ : ReorderState α V) :=
      ⟨le_refl _, by simp, fun j k hj hjk hk => by simp only at hk; omega, List.Perm.refl _⟩
    have hm : reorderMeasure ordered n (⟨0, alpha, kSpace⟩ : ReorderState α V) ≤ n * n := by
      have hb := inversions_bound ordered (seg alpha 0 n)
      rw [seg_length] at hb
      simp only [reorderMeasure]
      omega
    obtain ⟨⟨_, _, hsorted, hperm⟩, hi⟩ :=
      reorderLoop_inv ordered P htot htrans n alpha hP (n * n) _ hinv0 hm
    refine ⟨by omega, hperm, ?_⟩
    apply seg_pairwise
    intro j k hj hjk hk
    exact hsorted j k hj hjk (by omega)

/-- With an entry among `alpha[0..nKr)`, `nKr >= 2`, that no comparison accepts
on either side, the loop never leaves through its condition: the position stays
at or below that entry (or below 2). -/
theorem reorderLoop_unordered_running {α V : Type} (ordered : α → α → Bool) (bad : α)
    (hl : ∀ x, ordered bad x = false) (hr : ∀ x, ordered x bad = false) (nKr : Int)
    (h2 : 2 ≤ nKr) (fuel : Nat) (s : ReorderState α V) (p : Int) (h0 : 0 ≤ s.i) (hp0 : 0 ≤ p)
    (hpn : p < nKr) (hbad : s.alpha p = bad) (hi : s.i ≤ p ∨ s.i ≤ 1) :
    (reorderLoop ordered nKr fuel s).i < nKr := by
  induction fuel generalizing s p with
  | zero =>
    simp only [reorderLoop]
    omega
  | succ fuel ih =>
    simp only [reorderLoop]
    have hlt : s.i < nKr := by omega
    rw [if_pos hlt]
    by_cases h : s.i = 0 ∨ ordered (s.alpha (s.i - 1)) (s.alpha s.i) = true
    · rw [reorderBody_advance ordered s h]
      refine ih _ p (by simp only; omega) hp0 hpn hbad ?_
      simp only
      rcases h with h | h
      · right
        omega
      · have h1 : p ≠ s.i := by
          intro hps
          rw [← hps, hbad, hr] at h
          cases h
        have h3 : p ≠ s.i - 1 := by
          intro hps
          rw [← hps, hbad, hl] at h
          cases h
        left
        omega
    · rw [reorderBody_swap ordered s h]
      push_neg at h
      obtain ⟨hne, -⟩ := h
      by_cases h1 : p = s.i
      · refine ih _ (s.i - 1) (by simp only; omega) (by omega) (by omega) ?_ (Or.inl le_rfl)
        simp only
        rw [Function.update_same, ← h1, hbad]
      · by_cases h3 : p = s.i - 1
        · refine ih _ s.i (by simp only; omega) (by omega) hlt ?_ (Or.inl (by simp only; omega))
          simp only
          rw [Function.update_noteq (by omega), Function.update_same, ← h3, hbad]
        · refine ih _ p (by simp only; omega) hp0 hpn ?_ (by simp only; omega)
          simp only
          rw [Function.update_noteq h3, Function.update_noteq h1, hbad]

/-- Whatever the comparison, the entries before the position of the loop are in
order with their neighbours. -/
theorem reorderLoop_adjacent {α V : Type} (ordered : α → α → Bool) (nKr : Int) (fuel : Nat)
    (s : ReorderState α V) (h0 : 0 ≤ s.i)
    (hs : ∀ j : Int, 0 < j → j < s.i → ordered (s.alpha (j - 1)) (s.alpha j) = true) :
    0 ≤ (reorderLoop ordered nKr fuel s).i ∧
      ∀ j : Int, 0 < j → j < (reorderLoop ordered nKr fuel s).i →
        ordered ((reorderLoop ordered nKr fuel s).alpha (j - 1))
          ((reorderLoop ordered nKr fuel s).alpha j) = true := by
  induction fuel generalizing s with
  | zero => exact ⟨h0, hs⟩
  | succ fuel ih =>
    simp only [reorderLoop]
    by_cases hlt : s.i < nKr
    · rw [if_pos hlt]
      by_cases h : s.i = 0 ∨ ordered (s.alpha (s.i - 1)) (s.alpha s.i) = true
      · rw [reorderBody_advance ordered s h]
        refine ih _ (by simp only; omega) ?_
        intro j hj0 hj
        simp only at hj ⊢
        by_cases hji : j < s.i
        · exact hs j hj0 hji
        · have hje : j = s.i := by omega
          rcases h with h | h
          · omega
          · rw [hje]
            exact h
      · rw [reorderBody_swap ordered s h]
        push_neg at h
        refine ih _ (by simp only; omega) ?_
        intro j hj0 hj
        simp only at hj ⊢
        rw [Function.update_noteq (by omega), Function.update_noteq (by omega),
          Function.update_noteq (by omega), Function.update_noteq (by omega)]
        exact hs j hj0 (by omega)
    · rw [if_neg hlt]
      exact ⟨h0, hs⟩

/-- On an array whose first `nKr` entries are in order with their neighbours the
loop only advances: it writes neither `alpha` nor `kSpace`, and it has left
through its condition after `nKr - i` iterations. -/
theorem reorderLoop_fixed {α V : Type} (ordered : α → α → Bool) (nKr : Int) (fuel : Nat)
    (s : ReorderState α V) (h0 : 0 ≤ s.i)
    (hs : ∀ j : Int, 0 < j → j < nKr → ordered (s.alpha (j - 1)) (s.alpha j) = true)
    (hfuel : (nKr - s.i).toNat ≤ fuel) :
    (reorderLoop ordered nKr fuel s).alpha = s.alpha ∧
      (reorderLoop ordered nKr fuel s).kSpace = s.kSpace ∧
      ¬ (reorderLoop ordered nKr fuel s).i < nKr := by
  induction fuel generalizing s with
  | zero =>
    refine ⟨rfl, rfl, ?_⟩
    show ¬ s.i < nKr
    omega
  | succ fuel ih =>
    simp only [reorderLoop]
    by_cases hlt : s.i < nKr
    · rw [if_pos hlt]
      have hadv : s.i = 0 ∨ ordered (s.alpha (s.i - 1)) (s.alpha s.i) = true := by
        by_cases hi : s.i = 0
        · exact Or.inl hi
        · exact Or.inr (hs s.i (by omega) hlt)
      rw [reorderBody_advance ordered s hadv]
      exact ih _ (by simp only; omega) hs (by simp only; omega)
    · rw [if_neg hlt]
      exact ⟨rfl, rfl, hlt⟩

/-- A call of `reorder` returns the state in which its loop has left through its
condition. -/
theorem reorder_eq_some {α V : Type} [LE α] [DecidableRel (LE.le : α → α → Prop)]
    (reverse : Bool) (nKr : Int) (alpha : Int → α) (kSpace : Int → V)
    (out : ReorderState α V) :
    reorder reverse nKr alpha kSpace = some out ↔
      (out = (if reverse then
          reorderLoop (fun x y => decide (x ≥ y)) nKr (nKr.toNat * nKr.toNat) ⟨0, alpha, kSpace⟩
        else
          reorderLoop (fun x y => decide (x ≤ y)) nKr (nKr.toNat * nKr.toNat)
            ⟨0, alpha, kSpace⟩) ∧ ¬ out.i < nKr) := by
  unfold reorder
  cases reverse
  · simp only [Bool.false_eq_true, if_false]
    constructor
    · intro h
      split_ifs at h with h1
      simp only [Option.some.injEq] at h
      subst h
      exact ⟨rfl, h1⟩
    · rintro ⟨h1, h2⟩
      subst h1
      rw [if_neg h2]
  · simp only [if_true]
    constructor
    · intro h
      split_ifs at h with h1
      simp only [Option.some.injEq] at h
      subst h
      exact ⟨rfl, h1⟩
    · rintro ⟨h1, h2⟩
      subst h1
      rw [if_neg h2]

/-- When the entries `alpha[0..nKr)` are comparable with each other (the values
with the property `P`), `reorder` returns, more iterations would give the same
state, and the entries are a permutation of the previous ones, in the order
asked for. -/
theorem reorder_of_total {α V : Type} [LE α] [DecidableRel (LE.le : α → α → Prop)]
    (P : α → Prop) (htot : ∀ x y : α, P x → P y → x ≤ y ∨ y ≤ x)
    (htrans : ∀ x y z : α, P x → P y → P z → x ≤ y → y ≤ z → x ≤ z)
    (reverse : Bool) (nKr : Int) (alpha : Int → α) (kSpace : Int → V)
    (hP : ∀ j : Int, 0 ≤ j → j < nKr → P (alpha j)) :
    ∃ out, reorder reverse nKr alpha kSpace = some out ∧
      (∀ extra : Nat,
        (if reverse then
          reorderLoop (fun x y => decide (x ≥ y)) nKr (nKr.toNat * nKr.toNat + extra)
            ⟨0, alpha, kSpace⟩
        else
          reorderLoop (fun x y => decide (x ≤ y)) nKr (nKr.toNat * nKr.toNat + extra)
            ⟨0, alpha, kSpace⟩) = out) ∧
      (seg out.alpha 0 nKr.toNat).Perm (seg alpha 0 nKr.toNat) ∧
      (reverse = false → List.Sorted (fun x y => x ≤ y) (seg out.alpha 0 nKr.toNat)) ∧
      (reverse = true → List.Sorted (fun x y => x ≥ y) (seg out.alpha 0 nKr.toNat)) := by
  have hge := reorderLoop_sorts (V := V) (fun x y : α => decide (x ≥ y)) P
    (fun x y hx hy => by
      simp only [decide_eq_true_eq]
      exact htot y x hy hx)
    (fun x y z hx hy hz hxy hyz => by
      simp only [decide_eq_true_eq] at hxy hyz ⊢
      exact htrans z y x hz hy hx hyz hxy) nKr alpha kSpace hP
  have hle := reorderLoop_sorts (V := V) (fun x y : α => decide (x ≤ y)) P
    (fun x y hx hy => by
      simp only [decide_eq_true_eq]
      exact htot x y hx hy)
    (fun x y z hx hy hz hxy hyz => by
      simp only [decide_eq_true_eq] at hxy hyz ⊢
      exact htrans x y z hx hy hz hxy hyz) nKr alpha kSpace hP
  cases reverse
  · refine ⟨_, (reorder_eq_some false nKr alpha kSpace _).mpr ⟨rfl, ?_⟩, ?_, ?_, ?_, ?_⟩
    · simpa using hle.1
    · intro extra
      simp only [Bool.false_eq_true, if_false]
      exact reorderLoop_stable _ nKr _ extra _ hle.1
    · simpa using hle.2.1
    · intro _
      simp only [Bool.false_eq_true, if_false]
      exact hle.2.2.imp (fun h => by simpa using h)
    · intro h
      cases h
  · refine ⟨_, (reorder_eq_some true nKr alpha kSpace _).mpr ⟨rfl, ?_⟩, ?_, ?_, ?_, ?_⟩
    · simpa using hge.1
    · intro extra
      simp only [if_true]
      exact reorderLoop_stable _ nKr _ extra _ hge.1
    · simpa using hge.2.1
    · intro h
      cases h
    · intro _
      simp only [if_true]
      exact hge.2.2.imp (fun h => by simpa using h)

/-- On the values of a linear order `reorder` always returns. -/
theorem reorder_returns {α V : Type} [LinearOrder α] (reverse : Bool) (nKr : Int)
    (alpha : Int → α) (kSpace : Int → V) :
    ∃ out, reorder reverse nKr alpha kSpace = some out := by
  obtain ⟨out, h, -⟩ := reorder_of_total (V := V) (fun _ : α => True)
    (fun x y _ _ => le_total x y) (fun x y z _ _ _ hxy hyz => le_trans hxy hyz) reverse nKr
    alpha kSpace (fun _ _ _ => trivial)
  exact ⟨out, h⟩

theorem Double.num_le_num {K : Type} [LE K] (x y : K) :
    (Double.num x ≤ Double.num y) ↔ x ≤ y :=
  Iff.rfl

theorem Double.not_nan_le {K : Type} [LE K] (x : Double K) : ¬ (Double.nan ≤ x) :=
  fun h => h

theorem Double.not_le_nan {K : Type} [LE K] (x : Double K) : ¬ (x ≤ Double.nan) := by
  cases x <;> exact fun h => h

/-- With a NaN among `alpha[0..nKr)` and `nKr >= 2`, neither loop of `reorder`
ever leaves through its condition. -/
theorem reorder_nan_running {K V : Type} [LE K] [DecidableRel (LE.le : K → K → Prop)]
    (reverse : Bool) (nKr : Int) (alpha : Int → Double K) (kSpace : Int → V) (p : Int)
    (hp0 : 0 ≤ p) (hpn : p < nKr) (hnan : alpha p = .nan) (h2 : 2 ≤ nKr) (fuel : Nat) :
    ((if reverse then
        reorderLoop (fun x y => decide (x ≥ y)) nKr fuel ⟨0, alpha, kSpace⟩
      else
        reorderLoop (fun x y => decide (x ≤ y)) nKr fuel ⟨0, alpha, kSpace⟩) :
      ReorderState (Double K) V).i < nKr := by
  cases reverse
  · simp only [Bool.false_eq_true, if_false]
    exact reorderLoop_unordered_running _ Double.nan
      (fun x => decide_eq_false (Double.not_nan_le x))
      (fun x => decide_eq_false (Double.not_le_nan x)) nKr h2 fuel _ p le_rfl hp0 hpn hnan
      (Or.inr (by simp only; omega))
  · simp only [if_true]
    exact reorderLoop_unordered_running _ Double.nan
      (fun x => decide_eq_false (Double.not_le_nan x))
      (fun x => decide_eq_false (Double.not_nan_le x)) nKr h2 fuel _ p le_rfl hp0 hpn hnan
      (Or.inr (by simp only; omega))

/-- The flag `reverse` of a constructed base object is the one deduced from the
name of the spectrum type. -/
theorem base_construct_reverse {K : Type} [Zero K] (host : Host) (p : QudaEigParam K)
    (base : EigenSolver K) (h : (EigenSolver.construct host p).outcome = .ok base) :
    ∃ name, spectrumName p.spectrum = some name ∧
      base.reverse = (deduceReverse name p.use_poly_acc).1 := by
  unfold EigenSolver.construct at h
  dsimp only at h
  split_ifs at h with h1 h2 h3 h4 h5
  by_cases g1 : host.grants "residua" (sizeBytes p.nKr 8) = true
  · rw [safe_malloc_of_grant host _ _ g1] at h
    by_cases g2 : host.grants "Qmat" (sizeBytes (int32 (p.nEv * p.nKr)) 16) = true
    · rw [safe_malloc_of_grant host _ _ g2] at h
      dsimp only at h
      cases hs : spectrumName p.spectrum with
      | none =>
        rw [hs] at h
        cases h
      | some name =>
        rw [hs] at h
        simp only [Except.ok.injEq] at h
        subst h
        exact ⟨name, rfl, rfl⟩
    · rw [safe_malloc_of_refusal host _ _ g2] at h
      cases h
  · rw [safe_malloc_of_refusal host _ _ g1] at h
    cases h

/-- The flag `reverse` deduced by the constructor is unset exactly for spectrum
SR without polynomial acceleration. -/
theorem trlm_construct_reverse {K : Type} [Zero K] (host : Host) (p : QudaEigParam K)
    (t : TRLM K) (h : (TRLM.construct host p).outcome = .ok t) :
    (t.reverse = false ↔ (p.spectrum = .QUDA_SPECTRUM_SR_EIG ∧ p.use_poly_acc = false)) ∧
      (t.reverse = true ↔ (p.spectrum = .QUDA_SPECTRUM_LR_EIG ∨ p.use_poly_acc = true)) := by
  unfold TRLM.construct at h
  rcases hc : EigenSolver.construct host p with ⟨al, e | base⟩
  · rw [hc] at h
    cases h
  · rw [hc] at h
    dsimp only at h
    obtain ⟨name, hname, hrev⟩ := base_construct_reverse host p base (by rw [hc])
    by_cases g1 : host.grants "alpha" (sizeBytes base.nKr 8) = true
    · rw [safe_malloc_of_grant host _ _ g1] at h
      by_cases g2 : host.grants "beta" (sizeBytes base.nKr 8) = true
      · rw [safe_malloc_of_grant host _ _ g2] at h
        dsimp only at h
        by_cases h1 : base.nKr < int32 (base.nEv + 6)
        · rw [if_pos h1] at h
          cases h
        · rw [if_neg h1] at h
          by_cases h2 : p.spectrum = .QUDA_SPECTRUM_LR_EIG ∨ p.spectrum = .QUDA_SPECTRUM_SR_EIG
          · rw [if_neg (not_not.mpr h2)] at h
            simp only [Except.ok.injEq] at h
            subst h
            simp only
            rw [hrev]
            rcases h2 with h2 | h2
            · rw [h2] at hname ⊢
              simp only [spectrumName, Option.some.injEq] at hname
              rw [← hname]
              cases hp : p.use_poly_acc <;> simp [deduceReverse]
            · rw [h2] at hname ⊢
              simp only [spectrumName, Option.some.injEq] at hname
              rw [← hname]
              cases hp : p.use_poly_acc <;> simp [deduceReverse]
          · rw [if_pos h2] at h
            cases h
      · rw [safe_malloc_of_refusal host _ _ g2] at h
        cases h
    · rw [safe_malloc_of_refusal host _ _ g1] at h
      cases h

/-- C3 (as stated, refuted): with `nKr = 2`, `reverse` unset and `alpha = NaN, 1`
the call does not terminate. The test `alpha[0] <= alpha[1]` at `i = 1` is false
whichever of the two entries is the NaN, so the `else` branch exchanges them and
steps back to `i = 0`, from where the loop returns to `i = 1`: the position is
below `nKr` after any number of iterations. -/
theorem reorder_loops_forever_on_nan :
    seg nanPair 0 2 = [.nan, .num 1] ∧
      (reorder false 2 nanPair labelledBasis).isNone = true ∧
      ∀ fuel : Nat,
        (reorderLoop (fun x y : Double ℚ => decide (x ≤ y)) 2 fuel
          ⟨0, nanPair, labelledBasis⟩).i < 2 :=
  ⟨by decide, by decide!, fun fuel =>
    reorder_nan_running false 2 nanPair labelledBasis 0 le_rfl (by decide) rfl le_rfl fuel⟩

/-- C3 (amended): for doubles, with or without NaN. If no entry of
`alpha[0..nKr)` is a NaN, then for either value of `reverse` the call returns
(its loop leaves through its condition within the iterations it is given, and
any larger number of iterations gives the same state), the entries
`alpha[0..nKr)` afterwards are a permutation of the entries before, and they are
in non-decreasing order when `reverse` is unset and in non-increasing order when
it is set. If `nKr <= 1` the call returns with both arrays unchanged. If an entry
of `alpha[0..nKr)` is a NaN and `nKr >= 2`, the call does not return: the position
is below `nKr` after any number of iterations. A constructed solver has `reverse`
unset exactly for spectrum SR without polynomial acceleration, and set for
spectrum LR or with polynomial acceleration. -/
theorem reorder_sorts {K V : Type} [LinearOrder K] (reverse : Bool) (nKr : Int)
    (alpha : Int → Double K) (kSpace : Int → V) :
    ((∀ i, 0 ≤ i → i < nKr → alpha i ≠ .nan) →
      ∃ out, reorder reverse nKr alpha kSpace = some out ∧
        (∀ extra : Nat,
          (if reverse then
            reorderLoop (fun x y => decide (x ≥ y)) nKr (nKr.toNat * nKr.toNat + extra)
              ⟨0, alpha, kSpace⟩
          else
            reorderLoop (fun x y => decide (x ≤ y)) nKr (nKr.toNat * nKr.toNat + extra)
              ⟨0, alpha, kSpace⟩) = out) ∧
        (seg out.alpha 0 nKr.toNat).Perm (seg alpha 0 nKr.toNat) ∧
        (reverse = false → List.Sorted (fun x y => x ≤ y) (seg out.alpha 0 nKr.toNat)) ∧
        (reverse = true → List.Sorted (fun x y => x ≥ y) (seg out.alpha 0 nKr.toNat))) ∧
    (nKr ≤ 1 →
      ∃ out, reorder reverse nKr alpha kSpace = some out ∧ out.alpha = alpha ∧
        out.kSpace = kSpace) ∧
    ((∃ i, 0 ≤ i ∧ i < nKr ∧ alpha i = .nan) → 2 ≤ nKr →
      reorder reverse nKr alpha kSpace = none ∧
      ∀ fuel : Nat,
        ((if reverse then
            reorderLoop (fun x y => decide (x ≥ y)) nKr fuel ⟨0, alpha, kSpace⟩
          else
            reorderLoop (fun x y => decide (x ≤ y)) nKr fuel ⟨0, alpha, kSpace⟩) :
          ReorderState (Double K) V).i < nKr) ∧
    (∀ (F : Type) [Zero F] (host : Host) (p : QudaEigParam F) (t : TRLM F),
      (TRLM.construct host p).outcome = .ok t →
      (t.reverse = false ↔ (p.spectrum = .QUDA_SPECTRUM_SR_EIG ∧ p.use_poly_acc = false)) ∧
      (t.reverse = true ↔ (p.spectrum = .QUDA_SPECTRUM_LR_EIG ∨ p.use_poly_acc = true))) := by
  refine ⟨?_, ?_, ?_, fun F _ host p t h => trlm_construct_reverse host p t h⟩
  · intro hnum
    refine reorder_of_total (fun x : Double K => x ≠ .nan) ?_ ?_ reverse nKr alpha kSpace hnum
    · intro x y hx hy
      cases x with
      | nan => exact absurd rfl hx
      | num a =>
        cases y with
        | nan => exact absurd rfl hy
        | num b => exact le_total a b
    · intro x y z hx hy hz hxy hyz
      cases x with
      | nan => exact absurd rfl hx
      | num a =>
        cases y with
        | nan => exact absurd rfl hy
        | num b =>
          cases z with
          | nan => exact absurd rfl hz
          | num c => exact le_trans (α := K) hxy hyz
  · intro h1
    have hfuel : (nKr - 0).toNat ≤ nKr.toNat * nKr.toNat := by
      simp only [sub_zero]
      rcases Nat.eq_zero_or_pos nKr.toNat with hz | hz
      · rw [hz]
      · exact Nat.le_mul_of_pos_right _ hz
    cases reverse
    · obtain ⟨e1, e2, e3⟩ := reorderLoop_fixed (fun x y : Double K => decide (x ≤ y)) nKr
        (nKr.toNat * nKr.toNat) ⟨0, alpha, kSpace⟩ le_rfl (fun j hj0 hj => by omega) hfuel
      exact ⟨_, (reorder_eq_some false nKr alpha kSpace _).mpr ⟨rfl, e3⟩, e1, e2⟩
    · obtain ⟨e1, e2, e3⟩ := reorderLoop_fixed (fun x y : Double K => decide (x ≥ y)) nKr
        (nKr.toNat * nKr.toNat) ⟨0, alpha, kSpace⟩ le_rfl (fun j hj0 hj => by omega) hfuel
      exact ⟨_, (reorder_eq_some true nKr alpha kSpace _).mpr ⟨rfl, e3⟩, e1, e2⟩
  · rintro ⟨p, hp0, hpn, hnan⟩ h2
    have hrun := reorder_nan_running reverse nKr alpha kSpace p hp0 hpn hnan h2
    refine ⟨?_, hrun⟩
    cases hc : reorder reverse nKr alpha kSpace with
    | none => rfl
    | some out =>
      exfalso
      obtain ⟨e1, e2⟩ := (reorder_eq_some reverse nKr alpha kSpace out).mp hc
      have := hrun (nKr.toNat * nKr.toNat)
      rw [← e1] at this
      exact e2 this


/-- C3 (amended), at `nKr = 3`, `reverse` unset and `alpha = 1, 3, 2`, none of them a
NaN: the call returns with `alpha = 1, 2, 3`. -/
theorem reorder_sorts_witness :
    (∀ i, 0 ≤ i → i < 3 → numberTriple i ≠ .nan) ∧
      ∃ out : ReorderState (Double ℚ) Int,
        reorder false 3 numberTriple labelledBasis = some out ∧
          (seg out.alpha 0 3).Perm (seg numberTriple 0 3) ∧
          List.Sorted (fun x y => x ≤ y) (seg out.alpha 0 3) ∧
          seg out.alpha 0 3 = [.num 1, .num 2, .num 3] := by
  have hnum : ∀ i, 0 ≤ i → i < 3 → numberTriple i ≠ .nan := fun i _ _ h => Double.noConfusion h
  obtain ⟨out, h1, h2, h3, h4, -⟩ := (reorder_sorts false 3 numberTriple labelledBasis).1 hnum
  refine ⟨hnum, out, h1, h3, h4 rfl, ?_⟩
  have h5 := h2 0
  simp only [Bool.false_eq_true, if_false] at h5
  rw [← h5]
  decide!


/-! ## Evaluations of `reorder`, and `chebyOp` -/

/-- C4 (the code at a failing input): `nKr = 3`, `reverse` unset, `alpha = 1, 3, 2`,
the vector at position `i` labelled `i`. The call returns with `alpha` sorted to
`1, 2, 3` by exchanging positions 1 and 2, but with the basis vectors at
positions 0 and 1 exchanged: the basis ends as `1, 0, 2`, where the vectors
paired with `1, 2, 3` are `0, 2, 1`. -/
theorem reorder_misplaces_basis_vectors :
    seg unsortedAlpha 0 3 = [1, 3, 2] ∧ seg labelledBasis 0 3 = [0, 1, 2] ∧
      (reorder false 3 unsortedAlpha labelledBasis).map (fun s => seg s.alpha 0 3) =
        some [1, 2, 3] ∧
      (reorder false 3 unsortedAlpha labelledBasis).map (fun s => seg s.kSpace 0 3) =
        some [1, 0, 2] := by
  refine ⟨by decide, by decide, by decide!, by decide!⟩

/-- C9: `chebyOp` raises an error if and only if `use_poly_acc` is set and
`poly_deg == 0`, and the error is then the one of line 146; when `use_poly_acc`
is unset it returns `mat(in)` after exactly one call of `matVec`, whatever
`poly_deg` is. -/
theorem chebyOp_error_iff {K V : Type} [Field K] [AddCommGroup V] [Module K V]
    (eig_param : QudaEigParam K) (mat : V → V) (inp : V) :
    ((∃ e, chebyOp eig_param mat inp = .error e) ↔
      (eig_param.use_poly_acc = true ∧ eig_param.poly_deg = 0)) ∧
    (∀ e, chebyOp eig_param mat inp = .error e → e = .zero_poly_deg) ∧
    (eig_param.use_poly_acc = false → chebyOp eig_param mat inp = .ok ⟨mat inp, 1⟩) := by
  unfold chebyOp
  cases hacc : eig_param.use_poly_acc
  · simp
  · by_cases hdeg : eig_param.poly_deg = 0
    · simp [hdeg]
    · by_cases hone : eig_param.poly_deg = 1
      · simp [hone]
      · simp [hdeg, hone]

/-- C10: with `use_poly_acc` set and `poly_deg == 1`, `chebyOp` calls `matVec`
exactly once and returns `in + (sigma1 / delta) * mat(in)` with
`delta = (a_max - a_min) / 2`, `theta = (a_max + a_min) / 2` and
`sigma1 = -delta / theta`; in exact arithmetic, whenever `a_max != a_min` and
`a_max + a_min != 0`, this is `in - mat(in) / theta`. -/
theorem chebyOp_degree_one {K V : Type} [LinearOrderedField K] [AddCommGroup V] [Module K V]
    (eig_param : QudaEigParam K) (mat : V → V) (inp : V)
    (hacc : eig_param.use_poly_acc = true) (hdeg : eig_param.poly_deg = 1) :
    chebyOp eig_param mat inp =
      .ok ⟨inp + ((-((eig_param.a_max - eig_param.a_min) / 2) /
          ((eig_param.a_max + eig_param.a_min) / 2)) /
            ((eig_param.a_max - eig_param.a_min) / 2)) • mat inp, 1⟩ ∧
    (eig_param.a_max ≠ eig_param.a_min → eig_param.a_max + eig_param.a_min ≠ 0 →
      chebyOp eig_param mat inp =
        .ok ⟨inp - (1 / ((eig_param.a_max + eig_param.a_min) / 2)) • mat inp, 1⟩) := by
  have h1 : chebyOp eig_param mat inp =
      .ok ⟨inp + ((-((eig_param.a_max - eig_param.a_min) / 2) /
          ((eig_param.a_max + eig_param.a_min) / 2)) /
            ((eig_param.a_max - eig_param.a_min) / 2)) • mat inp, 1⟩ := by
    unfold chebyOp
    simp [hacc, hdeg, blas.caxpby]
  refine ⟨h1, ?_⟩
  intro hne hsum
  rw [h1]
  have hd : eig_param.a_max - eig_param.a_min ≠ 0 := sub_ne_zero.mpr hne
  have hc : (-((eig_param.a_max - eig_param.a_min) / 2) /
      ((eig_param.a_max + eig_param.a_min) / 2)) / ((eig_param.a_max - eig_param.a_min) / 2) =
      -(1 / ((eig_param.a_max + eig_param.a_min) / 2)) := by
    field_simp
    ring
  rw [hc, neg_smul, sub_eq_add_neg]

/-- C10, for the operator `x ↦ 5 * x` on the rationals with `a_min = 1`,
`a_max = 3` at the input 1: one operator application, output `1 - 5 / 2`. -/
theorem chebyOp_degree_one_witness :
    chebyOp degreeOneParam (fun x : ℚ => 5 * x) 1 =
      .ok ⟨1 - (1 / (((3 : ℚ) + 1) / 2)) • ((5 : ℚ) * 1), 1⟩ :=
  (chebyOp_degree_one degreeOneParam (fun x : ℚ => 5 * x) 1 rfl rfl).2 (by decide) (by decide!)


/-! ## The bounded loops run to their exit condition -/

/-- The scan given `nKr - num_locked - i` iterations is not cut short: more
iterations give the same result. -/
theorem residuaScan_fuel {K : Type} [LinearOrderedField K] (residua : Int → K)
    (nKr num_locked : Int) (threshold : K) (fuel extra : Nat) (i found : Int)
    (h : (nKr - num_locked - i).toNat ≤ fuel) :
    residuaScan residua nKr num_locked threshold (fuel + extra) i found =
      residuaScan residua nKr num_locked threshold fuel i found := by
  induction fuel generalizing i found with
  | zero =>
    have hi : ¬ i < nKr - num_locked := by omega
    cases extra with
    | zero => rfl
    | succ e => simp only [Nat.zero_add, residuaScan, if_neg hi]
  | succ fuel ih =>
    rw [Nat.succ_add]
    simp only [residuaScan]
    split_ifs with h1 h2
    · exact ih (i + 1) i (by omega)
    · rfl
    · rfl

/-- The update of `mat_norm` given `nKr - i` iterations is not cut short. -/
theorem updateMatNorm_fuel {K : Type} [LinearOrderedField K] (alpha : Int → K) (nKr : Int)
    (fuel extra : Nat) (i : Int) (mat_norm : K) (h : (nKr - i).toNat ≤ fuel) :
    updateMatNorm alpha nKr (fuel + extra) i mat_norm = updateMatNorm alpha nKr fuel i mat_norm := by
  induction fuel generalizing i mat_norm with
  | zero =>
    have hi : ¬ i < nKr := by omega
    cases extra with
    | zero => rfl
    | succ e => simp only [Nat.zero_add, updateMatNorm, if_neg hi]
  | succ fuel ih =>
    rw [Nat.succ_add]
    simp only [updateMatNorm]
    by_cases h1 : i < nKr
    · simp only [if_pos h1]
      exact ih (i + 1) _ (by omega)
    · simp only [if_neg h1]

/-- The Lanczos extension given `nKr - step` iterations is not cut short. -/
theorem lanczosExtend_fuel {K V : Type} (k : Kernels K V) (fuel extra : Nat) (step : Int)
    (s : Session K V) (h : (s.ctl.nKr - step).toNat ≤ fuel) :
    lanczosExtend k (fuel + extra) step s = lanczosExtend k fuel step s := by
  induction fuel generalizing step s with
  | zero =>
    have hi : ¬ step < s.ctl.nKr := by omega
    cases extra with
    | zero => rfl
    | succ e => simp only [Nat.zero_add, lanczosExtend, if_neg hi]
  | succ fuel ih =>
    rw [Nat.succ_add]
    simp only [lanczosExtend]
    split_ifs with h1
    · cases hk : k.lanczosStep s step with
      | error e => rfl
      | ok kr => exact ih (step + 1) (s.install kr) (by simpa [Session.install] using (by omega))
    · rfl

/-- The recursion loop of `chebyOp` given `poly_deg - i` iterations is not cut
short. -/
theorem chebyLoop_fuel {K V : Type} [Field K] [AddCommGroup V] [Module K V] (mat : V → V)
    (delta theta sigma1 : K) (poly_deg : Int) (fuel extra : Nat) (i : Int) (s : ChebyState K V)
    (h : (poly_deg - i).toNat ≤ fuel) :
    chebyLoop mat delta theta sigma1 poly_deg (fuel + extra) i s =
      chebyLoop mat delta theta sigma1 poly_deg fuel i s := by
  induction fuel generalizing i s with
  | zero =>
    have hi : ¬ i < poly_deg := by omega
    cases extra with
    | zero => rfl
    | succ e => simp only [Nat.zero_add, chebyLoop, if_neg hi]
  | succ fuel ih =>
    rw [Nat.succ_add]
    simp only [chebyLoop]
    split_ifs with h1
    · exact ih (i + 1) _ (by omega)
    · rfl


/-! ## The restart loop -/

theorem lanczosExtend_ctl {K V : Type} (k : Kernels K V) (fuel : Nat) (step : Int)
    (s s1 : Session K V) (h : lanczosExtend k fuel step s = .ok s1) : s1.ctl = s.ctl := by
  induction fuel generalizing step s with
  | zero =>
    simp only [lanczosExtend, Except.ok.injEq] at h
    rw [← h]
  | succ fuel ih =>
    simp only [lanczosExtend] at h
    split_ifs at h with hlt
    · cases hk : k.lanczosStep s step with
      | error e =>
        rw [hk] at h
        cases h
      | ok kr =>
        rw [hk] at h
        rw [ih _ _ h]
        rfl
    · simp only [Except.ok.injEq] at h
      rw [← h]

section Restart

variable {K V : Type} [LinearOrderedField K]

/-- Residual scans return the initial value of `found` or a later position. -/
theorem residuaScan_ge (residua : Int → K) (nKr num_locked : Int) (threshold : K)
    (fuel : Nat) (i found : Int) (h : found ≤ i) :
    found ≤ residuaScan residua nKr num_locked threshold fuel i found := by
  induction fuel generalizing i found with
  | zero => simp [residuaScan]
  | succ fuel ih =>
    simp only [residuaScan]
    split_ifs
    · exact le_trans h (ih (i + 1) i (by omega))
    · exact le_refl _
    · exact le_refl _

theorem lockingCheck_nonneg (residua : Int → K) (nKr num_locked : Int) (epsilon mat_norm : K) :
    0 ≤ lockingCheck residua nKr num_locked epsilon mat_norm :=
  residuaScan_ge _ _ _ _ _ 1 0 (by omega)

theorem convergenceCheck_ge (residua : Int → K) (nKr num_locked : Int) (tol mat_norm : K)
    (iter_locked : Int) :
    iter_locked ≤ convergenceCheck residua nKr num_locked tol mat_norm iter_locked :=
  residuaScan_ge _ _ _ _ _ (iter_locked + 1) iter_locked (by omega)

/-- The control data after the convergence check. -/
theorem checkConvergence_ctl (s : Session K V) :
    s.checkConvergence.ctl =
      { s.ctl with
        converged := s.ctl.converged || decide (s.ctl.num_converged ≥ s.ctl.nConv) } := by
  unfold Session.checkConvergence
  split_ifs with h
  · obtain ⟨out, hout⟩ := reorder_returns s.ctl.reverse s.ctl.nKr s.arr.alpha s.arr.kSpace
    rw [hout]
    simp [h]
  · simp [h]

/-- The control data after one completed sweep, in terms of the control data
before it and of the arrays left by the eigen-step of that sweep. -/
theorem sweep_ctl (k : Kernels K V) (s t : Session K V) (h : sweep k s = .ok t) :
    ∃ alpha residua : Int → K,
      t.ctl =
        { (({ s.ctl with iter := s.ctl.iter + (s.ctl.nKr - s.ctl.num_keep) } :
            Control K).classify alpha residua).updateCounters with
          converged := s.ctl.converged ||
            decide ((({ s.ctl with iter := s.ctl.iter + (s.ctl.nKr - s.ctl.num_keep) } :
              Control K).classify alpha residua).updateCounters.num_converged ≥ s.ctl.nConv)
          restart_iter := s.ctl.restart_iter + 1 } := by
  unfold sweep at h
  cases hl : lanczosExtend k (s.ctl.nKr - s.ctl.num_keep).toNat s.ctl.num_keep s with
  | error e =>
    rw [hl] at h
    cases h
  | ok s1 =>
    rw [hl] at h
    simp only [Except.ok.injEq] at h
    have hc := lanczosExtend_ctl k _ _ _ _ hl
    refine ⟨(s1.countSteps.eigenStep k).arr.alpha, (s1.countSteps.eigenStep k).arr.residua, ?_⟩
    rw [← h]
    simp only [Session.nextRestart, checkConvergence_ctl]
    simp only [Session.updateCounters, Session.compress, Session.install, Session.classify,
      Session.eigenStep, Session.countSteps, hc]
    rfl

/-- What one completed sweep does to the counters and flags. -/
theorem sweep_counters (k : Kernels K V) (s t : Session K V) (h : sweep k s = .ok t) :
    t.ctl.restart_iter = s.ctl.restart_iter + 1 ∧ t.ctl.max_restarts = s.ctl.max_restarts ∧
    t.ctl.nConv = s.ctl.nConv ∧ t.ctl.nKr = s.ctl.nKr ∧ t.ctl.nEv = s.ctl.nEv ∧
    t.ctl.eig_param = s.ctl.eig_param ∧
    t.ctl.num_converged = s.ctl.num_locked + t.ctl.iter_converged ∧
    t.ctl.num_keep = s.ctl.num_locked + t.ctl.iter_keep ∧
    t.ctl.num_locked = s.ctl.num_locked + t.ctl.iter_locked ∧
    t.ctl.iter_keep =
      iterKeep s.ctl.nKr s.ctl.num_converged s.ctl.num_locked t.ctl.iter_converged ∧
    0 ≤ t.ctl.iter_locked ∧ t.ctl.iter_locked ≤ t.ctl.iter_converged ∧
    t.ctl.converged = (s.ctl.converged || decide (t.ctl.num_converged ≥ t.ctl.nConv)) := by
  obtain ⟨alpha, residua, ht⟩ := sweep_ctl k s t h
  rw [ht]
  exact ⟨rfl, rfl, rfl, rfl, rfl, rfl, rfl, rfl, rfl, rfl, lockingCheck_nonneg _ _ _ _ _,
    convergenceCheck_ge _ _ _ _ _ _, rfl⟩

end Restart


section RestartLoop

variable {K V : Type} [LinearOrderedField K]

/-- More fuel does not change the run of a loop that has finished. -/
theorem restartLoop_mono (k : Kernels K V) (fuel extra : Nat) (s : Session K V)
    (run : LoopRun K V) (h : restartLoop k fuel s = some run) :
    restartLoop k (fuel + extra) s = some run := by
  induction fuel generalizing s run with
  | zero =>
    simp only [restartLoop] at h
    split_ifs at h with hc
    cases extra with
    | zero => simp only [Nat.add_zero, restartLoop, if_neg hc, h]
    | succ e => simp only [Nat.zero_add, restartLoop, if_neg hc, h]
  | succ fuel ih =>
    rw [Nat.succ_add]
    simp only [restartLoop] at h ⊢
    split_ifs at h ⊢ with hc
    · cases hs : sweep k s with
      | error e =>
        rw [hs] at h
        exact h
      | ok s1 =>
        rw [hs] at h
        simp only at h ⊢
        cases hr : restartLoop k fuel s1 with
        | none =>
          rw [hr] at h
          cases h
        | some run1 =>
          rw [hr] at h
          rw [ih s1 run1 hr]
          exact h
    · exact h

/-- The run of the restart loop, given at least `max_restarts - restart_iter`
sweeps of fuel: consecutive sessions are linked by sweeps taken under the loop
condition, and the loop stops where its condition fails or a sweep ends the
program. -/
theorem restartLoop_spec (k : Kernels K V) (fuel : Nat) (s : Session K V)
    (hf : (s.ctl.max_restarts - s.ctl.restart_iter).toNat ≤ fuel) :
    ∃ run, restartLoop k fuel s = some run ∧
      List.Chain (SweepStep k) s run.sweeps ∧
      (run.sweeps.length : Int) ≤ max (s.ctl.max_restarts - s.ctl.restart_iter) 0 ∧
      (run.aborted = none →
        ¬ ((run.final s).ctl.restart_iter < (run.final s).ctl.max_restarts ∧
          (run.final s).ctl.converged = false)) ∧
      (∀ e, run.aborted = some e →
        ((run.final s).ctl.restart_iter < (run.final s).ctl.max_restarts ∧
          (run.final s).ctl.converged = false) ∧ sweep k (run.final s) = .error e) ∧
      (∀ last, run.sweeps.getLast? = some last → ∃ prev, SweepStep k prev last) := by
  induction fuel generalizing s with
  | zero =>
    have hc : ¬ (s.ctl.restart_iter < s.ctl.max_restarts ∧ s.ctl.converged = false) := by
      rintro ⟨h1, _⟩
      omega
    refine ⟨⟨[], none⟩, by simp only [restartLoop, if_neg hc], List.Chain.nil, by simp, ?_, ?_, ?_⟩
    · intro _
      exact hc
    · intro e he
      cases he
    · intro last hl
      cases hl
  | succ fuel ih =>
    by_cases hc : s.ctl.restart_iter < s.ctl.max_restarts ∧ s.ctl.converged = false
    · cases hs : sweep k s with
      | error e =>
        refine ⟨⟨[], some e⟩, by simp only [restartLoop, if_pos hc, hs], List.Chain.nil,
          by simp, ?_, ?_, ?_⟩
        · intro h
          cases h
        · intro e2 he
          simp only [Option.some.injEq] at he
          subst he
          exact ⟨hc, hs⟩
        · intro last hl
          cases hl
      | ok s1 =>
        obtain ⟨hri, hmax, _⟩ := sweep_counters k s s1 hs
        obtain ⟨run, hrun, hchain, hlen, hnone, hsome, hlast⟩ := ih s1 (by omega)
        have hfinal : LoopRun.final ⟨s1 :: run.sweeps, run.aborted⟩ s = run.final s1 := by
          simp only [LoopRun.final, List.getLast?_cons, Option.getD_some]
        refine ⟨⟨s1 :: run.sweeps, run.aborted⟩, by simp only [restartLoop, if_pos hc, hs, hrun],
          List.Chain.cons ⟨hc.1, hc.2, hs⟩ hchain, ?_, ?_, ?_, ?_⟩
        · simp only [List.length_cons]
          push_cast
          have h1 := hc.1
          rcases le_max_iff.mp hlen with h | h
          · exact le_max_of_le_left (by omega)
          · exact le_max_of_le_left (by omega)
        · rw [hfinal]
          exact hnone
        · rw [hfinal]
          exact hsome
        · intro last hl
          cases hsw : run.sweeps with
          | nil =>
            rw [hsw] at hl
            simp only [List.getLast?_singleton, Option.some.injEq] at hl
            subst hl
            exact ⟨s, hc.1, hc.2, hs⟩
          | cons x xs =>
            rw [hsw, List.getLast?_cons_cons, ← hsw] at hl
            exact hlast last hl
    · refine ⟨⟨[], none⟩, by simp only [restartLoop, if_neg hc], List.Chain.nil, by simp, ?_, ?_,
        ?_⟩
      · intro _
        exact hc
      · intro e he
        cases he
      · intro last hl
        cases hl

end RestartLoop


/-- C7: started with `restart_iter = 0` and `converged` unset (as the constructor
leaves them), the restart loop finishes within `max_restarts` sweeps of fuel and
more fuel gives the same run; it executes at most `max(max_restarts, 0)` sweeps;
each sweep is taken while `restart_iter < max_restarts` and `converged` is
unset, raises `restart_iter` by exactly 1, keeps `max_restarts`, sets
`num_converged` to the old `num_locked` plus `iter_converged`, and sets
`converged` exactly if that `num_converged` is at least `nConv`; when no sweep
ends the program, the loop is left with `restart_iter >= max_restarts` or
`converged` set, and `converged` is set on exit if and only if there was a last
sweep and it ended with `num_converged >= nConv`. -/
theorem restart_loop_bounded {K V : Type} [LinearOrderedField K] (k : Kernels K V)
    (s : Session K V) (h0 : s.ctl.restart_iter = 0) (hc : s.ctl.converged = false) :
    ∃ run : LoopRun K V,
      restartLoop k s.ctl.max_restarts.toNat s = some run ∧
      (∀ extra : Nat, restartLoop k (s.ctl.max_restarts.toNat + extra) s = some run) ∧
      (run.sweeps.length : Int) ≤ max s.ctl.max_restarts 0 ∧
      List.Chain
        (fun a b : Session K V =>
          SweepStep k a b ∧ b.ctl.restart_iter = a.ctl.restart_iter + 1 ∧
            b.ctl.max_restarts = a.ctl.max_restarts ∧
            b.ctl.num_converged = a.ctl.num_locked + b.ctl.iter_converged ∧
            (b.ctl.converged = true ↔ b.ctl.num_converged ≥ b.ctl.nConv))
        s run.sweeps ∧
      (run.aborted = none →
        (run.final s).ctl.restart_iter ≥ (run.final s).ctl.max_restarts ∨
          (run.final s).ctl.converged = true) ∧
      (run.aborted = none →
        ((run.final s).ctl.converged = true ↔
          ∃ last, run.sweeps.getLast? = some last ∧
            last.ctl.num_converged ≥ last.ctl.nConv)) := by
  obtain ⟨run, hrun, hchain, hlen, hnone, _, hlast⟩ :=
    restartLoop_spec k s.ctl.max_restarts.toNat s (by rw [h0]; simp)
  have hstep : ∀ a b : Session K V, SweepStep k a b →
      (b.ctl.converged = true ↔ b.ctl.num_converged ≥ b.ctl.nConv) := by
    intro a b hab
    obtain ⟨_, _, _, _, _, _, _, _, _, _, _, _, hcv⟩ := sweep_counters k a b hab.2.2
    rw [hcv, hab.2.1]
    simp
  refine ⟨run, hrun, fun extra => restartLoop_mono k _ extra s run hrun, ?_, ?_, ?_, ?_⟩
  · rw [h0] at hlen
    simpa using hlen
  · refine hchain.imp ?_
    intro a b hab
    obtain ⟨hri, hmax, _, _, _, _, hnc, _⟩ := sweep_counters k a b hab.2.2
    exact ⟨hab, hri, hmax, hnc, hstep a b hab⟩
  · intro hn
    have := hnone hn
    by_cases hcv : (run.final s).ctl.converged = true
    · exact Or.inr hcv
    · left
      have hcf : (run.final s).ctl.converged = false := by
        cases hb : (run.final s).ctl.converged
        · rfl
        · exact absurd hb hcv
      by_contra hlt
      exact this ⟨by omega, hcf⟩
  · intro _
    cases hl : run.sweeps.getLast? with
    | none =>
      have hf : run.final s = s := by simp only [LoopRun.final, hl, Option.getD_none]
      rw [hf, hc]
      simp
    | some last =>
      have hf : run.final s = last := by simp only [LoopRun.final, hl, Option.getD_some]
      obtain ⟨prev, hprev⟩ := hlast last hl
      rw [hf, hstep prev last hprev]
      simp

/-- C7, at the configuration `nEv = 8`, `nKr = 16`, `nConv = 4`, `max_restarts = 1`
with kernels that never converge: the loop finishes with at most one sweep. -/
theorem restart_loop_bounded_witness :
    (freshSession wideParam).ctl.restart_iter = 0 ∧
      (freshSession wideParam).ctl.converged = false ∧
      ∃ run : LoopRun ℚ Int,
        restartLoop (fixedRitzKernels (fun _ => 1) (fun _ => 1))
          (freshSession wideParam).ctl.max_restarts.toNat (freshSession wideParam) = some run ∧
        (run.sweeps.length : Int) ≤ max (freshSession wideParam).ctl.max_restarts 0 := by
  refine ⟨rfl, rfl, ?_⟩
  obtain ⟨run, h1, _, h3, _⟩ :=
    restart_loop_bounded (fixedRitzKernels (fun _ => 1) (fun _ => 1)) (freshSession wideParam)
      rfl rfl
  exact ⟨run, h1, h3⟩


/-! ## Classification and compression -/

/-- The constructor builds the fresh solver for the scenario configuration and
for the wide configuration. -/
theorem construct_fresh :
    (TRLM.construct roomyHost scenarioParam).outcome = .ok (freshSolver scenarioParam) ∧
      (TRLM.construct roomyHost wideParam).outcome = .ok (freshSolver wideParam) ∧
      (TRLM.construct roomyHost outfileParam).outcome = .ok (freshSolver outfileParam) :=
  ⟨rfl, rfl, rfl⟩

theorem prepare_ctl {K V : Type} [LinearOrderedField K] (k : Kernels K V) (prec : QudaPrecision)
    (s s1 : Session K V) (h : s.prepare k prec = .ok s1) :
    ∃ epsilon, epsilonOf prec = some epsilon ∧
      s1.ctl =
        { s.ctl with
          evals := s.ctl.evals ++ List.replicate (s.ctl.nEv - s.ctl.nConv).toNat (0, 0)
          mat_norm := 0
          epsilon := epsilon } := by
  unfold Session.prepare at h
  dsimp only at h
  cases he : epsilonOf (K := K) prec with
  | none =>
    rw [he] at h
    cases h
  | some epsilon =>
    rw [he] at h
    simp only [Except.ok.injEq] at h
    exact ⟨epsilon, rfl, by rw [← h]⟩

/-- C5 (the code at a failing input): `nEv = 8`, `nKr = 16`, `nConv = 4`,
`tol = 1e-10`, double precision, first sweep, the dense eigen-step returning
Ritz values 1 and residual estimates `1, 0, 1, 1, ...`. The scans test position
1 only (it passes) and stop at position 2, so `iter_locked = iter_converged = 1`:
the pair at position 0 is the one counted in `num_converged = 1` and frozen by
`num_locked = 1`, while its residual estimate 1 is not below
`tol * mat_norm = 1e-10`. -/
theorem converged_count_includes_untested_pair :
    ∃ s1 s2 : Session ℚ Int,
      (freshSession wideParam).prepare (fixedRitzKernels (fun _ => 1) lateFirstResidua)
        .QUDA_DOUBLE_PRECISION = .ok s1 ∧
      sweep (fixedRitzKernels (fun _ => 1) lateFirstResidua) s1 = .ok s2 ∧
      s1.ctl.num_locked = 0 ∧ s1.ctl.epsilon ≤ s1.ctl.tol ∧
      s2.ctl.iter_locked = 1 ∧ s2.ctl.iter_converged = 1 ∧
      s2.ctl.num_converged = 1 ∧ s2.ctl.num_locked = 1 ∧
      s2.arr.residua 0 = 1 ∧ s2.ctl.tol * s2.ctl.mat_norm = 1 / 10 ^ 10 ∧
      ¬ (s2.arr.residua 0 < s2.ctl.tol * s2.ctl.mat_norm) := by
  refine ⟨_, _, rfl, rfl, ?_, ?_, ?_, ?_, ?_, ?_, ?_, ?_, ?_⟩ <;> decide!

/-- C6 (the code at a failing input): for the configuration `nEv = 4`, `nKr = 10`,
`nConv = 3`, which the constructor accepts, the first sweep ends with
`iter_keep = -2` and `num_keep = -2` whatever the numerical kernels return,
while `iter_converged >= 0`. -/
theorem iter_keep_negative_in_scenario (k : Kernels ℚ Int) (prec : QudaPrecision)
    (s1 t : Session ℚ Int) (hp : (freshSession scenarioParam).prepare k prec = .ok s1)
    (hs : sweep k s1 = .ok t) :
    (TRLM.construct roomyHost scenarioParam).succeeded = true ∧
      0 ≤ t.ctl.iter_converged ∧ t.ctl.iter_keep = -2 ∧ t.ctl.num_keep = -2 ∧
      t.ctl.iter_keep < t.ctl.iter_converged := by
  obtain ⟨epsilon, _, hctl⟩ := prepare_ctl k prec _ _ hp
  have h1 : s1.ctl.nKr = 10 := by rw [hctl]; rfl
  have h2 : s1.ctl.num_locked = 0 := by rw [hctl]; rfl
  have h3 : s1.ctl.num_converged = 0 := by rw [hctl]; rfl
  obtain ⟨_, _, _, _, _, _, _, hnk, _, hik, hl0, hlc, _⟩ := sweep_counters k s1 t hs
  rw [h1, h2, h3] at hik
  rw [h2] at hnk
  have hic : 0 ≤ t.ctl.iter_converged := le_trans hl0 hlc
  have hd : Int.tdiv (10 - 0) 2 = 5 := by decide
  have hk : t.ctl.iter_keep = -2 := by
    rw [hik]
    unfold iterKeep
    rw [hd]
    exact min_eq_right (by omega)
  exact ⟨by decide, hic, hk, by rw [hnk, hk]; rfl, by omega⟩

/-- C6, with kernels whose eigen-step returns residual estimates 1 everywhere. -/
theorem iter_keep_negative_in_scenario_witness :
    ∃ s1 t : Session ℚ Int,
      (freshSession scenarioParam).prepare (fixedRitzKernels (fun _ => 1) (fun _ => 1))
        .QUDA_DOUBLE_PRECISION = .ok s1 ∧
      sweep (fixedRitzKernels (fun _ => 1) (fun _ => 1)) s1 = .ok t ∧
      t.ctl.iter_keep = -2 ∧ t.ctl.num_keep = -2 :=
  ⟨_, _, rfl, rfl,
    (iter_keep_negative_in_scenario (fixedRitzKernels (fun _ => 1) (fun _ => 1))
      .QUDA_DOUBLE_PRECISION _ _ rfl rfl).2.2.1,
    (iter_keep_negative_in_scenario (fixedRitzKernels (fun _ => 1) (fun _ => 1))
      .QUDA_DOUBLE_PRECISION _ _ rfl rfl).2.2.2.1⟩


/-! ## After the loop -/

section AfterLoop

variable {K V : Type} [LinearOrderedField K]

end AfterLoop

/-- C11 (the code at a failing input): `use_poly_acc` set, `poly_deg = 2`,
`a_min = 1`, `a_max = 3` (so `theta = 2`, `delta = 1`), the operator `x ↦ 5 * x`
on the rationals, input 1. The loop `for (i = 2; i < poly_deg; i++)` does not
run: `chebyOp` makes one operator application and returns `-3/2`, the output
of degree 1, where a polynomial of degree 2 needs two applications and
`T_2((theta - 5) / delta) / T_2(theta / delta) = 17/7`. -/
theorem chebyOp_degree_two_is_degree_one :
    (chebyOp degreeTwoParam (fun x : ℚ => 5 * x) 1).toOption.map
        (fun r => (r.out, r.matVecs)) = some (-3 / 2, 1) ∧
      (chebyOp degreeOneParam (fun x : ℚ => 5 * x) 1).toOption.map
        (fun r => (r.out, r.matVecs)) = some (-3 / 2, 1) ∧
      chebyshevT 2 (((2 : ℚ) - 5) / 1) / chebyshevT 2 ((2 : ℚ) / 1) * 1 = 17 / 7 ∧
      chebyshevT 1 (((2 : ℚ) - 5) / 1) / chebyshevT 1 ((2 : ℚ) / 1) * 1 = -3 / 2 := by
  refine ⟨by decide!, by decide!, by decide!, by decide!⟩

/-! ## Monotonicity of the counters -/

/-- A sweep completes when no Lanczos step ends the program. -/
theorem sweep_completes {K V : Type} [LinearOrderedField K] (k : Kernels K V)
    (hk : ∀ s j, ∃ kr, k.lanczosStep s j = .ok kr) (s : Session K V) :
    ∃ t, sweep k s = .ok t := by
  have hext : ∀ (fuel : Nat) (step : Int) (s : Session K V),
      ∃ s1, lanczosExtend k fuel step s = .ok s1 := by
    intro fuel
    induction fuel with
    | zero => exact fun step s => ⟨s, rfl⟩
    | succ fuel ih =>
      intro step s
      simp only [lanczosExtend]
      by_cases hlt : step < s.ctl.nKr
      · obtain ⟨kr, hkr⟩ := hk s step
        rw [if_pos hlt, hkr]
        exact ih _ _
      · rw [if_neg hlt]
        exact ⟨s, rfl⟩
  obtain ⟨s1, hs1⟩ := hext (s.ctl.nKr - s.ctl.num_keep).toNat s.ctl.num_keep s
  unfold sweep
  rw [hs1]
  exact ⟨_, rfl⟩

/-- C12: in every completed sweep, whatever the numerical kernels return,
`iter_locked >= 0`, and `num_locked` after the sweep is its value before plus
`iter_locked`, hence not smaller. -/
theorem num_locked_monotone {K V : Type} [LinearOrderedField K] (k : Kernels K V)
    (s t : Session K V) (h : sweep k s = .ok t) :
    0 ≤ t.ctl.iter_locked ∧ t.ctl.num_locked = s.ctl.num_locked + t.ctl.iter_locked ∧
      s.ctl.num_locked ≤ t.ctl.num_locked := by
  obtain ⟨_, _, _, _, _, _, _, _, hnl, _, hl0, _, _⟩ := sweep_counters k s t h
  exact ⟨hl0, hnl, by omega⟩

/-- C12, at `nEv = 8`, `nKr = 16`, `nConv = 4` with residual estimates
`1, 0, 1, 1, ...`: the first sweep raises `num_locked` from 0 to 1. -/
theorem num_locked_monotone_witness :
    ∃ s1 t : Session ℚ Int,
      (freshSession wideParam).prepare (fixedRitzKernels (fun _ => 1) lateFirstResidua)
        .QUDA_DOUBLE_PRECISION = .ok s1 ∧
      sweep (fixedRitzKernels (fun _ => 1) lateFirstResidua) s1 = .ok t ∧
      s1.ctl.num_locked ≤ t.ctl.num_locked := by
  obtain ⟨s1, h1⟩ : ∃ s1 : Session ℚ Int,
      (freshSession wideParam).prepare (fixedRitzKernels (fun _ => 1) lateFirstResidua)
        .QUDA_DOUBLE_PRECISION = .ok s1 := ⟨_, rfl⟩
  obtain ⟨t, ht⟩ := sweep_completes (fixedRitzKernels (fun _ => 1) lateFirstResidua)
    (fun s _ => ⟨s.arr, rfl⟩) s1
  exact ⟨s1, t, h1, ht,
    (num_locked_monotone (fixedRitzKernels (fun _ => 1) lateFirstResidua) s1 t ht).2.2⟩

/-- C13 (as stated, refuted): `nEv = 8`, `nKr = 16`, `nConv = 4`, `tol = 1e-10`,
`max_restarts = 2`. The restart loop runs two sweeps: the first sees residual
estimates `1, 1e-11, 1e-11, 1, ...` and assigns `num_converged = 2` (with
`num_locked = 0`), the second sees residual estimates 1 everywhere and assigns
`num_converged = 0`. -/
theorem num_converged_can_decrease :
    ∃ s1 : Session ℚ Int,
      (freshSession twoRestartParam).prepare (phasedKernels twoNearlyConverged (fun _ => 1))
        .QUDA_DOUBLE_PRECISION = .ok s1 ∧
      (restartLoop (phasedKernels twoNearlyConverged (fun _ => 1)) 2 s1).map
        (fun run => (run.sweeps.map (fun t => t.ctl.num_converged),
          run.sweeps.map (fun t => t.ctl.num_locked), run.aborted)) =
        some ([2, 0], [0, 0], none) := by
  refine ⟨_, rfl, by decide!⟩

/-- C13 (amended): for two consecutive sweeps and arbitrary residual values, the
`num_converged` assigned by the later sweep is at least the `num_locked` left by
the earlier sweep, which is the earlier `num_converged` minus
`iter_converged - iter_locked` of the earlier sweep; it is at least the earlier
`num_converged` whenever the earlier sweep locked every pair it counted as
converged. -/
theorem num_converged_lower_bound {K V : Type} [LinearOrderedField K] (k : Kernels K V)
    (s t u : Session K V) (hst : sweep k s = .ok t) (htu : sweep k t = .ok u) :
    t.ctl.num_locked ≤ u.ctl.num_converged ∧
      t.ctl.num_locked = t.ctl.num_converged - (t.ctl.iter_converged - t.ctl.iter_locked) ∧
      (t.ctl.iter_converged = t.ctl.iter_locked →
        t.ctl.num_converged ≤ u.ctl.num_converged) := by
  obtain ⟨_, _, _, _, _, _, hnc, _, hnl, _, _, _, _⟩ := sweep_counters k s t hst
  obtain ⟨_, _, _, _, _, _, hnc2, _, _, _, hl0, hlc, _⟩ := sweep_counters k t u htu
  refine ⟨by omega, by omega, ?_⟩
  intro h
  omega

/-- C13 (amended), on the two sweeps of the counterexample. -/
theorem num_converged_lower_bound_witness :
    ∃ s1 s2 s3 : Session ℚ Int,
      (freshSession twoRestartParam).prepare (phasedKernels twoNearlyConverged (fun _ => 1))
        .QUDA_DOUBLE_PRECISION = .ok s1 ∧
      sweep (phasedKernels twoNearlyConverged (fun _ => 1)) s1 = .ok s2 ∧
      sweep (phasedKernels twoNearlyConverged (fun _ => 1)) s2 = .ok s3 ∧
      s2.ctl.num_locked ≤ s3.ctl.num_converged := by
  obtain ⟨s1, h1⟩ : ∃ s1 : Session ℚ Int,
      (freshSession twoRestartParam).prepare (phasedKernels twoNearlyConverged (fun _ => 1))
        .QUDA_DOUBLE_PRECISION = .ok s1 := ⟨_, rfl⟩
  obtain ⟨s2, h2⟩ := sweep_completes (phasedKernels twoNearlyConverged (fun _ => 1))
    (fun s _ => ⟨s.arr, rfl⟩) s1
  obtain ⟨s3, h3⟩ := sweep_completes (phasedKernels twoNearlyConverged (fun _ => 1))
    (fun s _ => ⟨s.arr, rfl⟩) s2
  exact ⟨s1, s2, s3, h1, h2, h3,
    (num_converged_lower_bound (phasedKernels twoNearlyConverged (fun _ => 1)) s1 s2 s3 h2
      h3).1⟩

/-! ## Idempotence of `reorder` -/

/-- C15: `reorder` is idempotent: for every content of `alpha` and `kSpace`, either
value of `reverse` and every `nKr`, if a first call returns, a second call on the
arrays it left returns as well and leaves both arrays as the first call left
them (at every index). The comparison is any relation, total or not. -/
theorem reorder_idempotent {α V : Type} [LE α] [DecidableRel (LE.le : α → α → Prop)]
    (reverse : Bool) (nKr : Int) (alpha : Int → α) (kSpace : Int → V)
    (first : ReorderState α V) (h : reorder reverse nKr alpha kSpace = some first) :
    ∃ second, reorder reverse nKr first.alpha first.kSpace = some second ∧
      second.alpha = first.alpha ∧ second.kSpace = first.kSpace := by
  obtain ⟨hf, hexit⟩ := (reorder_eq_some reverse nKr alpha kSpace first).mp h
  have hfuel : (nKr - 0).toNat ≤ nKr.toNat * nKr.toNat := by
    simp only [sub_zero]
    rcases Nat.eq_zero_or_pos nKr.toNat with hz | hz
    · rw [hz]
    · exact Nat.le_mul_of_pos_right _ hz
  cases reverse
  · simp only [Bool.false_eq_true, if_false] at hf
    have hadj := reorderLoop_adjacent (V := V) (fun x y : α => decide (x ≤ y)) nKr
      (nKr.toNat * nKr.toNat) ⟨0, alpha, kSpace⟩ le_rfl (fun j hj0 hj => by simp only at hj; omega)
    rw [← hf] at hadj
    obtain ⟨e1, e2, e3⟩ := reorderLoop_fixed (fun x y : α => decide (x ≤ y)) nKr
      (nKr.toNat * nKr.toNat) ⟨0, first.alpha, first.kSpace⟩ le_rfl
      (fun j hj0 hj => hadj.2 j hj0 (by omega)) hfuel
    exact ⟨_, (reorder_eq_some false nKr first.alpha first.kSpace _).mpr ⟨rfl, e3⟩, e1, e2⟩
  · simp only [if_true] at hf
    have hadj := reorderLoop_adjacent (V := V) (fun x y : α => decide (x ≥ y)) nKr
      (nKr.toNat * nKr.toNat) ⟨0, alpha, kSpace⟩ le_rfl (fun j hj0 hj => by simp only at hj; omega)
    rw [← hf] at hadj
    obtain ⟨e1, e2, e3⟩ := reorderLoop_fixed (fun x y : α => decide (x ≥ y)) nKr
      (nKr.toNat * nKr.toNat) ⟨0, first.alpha, first.kSpace⟩ le_rfl
      (fun j hj0 hj => hadj.2 j hj0 (by omega)) hfuel
    exact ⟨_, (reorder_eq_some true nKr first.alpha first.kSpace _).mpr ⟨rfl, e3⟩, e1, e2⟩

/-- C15 at `nKr = 3`, `reverse` unset and `alpha = 1, 3, 2`: the first call returns
with `alpha = 1, 2, 3`, and the second call returns the same arrays. -/
theorem reorder_idempotent_witness :
    ∃ first second : ReorderState ℚ Int,
      reorder false 3 unsortedAlpha labelledBasis = some first ∧
        seg first.alpha 0 3 = [1, 2, 3] ∧
        reorder false 3 first.alpha first.kSpace = some second ∧
        second.alpha = first.alpha ∧ second.kSpace = first.kSpace := by
  have h : reorder false 3 unsortedAlpha labelledBasis =
      some (reorderLoop (fun x y : ℚ => decide (x ≤ y)) 3 9 ⟨0, unsortedAlpha, labelledBasis⟩) :=
    (reorder_eq_some false 3 unsortedAlpha labelledBasis _).mpr ⟨rfl, by decide!⟩
  obtain ⟨second, h2, h3, h4⟩ := reorder_idempotent false 3 unsortedAlpha labelledBasis _ h
  exact ⟨_, second, h, by decide!, h2, h3, h4⟩


/-! ## `computeEvals` -/

/-- C16 (code defect): `computeEvals` divides `<v, A v>` by `sqrt(norm2(v))`, the
norm of `v`, where the comment of line 352 has `v^dag v`. For the eigenvector
`v = (2, 0, 0)` of `A = diag(3, 1, 1)`, with `A v = 3 v`, it stores `evals[0] = 6`
and `residua[0] = 6`, while the Rayleigh quotient `<v, A v> / <v, v>` is `3`. -/
theorem computeEvals_divides_by_norm :
    diag311 (2, 0, 0) = (3 : ℚ) • ((2, 0, 0) : Vec3) ∧
      dot3 (2, 0, 0) (diag311 (2, 0, 0)) / dot3 (2, 0, 0) (2, 0, 0) = 3 ∧
      (computeEvals euclid3 diag311 (fun _ => (2, 0, 0)) 1 zeroEvalState).evals 0 = 6 ∧
      (computeEvals euclid3 diag311 (fun _ => (2, 0, 0)) 1 zeroEvalState).residua 0 = 6 := by
  decide!

/-! ## Counted loops -/

theorem forLoop_invariant {σ : Type} (P : Int → σ → Prop) (hi : Int) (body : Int → σ → σ)
    (lo0 : Int) (step : ∀ i s, lo0 ≤ i → i < hi → P i s → P (i + 1) (body i s)) :
    ∀ (fuel : Nat) (lo : Int) (s : σ), lo0 ≤ lo → lo ≤ hi → (hi - lo).toNat ≤ fuel → P lo s →
      P hi (forLoop hi body fuel lo s) := by
  intro fuel
  induction fuel with
  | zero =>
    intro lo s _ h2 h3 hP
    have : lo = hi := by omega
    subst this
    exact hP
  | succ n ih =>
    intro lo s h1 h2 h3 hP
    unfold forLoop
    split_ifs with h
    · exact ih (lo + 1) (body lo s) (by omega) (by omega) (by omega) (step lo s h1 h hP)
    · have : lo = hi := by omega
      subst this
      exact hP

theorem forRange_invariant {σ : Type} (P : Int → σ → Prop) (lo hi : Int) (body : Int → σ → σ)
    (s : σ) (hle : lo ≤ hi) (h0 : P lo s)
    (step : ∀ i s, lo ≤ i → i < hi → P i s → P (i + 1) (body i s)) :
    P hi (forRange lo hi body s) :=
  forLoop_invariant P hi body lo step _ lo s le_rfl hle le_rfl h0

theorem forRange_of_ge {σ : Type} (lo hi : Int) (body : Int → σ → σ) (s : σ) (h : hi ≤ lo) :
    forRange lo hi body s = s := by
  unfold forRange
  have : (hi - lo).toNat = 0 := by omega
  rw [this]
  rfl

theorem forLoop_sum {V : Type} [AddCommGroup V] (f : Int → V) (hi : Int) :
    ∀ (n : Nat) (lo : Int) (r : V), (hi - lo).toNat = n →
      forLoop hi (fun i r => r + f i) n lo r = r + (seg f lo n).sum := by
  intro n
  induction n with
  | zero => intro lo r _; simp [forLoop, seg]
  | succ n ih =>
    intro lo r h
    unfold forLoop
    rw [if_pos (by omega), ih (lo + 1) (r + f lo) (by omega)]
    simp [seg, add_assoc]

theorem forRange_sum {V : Type} [AddCommGroup V] (f : Int → V) (lo hi : Int) (r : V) :
    forRange lo hi (fun i r => r + f i) r = r + (seg f lo (hi - lo).toNat).sum :=
  forLoop_sum f hi _ lo r rfl

theorem seg_sum_neg {V : Type} [AddCommGroup V] (f : Int → V) (lo : Int) (n : Nat) :
    (seg (fun i => -f i) lo n).sum = -(seg f lo n).sum := by
  induction n generalizing lo with
  | zero => simp [seg]
  | succ n ih => simp [seg, ih, add_comm]

theorem seg_sum_range {V : Type} [AddCommMonoid V] (f : Int → V) (lo : Int) (n : Nat) :
    (seg f lo n).sum = ∑ k in Finset.range n, f (lo + k) := by
  induction n generalizing lo with
  | zero => simp [seg]
  | succ n ih =>
    rw [Finset.sum_range_succ', seg, List.sum_cons, ih, add_comm]
    congr 1
    · apply Finset.sum_congr rfl
      intro k _
      congr 1
      push_cast
      ring
    · simp

/-! ## `blockOrthogonalize` and `lanczosStep` -/

theorem blockAxpy_eq {K V : Type} [Field K] [AddCommGroup V] [Module K V] (a : Int → K)
    (x : Int → V) (n : Int) (y : V) :
    blas.blockAxpy a x n y = y + (seg (fun i => a i • x i) 0 n.toNat).sum := by
  unfold blas.blockAxpy
  rw [forRange_sum]
  simp

theorem negate_loop {K : Type} [Field K] (s : Int → K) (n : Int) (hn : 0 ≤ n) :
    (forRange 0 n (fun i (p : K × (Int → K)) => (p.1 + p.2 i, Function.update p.2 i (p.2 i * -1)))
      (0, s)).2 = fun i => if 0 ≤ i ∧ i < n then -s i else s i := by
  refine forRange_invariant
    (fun k (p : K × (Int → K)) => p.2 = fun i => if 0 ≤ i ∧ i < k then -s i else s i) 0 n _ _ hn
    ?_ ?_
  · funext i
    rw [if_neg (by omega)]
  · intro k p h1 h2 hp
    funext i
    simp only [hp, Function.update_apply]
    split_ifs <;> first | rfl | (exfalso; omega) | (subst_vars; simp)

theorem blockOrthogonalize_vec {K V : Type} [Field K] [AddCommGroup V] [Module K V]
    (e : Externals K V) (vecs : Int → V) (rvec : V) (j : Int) (hj : 0 ≤ j + 1) :
    (blockOrthogonalize e vecs rvec j).1 =
      rvec - (seg (fun i => e.dot (vecs i) rvec • vecs i) 0 (j + 1).toNat).sum := by
  unfold blockOrthogonalize
  simp only
  rw [blockAxpy_eq, negate_loop _ _ hj, sub_eq_add_neg, ← seg_sum_neg]
  congr 2
  apply seg_congr
  intro i h1 h2
  have h3 : i < j + 1 := by
    have := Int.toNat_of_nonneg hj
    omega
  simp only [h1, h3, and_self, if_true, neg_smul]

theorem lanczosStep_of_ok {K V : Type} [Field K] [AddCommGroup V] [Module K V]
    (e : Externals K V) (eig_param : QudaEigParam K) (mat : V → V) (num_keep : Int)
    (kr : Krylov K V) (j : Int) (cheb : ChebyResult V)
    (hc : chebyOp eig_param mat (kr.kSpace j) = .ok cheb) :
    lanczosStep e eig_param mat num_keep kr j = .ok (lanczosStepSpec e num_keep kr j cheb.out) := by
  unfold lanczosStep lanczosStepSpec
  rw [hc]
  simp only
  have hwin : forRange (if j > num_keep then j - 1 else 0) j
        (fun i r => blas.axpy (-kr.beta i) (kr.kSpace i) r)
        (blas.axpy (-(Function.update kr.alpha j (e.dot (kr.kSpace j) cheb.out) j)) (kr.kSpace j)
          cheb.out) =
      cheb.out - e.dot (kr.kSpace j) cheb.out • kr.kSpace j -
        (seg (fun i => kr.beta i • kr.kSpace i) (if j > num_keep then j - 1 else 0)
          (j - (if j > num_keep then j - 1 else 0)).toNat).sum := by
    simp only [blas.axpy, Function.update_same, neg_smul]
    rw [forRange_sum, seg_sum_neg]
    abel
  rw [hwin]
  have hblk : ∀ r : V, (if j > 0 then (blockOrthogonalize e kr.kSpace r j).1 else r) =
      if j > 0 then r - (seg (fun i => e.dot (kr.kSpace i) r • kr.kSpace i) 0 (j + 1).toNat).sum
      else r := by
    intro r
    split_ifs with h
    · exact blockOrthogonalize_vec e kr.kSpace r j (by omega)
    · rfl
  rw [hblk]
  simp only [blas.axpy, blas.norm2, Function.update_same, Function.update_idem, zero_add]

/-- C17: `lanczosStep(v, j)` fails only where `chebyOp` does; otherwise, with
`w = chebyOp(v_j)`, it leaves what `lanczosStepSpec` describes: `alpha[j] = <v_j, w>`,
`r1 = w - alpha[j] v_j - sum_{i = start}^{j - 1} beta[i] v_i` with `start = j - 1`
if `j > num_keep` and `start = 0` otherwise,
`r2 = r1 - sum_{i = 0}^{j} <v_i, r1> v_i` if `j > 0` and `r2 = r1` otherwise,
`beta[j] = sqrt <r2, r2>` and `v_{j+1} = r2 / beta[j]`; of `alpha` and `beta` only
entry `j` is written, of the basis only `v_{j+1}`, and `r[0]` holds `r2`. -/
theorem lanczosStep_closed_form {K V : Type} [Field K] [AddCommGroup V] [Module K V]
    (e : Externals K V) (eig_param : QudaEigParam K) (mat : V → V) (num_keep : Int)
    (kr : Krylov K V) (j : Int) :
    lanczosStep e eig_param mat num_keep kr j =
      (chebyOp eig_param mat (kr.kSpace j)).map
        (fun cheb => lanczosStepSpec e num_keep kr j cheb.out) := by
  cases hc : chebyOp eig_param mat (kr.kSpace j) with
  | error err =>
    unfold lanczosStep
    rw [hc]
    rfl
  | ok cheb => exact lanczosStep_of_ok e eig_param mat num_keep kr j cheb hc

/-! ## Orthogonality of the Lanczos vectors -/

theorem IsInner.zero_left {K V : Type} [Field K] [AddCommGroup V] [Module K V]
    {dot : V → V → K} (h : IsInner dot) (z : V) : dot 0 z = 0 := by
  have := h.smul_left 0 0 z
  simpa using this

theorem IsInner.add_right {K V : Type} [Field K] [AddCommGroup V] [Module K V]
    {dot : V → V → K} (h : IsInner dot) (z x y : V) : dot z (x + y) = dot z x + dot z y := by
  rw [h.symm z (x + y), h.add_left, h.symm x z, h.symm y z]

theorem IsInner.smul_right {K V : Type} [Field K] [AddCommGroup V] [Module K V]
    {dot : V → V → K} (h : IsInner dot) (a : K) (z x : V) : dot z (a • x) = a * dot z x := by
  rw [h.symm z (a • x), h.smul_left, h.symm x z]

theorem IsInner.zero_right {K V : Type} [Field K] [AddCommGroup V] [Module K V]
    {dot : V → V → K} (h : IsInner dot) (z : V) : dot z 0 = 0 := by
  rw [h.symm, h.zero_left]

theorem IsInner.sub_right {K V : Type} [Field K] [AddCommGroup V] [Module K V]
    {dot : V → V → K} (h : IsInner dot) (z x y : V) : dot z (x - y) = dot z x - dot z y := by
  have h1 : x - y = x + (-1 : K) • y := by simp [sub_eq_add_neg]
  rw [h1, h.add_right, h.smul_right]
  ring

theorem IsInner.sum_right {K V : Type} [Field K] [AddCommGroup V] [Module K V]
    {dot : V → V → K} (h : IsInner dot) (z : V) (f : Int → V) (lo : Int) (n : Nat) :
    dot z (seg f lo n).sum = (seg (fun i => dot z (f i)) lo n).sum := by
  induction n generalizing lo with
  | zero => simp [seg, h.zero_right]
  | succ n ih => simp [seg, h.add_right, ih]

theorem IsInner.sum_left {K V : Type} [Field K] [AddCommGroup V] [Module K V]
    {dot : V → V → K} (h : IsInner dot) (z : V) (f : Int → V) (lo : Int) (n : Nat) :
    dot (seg f lo n).sum z = (seg (fun i => dot (f i) z) lo n).sum := by
  rw [h.symm, h.sum_right]
  congr 1
  apply seg_congr
  intro i _ _
  exact h.symm _ _

theorem seg_sum_delta {K : Type} [AddCommMonoid K] (c : Int → K) (k lo : Int) (n : Nat) :
    (seg (fun i => if i = k then c i else 0) lo n).sum =
      if lo ≤ k ∧ k < lo + n then c k else 0 := by
  induction n generalizing lo with
  | zero =>
    rw [if_neg (by push_cast; omega)]
    rfl
  | succ n ih =>
    simp only [seg, List.sum_cons, ih]
    push_cast
    by_cases h1 : lo = k
    · subst h1
      rw [if_pos rfl, if_neg (by omega), if_pos (by omega), add_zero]
    · rw [if_neg h1, zero_add]
      by_cases h2 : lo + 1 ≤ k ∧ k < lo + 1 + n
      · rw [if_pos h2, if_pos (by omega)]
      · rw [if_neg h2, if_neg (by omega)]

theorem dot3_inner : IsInner euclid3.dot := by
  refine ⟨?_, ?_, ?_⟩
  · intro x y
    simp only [euclid3, dot3]
    ring
  · intro x y z
    simp only [euclid3, dot3, Prod.fst_add, Prod.snd_add]
    ring
  · intro a x z
    simp only [euclid3, dot3, Prod.smul_fst, Prod.smul_snd, smul_eq_mul]
    ring

theorem setEntry_apply {K : Type} (A : Int → Int → K) (a b : Int) (x : K) (i j : Int) :
    setEntry A a b x i j = if i = a ∧ j = b then x else A i j := by
  unfold setEntry
  by_cases h1 : i = a
  · subst h1
    rw [Function.update_same]
    by_cases h2 : j = b
    · subst h2
      rw [Function.update_same, if_pos ⟨rfl, rfl⟩]
    · rw [Function.update_noteq h2, if_neg (fun h => h2 h.2)]
  · rw [Function.update_noteq h1, if_neg (fun h => h1 h.1)]

theorem arrowMatrix_apply {K : Type} [Field K] (alpha beta : Int → K)
    (dim num_locked arrow_pos : Int) (h2 : 2 ≤ arrow_pos) (hd : arrow_pos ≤ dim) (i j : Int) :
    arrowMatrix alpha beta dim num_locked arrow_pos i j =
      if i = j ∧ 0 ≤ i ∧ i < dim then alpha (i + num_locked)
      else if j = arrow_pos - 1 ∧ 0 ≤ i ∧ i < arrow_pos - 1 then beta (i + num_locked)
      else if i = arrow_pos - 1 ∧ 0 ≤ j ∧ j < arrow_pos - 1 then beta (j + num_locked)
      else if j = i + 1 ∧ arrow_pos - 1 ≤ i ∧ i < dim - 1 then beta (i + num_locked)
      else if i = j + 1 ∧ arrow_pos - 1 ≤ j ∧ j < dim - 1 then beta (j + num_locked)
      else 0 := by
  unfold arrowMatrix
  have h1 : forRange 0 dim (fun i A => setEntry A i i (alpha (i + num_locked)))
      (fun _ _ => (0 : K)) =
      fun i j => if i = j ∧ 0 ≤ i ∧ i < dim then alpha (i + num_locked) else 0 := by
    refine forRange_invariant
      (fun k (A : Int → Int → K) =>
        A = fun i j => if i = j ∧ 0 ≤ i ∧ i < k then alpha (i + num_locked) else 0)
      0 dim _ _ (by omega) ?_ ?_
    · funext i j
      rw [if_neg (by omega)]
    · intro k A hk1 hk2 hA
      funext i j
      simp only [setEntry_apply, hA]
      split_ifs <;> first | rfl | (exfalso; omega) | (congr 1; omega)
  rw [h1]
  have h3 : forRange 0 (arrow_pos - 1)
      (fun i A =>
        setEntry (setEntry A i (arrow_pos - 1) (beta (i + num_locked))) (arrow_pos - 1) i
          (beta (i + num_locked)))
      (fun i j => if i = j ∧ 0 ≤ i ∧ i < dim then alpha (i + num_locked) else 0) =
      fun i j =>
        if i = j ∧ 0 ≤ i ∧ i < dim then alpha (i + num_locked)
        else if j = arrow_pos - 1 ∧ 0 ≤ i ∧ i < arrow_pos - 1 then beta (i + num_locked)
        else if i = arrow_pos - 1 ∧ 0 ≤ j ∧ j < arrow_pos - 1 then beta (j + num_locked)
        else 0 := by
    refine forRange_invariant
      (fun k (A : Int → Int → K) =>
        A = fun i j =>
          if i = j ∧ 0 ≤ i ∧ i < dim then alpha (i + num_locked)
          else if j = arrow_pos - 1 ∧ 0 ≤ i ∧ i < k then beta (i + num_locked)
          else if i = arrow_pos - 1 ∧ 0 ≤ j ∧ j < k then beta (j + num_locked)
          else 0)
      0 (arrow_pos - 1) _ _ (by omega) ?_ ?_
    · funext i j
      split_ifs <;> first | rfl | (exfalso; omega)
    · intro k A hk1 hk2 hA
      funext i j
      simp only [setEntry_apply, hA]
      split_ifs <;> first | rfl | (exfalso; omega) | (congr 1; omega)
  rw [h3]
  refine congrFun (congrFun (forRange_invariant
      (fun k (A : Int → Int → K) =>
        A = fun i j =>
          if i = j ∧ 0 ≤ i ∧ i < dim then alpha (i + num_locked)
          else if j = arrow_pos - 1 ∧ 0 ≤ i ∧ i < arrow_pos - 1 then beta (i + num_locked)
          else if i = arrow_pos - 1 ∧ 0 ≤ j ∧ j < arrow_pos - 1 then beta (j + num_locked)
          else if j = i + 1 ∧ arrow_pos - 1 ≤ i ∧ i < k then beta (i + num_locked)
          else if i = j + 1 ∧ arrow_pos - 1 ≤ j ∧ j < k then beta (j + num_locked)
          else 0)
      (arrow_pos - 1) (dim - 1) _ _ (by omega) ?_ ?_) i) j
  · funext i j
    split_ifs <;> first | rfl | (exfalso; omega)
  · intro k A hk1 hk2 hA
    funext i j
    simp only [setEntry_apply, hA]
    split_ifs <;> first | rfl | (exfalso; omega) | (congr 1; omega)

/-- C19: for `2 <= arrow_pos <= dim` and `p = arrow_pos - 1`, the matrix `A` that
`eigensolveFromArrowMat` assembles (`arrowMatrix`) from the arrays `alpha` and `beta` has
`A(i,i) = alpha[i + num_locked]` for `0 <= i < dim`, `A(i,p) = A(p,i) =
beta[i + num_locked]` for `0 <= i < p`, `A(i,i+1) = A(i+1,i) = beta[i + num_locked]`
for `p <= i < dim - 1`, every other entry zero, and is symmetric; for
`arrow_pos = 2` it is the tridiagonal matrix with diagonal `alpha` and
off-diagonal `beta`. -/
theorem arrowMatrix_entries {K : Type} [Field K] (alpha beta : Int → K)
    (dim num_locked arrow_pos p : Int) (A : Int → Int → K)
    (hA : A = arrowMatrix alpha beta dim num_locked arrow_pos) (hp : p = arrow_pos - 1)
    (h2 : 2 ≤ arrow_pos) (hd : arrow_pos ≤ dim) :
    (∀ i, 0 ≤ i → i < dim → A i i = alpha (i + num_locked)) ∧
      (∀ i, 0 ≤ i → i < p → A i p = beta (i + num_locked) ∧ A p i = beta (i + num_locked)) ∧
      (∀ i, p ≤ i → i < dim - 1 →
        A i (i + 1) = beta (i + num_locked) ∧ A (i + 1) i = beta (i + num_locked)) ∧
      (∀ i j, ¬(0 ≤ i ∧ i < dim ∧ 0 ≤ j ∧ j < dim ∧
            (i = j ∨ (j = p ∧ i < p) ∨ (i = p ∧ j < p) ∨ (j = i + 1 ∧ p ≤ i) ∨
              (i = j + 1 ∧ p ≤ j))) →
          A i j = 0) ∧
      (∀ i j, A i j = A j i) ∧
      (arrow_pos = 2 → ∀ i j, A i j =
        if 0 ≤ i ∧ i < dim ∧ 0 ≤ j ∧ j < dim then
          if i = j then alpha (i + num_locked)
          else if j = i + 1 then beta (i + num_locked)
          else if i = j + 1 then beta (j + num_locked)
          else 0
        else 0) := by
  subst hA
  subst hp
  have hA := arrowMatrix_apply alpha beta dim num_locked arrow_pos h2 hd
  refine ⟨?_, ?_, ?_, ?_, ?_, ?_⟩
  · intro i h0 h1
    rw [hA, if_pos ⟨rfl, h0, h1⟩]
  · intro i h0 h1
    constructor
    · rw [hA]
      split_ifs <;> first | rfl | (exfalso; omega)
    · rw [hA]
      split_ifs <;> first | rfl | (exfalso; omega)
  · intro i h0 h1
    constructor
    · rw [hA]
      split_ifs <;> first | rfl | (exfalso; omega)
    · rw [hA]
      split_ifs <;> first | rfl | (exfalso; omega)
  · intro i j h
    rw [hA]
    split_ifs <;> first | rfl | (exfalso; omega)
  · intro i j
    rw [hA, hA]
    split_ifs <;> first | rfl | (exfalso; omega) | (congr 1; omega)
  · intro hap i j
    rw [hA]
    split_ifs <;> first | rfl | (exfalso; omega)

theorem arrowMatrix_entries_witness :
    (2 : Int) ≤ 3 ∧ (3 : Int) ≤ 4 ∧
      (∀ i j, arrowMatrix sampleAlpha sampleBeta 4 1 3 i j =
        arrowMatrix sampleAlpha sampleBeta 4 1 3 j i) ∧
      seg (fun i => seg (arrowMatrix sampleAlpha sampleBeta 4 1 3 i) 0 4) 0 4 =
        [[1, 0, 11, 0], [0, 2, 12, 0], [11, 12, 3, 13], [0, 0, 13, 4]] :=
  ⟨by decide, by decide,
    (arrowMatrix_entries sampleAlpha sampleBeta 4 1 3 2 _ rfl (by decide) (by decide)
      (by decide)).2.2.2.2.1,
    by decide!⟩

theorem forRange_preserves {σ : Type} (P : σ → Prop) (lo hi : Int) (body : Int → σ → σ) (s : σ)
    (h0 : P s) (step : ∀ i s, lo ≤ i → i < hi → P s → P (body i s)) :
    P (forRange lo hi body s) := by
  by_cases h : lo ≤ hi
  · exact forRange_invariant (fun _ => P) lo hi body s h h0 step
  · rw [forRange_of_ge lo hi body s (by omega)]
    exact h0

theorem invertSpectrum_beta_last {K : Type} [Field K] (reverse : Bool) (nKr num_locked : Int)
    (alpha beta : Int → K) :
    (invertSpectrum reverse nKr num_locked alpha beta).2 (nKr - 1) = beta (nKr - 1) := by
  unfold invertSpectrum
  split_ifs
  · refine forRange_preserves (fun (ab : (Int → K) × (Int → K)) => ab.2 (nKr - 1) = beta (nKr - 1))
      num_locked (nKr - 1) _ _ rfl ?_
    intro i ab h1 h2 hab
    have hne : nKr - 1 ≠ i := by omega
    simp only [Function.update_noteq hne, hab]
  · rfl

theorem invertSpectrum_of_not_reverse {K : Type} [Field K] (nKr num_locked : Int)
    (alpha beta : Int → K) : invertSpectrum false nKr num_locked alpha beta = (alpha, beta) := by
  simp [invertSpectrum]

theorem ritz_store_loop {K : Type} (x : Int → Int → K) (dim : Int) (hdim : 0 ≤ dim) (m0 : Int → K)
    (i j : Int) (hi0 : 0 ≤ i) (hi : i < dim) (hj0 : 0 ≤ j) (hj : j < dim) :
    forRange 0 dim
        (fun i m => forRange 0 dim (fun j m => Function.update m (dim * i + j) (x i j)) m) m0
        (dim * i + j) = x i j := by
  have hmain : ∀ i' j', 0 ≤ i' → i' < dim → 0 ≤ j' → j' < dim →
      forRange 0 dim
        (fun i m => forRange 0 dim (fun j m => Function.update m (dim * i + j) (x i j)) m) m0
        (dim * i' + j') = x i' j' := by
    refine forRange_invariant
      (fun k (m : Int → K) => ∀ i' j', 0 ≤ i' → i' < k → 0 ≤ j' → j' < dim →
        m (dim * i' + j') = x i' j') 0 dim _ _ hdim ?_ ?_
    · intro i' j' h1 h2
      omega
    · intro k m hk0 hk hm
      have hin : (∀ i' j', 0 ≤ i' → i' < k → 0 ≤ j' → j' < dim → 
            forRange 0 dim (fun j m => Function.update m (dim * k + j) (x k j)) m
              (dim * i' + j') = x i' j') ∧
          ∀ j', 0 ≤ j' → j' < dim →
            forRange 0 dim (fun j m => Function.update m (dim * k + j) (x k j)) m
              (dim * k + j') = x k j' := by
        refine forRange_invariant
          (fun l (m : Int → K) =>
            (∀ i' j', 0 ≤ i' → i' < k → 0 ≤ j' → j' < dim → m (dim * i' + j') = x i' j') ∧
              ∀ j', 0 ≤ j' → j' < l → m (dim * k + j') = x k j') 0 dim _ _ hdim ?_ ?_
        · exact ⟨hm, fun j' h1 h2 => by omega⟩
        · intro l m' hl0 hl hm'
          constructor
          · intro i' j' h1 h2 h3 h4
            have hmul : dim * (i' + 1) ≤ dim * k := mul_le_mul_of_nonneg_left (by omega) hdim
            have hexp : dim * (i' + 1) = dim * i' + dim := by ring
            have hne : dim * i' + j' ≠ dim * k + l := by omega
            rw [Function.update_noteq hne]
            exact hm'.1 i' j' h1 h2 h3 h4
          · intro j' h1 h2
            by_cases hjl : j' = l
            · subst hjl
              rw [Function.update_same]
            · have hne : dim * k + j' ≠ dim * k + l := by omega
              rw [Function.update_noteq hne]
              exact hm'.2 j' h1 (by omega)
      intro i' j' h1 h2 h3 h4
      by_cases hik : i' = k
      · subst hik
        exact hin.2 j' h3 h4
      · exact hin.1 i' j' h1 (by omega) h3 h4
  exact hmain i j hi0 hi hj0 hj

theorem eigen_store_loop {K : Type} (f g : Int → K) (dim num_locked : Int) (hdim : 0 ≤ dim)
    (r0 a0 : Int → K) (i : Int) (hi0 : 0 ≤ i) (hi : i < dim) :
    (forRange 0 dim
        (fun i (ra : (Int → K) × (Int → K)) =>
          (Function.update ra.1 (i + num_locked) (f i), Function.update ra.2 (i + num_locked) (g i)))
        (r0, a0)).1 (i + num_locked) = f i ∧
      (forRange 0 dim
        (fun i (ra : (Int → K) × (Int → K)) =>
          (Function.update ra.1 (i + num_locked) (f i), Function.update ra.2 (i + num_locked) (g i)))
        (r0, a0)).2 (i + num_locked) = g i := by
  have hmain : ∀ i', 0 ≤ i' → i' < dim →
      (forRange 0 dim
        (fun i (ra : (Int → K) × (Int → K)) =>
          (Function.update ra.1 (i + num_locked) (f i), Function.update ra.2 (i + num_locked) (g i)))
        (r0, a0)).1 (i' + num_locked) = f i' ∧
      (forRange 0 dim
        (fun i (ra : (Int → K) × (Int → K)) =>
          (Function.update ra.1 (i + num_locked) (f i), Function.update ra.2 (i + num_locked) (g i)))
        (r0, a0)).2 (i' + num_locked) = g i' := by
    refine forRange_invariant
      (fun k (ra : (Int → K) × (Int → K)) => ∀ i', 0 ≤ i' → i' < k →
        ra.1 (i' + num_locked) = f i' ∧ ra.2 (i' + num_locked) = g i') 0 dim _ _ hdim ?_ ?_
    · intro i' h1 h2
      omega
    · intro k ra hk0 hk hra i' h1 h2
      by_cases hik : i' = k
      · subst hik
        simp only [Function.update_same, and_self]
      · have hne : i' + num_locked ≠ k + num_locked := by omega
        simp only [Function.update_noteq hne]
        exact hra i' h1 (by omega)
  exact hmain i hi0 hi

theorem negate_range {K : Type} [Field K] (a : Int → K) (lo hi : Int) (hle : lo ≤ hi) :
    forRange lo hi (fun i a => Function.update a i (a i * -1)) a =
      fun i => if lo ≤ i ∧ i < hi then -a i else a i := by
  refine forRange_invariant
    (fun k (b : Int → K) => b = fun i => if lo ≤ i ∧ i < k then -a i else a i) lo hi _ _ hle ?_ ?_
  · funext i
    rw [if_neg (by omega)]
  · intro k b h1 h2 hb
    funext i
    simp only [hb, Function.update_apply]
    split_ifs <;> first | rfl | (exfalso; omega) | (subst_vars; simp)

theorem eigensolveFromArrowMat_store {K : Type} [LinearOrderedField K]
    (eigensolver : Int → (Int → Int → K) → EigenSolution K) (reverse : Bool) (nKr : Int)
    (st : ArrowState K) (num_locked arrow_pos i : Int) (hi0 : 0 ≤ i)
    (hi : i < nKr - num_locked) :
    let dim := nKr - num_locked
    let sol := eigensolver dim
      (arrowMatrix (invertSpectrum reverse nKr num_locked st.alpha st.beta).1
        (invertSpectrum reverse nKr num_locked st.alpha st.beta).2 dim num_locked arrow_pos)
    let out := eigensolveFromArrowMat eigensolver reverse nKr st num_locked arrow_pos
    (∀ j, 0 ≤ j → j < dim → out.ritz_mat (dim * i + j) = sol.eigenvectors i j) ∧
      out.residua (i + num_locked) = |st.beta (nKr - 1) * sol.eigenvectors i (dim - 1)| ∧
      0 ≤ out.residua (i + num_locked) ∧
      (reverse = false → out.alpha (i + num_locked) = sol.eigenvalues i) ∧
      (reverse = true → out.alpha (i + num_locked) = -sol.eigenvalues i) := by
  intro dim sol out
  have hdim : 0 ≤ dim := by
    show 0 ≤ nKr - num_locked
    omega
  have hst := eigen_store_loop
    (fun i => |(invertSpectrum reverse nKr num_locked st.alpha st.beta).2 (nKr - 1) *
      sol.eigenvectors i (dim - 1)|)
    sol.eigenvalues dim num_locked hdim st.residua
    (invertSpectrum reverse nKr num_locked st.alpha st.beta).1 i hi0 hi
  have hres : out.residua (i + num_locked) =
      |st.beta (nKr - 1) * sol.eigenvectors i (dim - 1)| := by
    refine hst.1.trans ?_
    simp only [invertSpectrum_beta_last]
  refine ⟨?_, hres, ?_, ?_, ?_⟩
  · intro j hj0 hj
    exact ritz_store_loop sol.eigenvectors dim hdim _ i j hi0 hi hj0 hj
  · rw [hres]
    exact abs_nonneg _
  · intro hrev
    subst hrev
    exact hst.2
  · intro hrev
    subst hrev
    show forRange num_locked nKr (fun i a => Function.update a i (a i * -1)) _ (i + num_locked) = _
    rw [negate_range _ _ _ (by omega)]
    simp only
    rw [if_pos (by constructor <;> omega)]
    exact congrArg Neg.neg hst.2

theorem seg_shift {α : Type} (f : Int → α) (lo : Int) (n : Nat) :
    seg f (lo + 1) n = seg (fun m => f (m + 1)) lo n := by
  induction n generalizing lo with
  | zero => rfl
  | succ n ih => simp only [seg, ih]

theorem rotateRitz_kSpace {K V : Type} [Field K] [AddCommGroup V] [Module K V]
    (nKr num_locked iter_keep : Int) (ritz_mat : Int → K) (kSpace : Int → V) (r : V)
    (hik0 : 0 ≤ iter_keep) (hik : iter_keep ≤ nKr - num_locked) :
    (rotateRitz nKr num_locked iter_keep ritz_mat kSpace r).1 = fun idx =>
      if nKr + 1 ≤ idx ∧ idx < nKr + 1 + iter_keep then
        ritzVector ritz_mat kSpace num_locked (nKr - num_locked) (idx - (nKr + 1))
      else kSpace idx := by
  unfold rotateRitz
  refine forRange_invariant
    (fun k (vr : (Int → V) × V) => vr.1 = fun idx =>
      if nKr + 1 ≤ idx ∧ idx < nKr + 1 + k then
        ritzVector ritz_mat kSpace num_locked (nKr - num_locked) (idx - (nKr + 1))
      else kSpace idx) 0 iter_keep _ _ hik0 ?_ ?_
  · funext idx
    rw [if_neg (by omega)]
  · intro k vr hk0 hk hvr
    have hnew : blas.blockAxpy (fun m => ritz_mat (k * (nKr - num_locked) + (m + 1)))
          (fun m => Function.update vr.1 (nKr + 1 + k)
            (blas.ax (ritz_mat ((nKr - num_locked) * k)) (vr.1 num_locked)) (num_locked + (m + 1)))
          (nKr - num_locked - 1)
          (blas.ax (ritz_mat ((nKr - num_locked) * k)) (vr.1 num_locked)) =
        ritzVector ritz_mat kSpace num_locked (nKr - num_locked) k := by
      rw [blockAxpy_eq]
      unfold ritzVector blas.ax
      have hn : (nKr - num_locked).toNat = (nKr - num_locked - 1).toNat + 1 := by omega
      rw [hn, seg, List.sum_cons, seg_shift]
      congr 1
      · simp only [hvr]
        rw [if_neg (by omega)]
        simp
      · congr 1
        apply seg_congr
        intro m hm0 hm
        have hne : num_locked + (m + 1) ≠ nKr + 1 + k := by omega
        rw [Function.update_noteq hne, hvr]
        simp only
        rw [if_neg (by omega)]
        congr 2
        ring
    simp only [Function.update_idem, Function.update_same, hnew]
    funext idx
    simp only [Function.update_apply, hvr]
    split_ifs <;> first | rfl | (exfalso; omega) | (congr 1; omega)

theorem copy_loop {V : Type} (vin : Int → V) (num_locked iter_keep offset : Int)
    (hik0 : 0 ≤ iter_keep) (hoff : num_locked + iter_keep ≤ offset) :
    forRange 0 iter_keep (fun i v => Function.update v (i + num_locked) (v (offset + i))) vin =
      fun idx =>
        if num_locked ≤ idx ∧ idx < num_locked + iter_keep then vin (offset + (idx - num_locked))
        else vin idx := by
  refine forRange_invariant
    (fun k (v : Int → V) => v = fun idx =>
      if num_locked ≤ idx ∧ idx < num_locked + k then vin (offset + (idx - num_locked))
      else vin idx) 0 iter_keep _ _ hik0 ?_ ?_
  · funext idx
    rw [if_neg (by omega)]
  · intro k v hk0 hk hv
    funext idx
    simp only [hv, Function.update_apply]
    split_ifs <;> first | rfl | (exfalso; omega) | (congr 1; omega)

theorem computeKeptRitz_kSpace {K V : Type} [Field K] [AddCommGroup V] [Module K V]
    (nKr num_locked iter_keep : Int) (kr : Krylov K V) (hik0 : 0 ≤ iter_keep)
    (hik : iter_keep ≤ nKr - num_locked) (idx : Int) (hidx : idx ≤ num_locked + iter_keep) :
    (computeKeptRitz nKr num_locked iter_keep kr).kSpace idx =
      if idx = num_locked + iter_keep then kr.kSpace nKr
      else if num_locked ≤ idx then
        ritzVector kr.ritz_mat kr.kSpace num_locked (nKr - num_locked) (idx - num_locked)
      else kr.kSpace idx := by
  unfold computeKeptRitz
  simp only
  rw [copy_loop _ _ _ _ hik0 (by omega), rotateRitz_kSpace _ _ _ _ _ _ hik0 hik]
  simp only [Function.update_apply]
  split_ifs <;> first | rfl | (exfalso; omega) | (congr 1; omega)

theorem dot_basis_ritzVector {K V : Type} [Field K] [AddCommGroup V] [Module K V]
    (e : Externals K V) (hdot : IsInner e.dot) (nKr num_locked : Int) (ritz_mat : Int → K)
    (kSpace : Int → V) (hnl : 0 ≤ num_locked) (hdim : 0 ≤ nKr - num_locked)
    (horth : ∀ a b, 0 ≤ a → a ≤ nKr → 0 ≤ b → b ≤ nKr →
      e.dot (kSpace a) (kSpace b) = if a = b then 1 else 0)
    (c i : Int) (hc0 : 0 ≤ c) (hc : c ≤ nKr) :
    e.dot (kSpace c) (ritzVector ritz_mat kSpace num_locked (nKr - num_locked) i) =
      if num_locked ≤ c ∧ c < nKr then ritz_mat ((nKr - num_locked) * i + (c - num_locked))
      else 0 := by
  unfold ritzVector
  rw [hdot.sum_right]
  have hseg : seg (fun j => e.dot (kSpace c)
        (ritz_mat ((nKr - num_locked) * i + j) • kSpace (num_locked + j))) 0
        (nKr - num_locked).toNat =
      seg (fun j => if j = c - num_locked then ritz_mat ((nKr - num_locked) * i + j) else 0) 0
        (nKr - num_locked).toNat := by
    apply seg_congr
    intro j hj0 hj
    rw [hdot.smul_right, horth c (num_locked + j) hc0 hc (by omega) (by omega)]
    by_cases h : j = c - num_locked
    · rw [if_pos h, if_pos (by omega), mul_one]
    · rw [if_neg h, if_neg (by omega), mul_zero]
  rw [hseg, seg_sum_delta]
  split_ifs <;> first | rfl | (exfalso; omega)

theorem dot_ritzVector_ritzVector {K V : Type} [Field K] [AddCommGroup V] [Module K V]
    (e : Externals K V) (hdot : IsInner e.dot) (nKr num_locked : Int) (ritz_mat : Int → K)
    (kSpace : Int → V) (hnl : 0 ≤ num_locked) (hdim : 0 ≤ nKr - num_locked)
    (horth : ∀ a b, 0 ≤ a → a ≤ nKr → 0 ≤ b → b ≤ nKr →
      e.dot (kSpace a) (kSpace b) = if a = b then 1 else 0)
    (i i' : Int) :
    e.dot (ritzVector ritz_mat kSpace num_locked (nKr - num_locked) i)
        (ritzVector ritz_mat kSpace num_locked (nKr - num_locked) i') =
      (seg (fun j => ritz_mat ((nKr - num_locked) * i + j) *
        ritz_mat ((nKr - num_locked) * i' + j)) 0 (nKr - num_locked).toNat).sum := by
  conv_lhs => rw [ritzVector]
  rw [hdot.sum_left]
  congr 1
  apply seg_congr
  intro j hj0 hj
  rw [hdot.smul_left,
    dot_basis_ritzVector e hdot nKr num_locked ritz_mat kSpace hnl hdim horth (num_locked + j) i'
      (by omega) (by omega),
    if_pos (by omega)]
  congr 3
  omega

/-- C14: in a real inner-product space with exact arithmetic, if
`0 <= num_locked`, `0 <= iter_keep <= dim = nKr - num_locked`, the vectors
`kSpace[0 .. nKr]` are orthonormal and the `dim` eigenvectors stored in
`ritz_mat` (eigenvector `i` at `ritz_mat[dim * i + j]`) are orthonormal, then after
`computeKeptRitz` the vectors `kSpace[0 .. num_locked + iter_keep]`, that is the
locked vectors, the recombined Ritz vectors and the carried-forward residual
vector at index `num_locked + iter_keep`, are orthonormal. -/
theorem computeKeptRitz_orthonormal {K V : Type} [Field K] [AddCommGroup V] [Module K V]
    (e : Externals K V) (hdot : IsInner e.dot) (nKr num_locked iter_keep : Int)
    (kr : Krylov K V) (hnl : 0 ≤ num_locked) (hik0 : 0 ≤ iter_keep)
    (hik : iter_keep ≤ nKr - num_locked)
    (horth : ∀ a b, 0 ≤ a → a ≤ nKr → 0 ≤ b → b ≤ nKr →
      e.dot (kr.kSpace a) (kr.kSpace b) = if a = b then 1 else 0)
    (hritz : ∀ i i', 0 ≤ i → i < nKr - num_locked → 0 ≤ i' → i' < nKr - num_locked →
      (seg (fun j => kr.ritz_mat ((nKr - num_locked) * i + j) *
        kr.ritz_mat ((nKr - num_locked) * i' + j)) 0 (nKr - num_locked).toNat).sum =
        if i = i' then 1 else 0) :
    ∀ a b, 0 ≤ a → a ≤ num_locked + iter_keep → 0 ≤ b → b ≤ num_locked + iter_keep →
      e.dot ((computeKeptRitz nKr num_locked iter_keep kr).kSpace a)
        ((computeKeptRitz nKr num_locked iter_keep kr).kSpace b) = if a = b then 1 else 0 := by
  have hdim : 0 ≤ nKr - num_locked := by omega
  have hvy := dot_basis_ritzVector e hdot nKr num_locked kr.ritz_mat kr.kSpace hnl hdim horth
  have hyy := dot_ritzVector_ritzVector e hdot nKr num_locked kr.ritz_mat kr.kSpace hnl hdim horth
  intro a b ha0 ha hb0 hb
  rw [computeKeptRitz_kSpace nKr num_locked iter_keep kr hik0 hik a ha,
    computeKeptRitz_kSpace nKr num_locked iter_keep kr hik0 hik b hb]
  by_cases ha1 : a = num_locked + iter_keep
  · rw [if_pos ha1]
    by_cases hb1 : b = num_locked + iter_keep
    · have hab : a = b := by omega
      rw [if_pos hb1, if_pos hab]
      exact (horth nKr nKr (by omega) le_rfl (by omega) le_rfl).trans (if_pos rfl)
    · have hab : a ≠ b := by omega
      rw [if_neg hb1, if_neg hab]
      by_cases hb2 : num_locked ≤ b
      · rw [if_pos hb2]
        exact (hvy nKr _ (by omega) le_rfl).trans (if_neg (by omega))
      · rw [if_neg hb2]
        exact (horth nKr b (by omega) le_rfl hb0 (by omega)).trans (if_neg (by omega))
  · rw [if_neg ha1]
    by_cases ha2 : num_locked ≤ a
    · rw [if_pos ha2]
      by_cases hb1 : b = num_locked + iter_keep
      · have hab : a ≠ b := by omega
        rw [if_pos hb1, if_neg hab, hdot.symm]
        exact (hvy nKr _ (by omega) le_rfl).trans (if_neg (by omega))
      · rw [if_neg hb1]
        by_cases hb2 : num_locked ≤ b
        · rw [if_pos hb2, hyy, hritz (a - num_locked) (b - num_locked) (by omega) (by omega)
            (by omega) (by omega)]
          by_cases hab : a = b
          · rw [if_pos hab]
            exact if_pos (by omega)
          · rw [if_neg hab]
            exact if_neg (by omega)
        · have hab : a ≠ b := by omega
          rw [if_neg hb2, if_neg hab, hdot.symm]
          exact (hvy b _ hb0 (by omega)).trans (if_neg (by omega))
    · rw [if_neg ha2]
      by_cases hb1 : b = num_locked + iter_keep
      · have hab : a ≠ b := by omega
        rw [if_pos hb1, if_neg hab]
        exact (horth a nKr ha0 (by omega) (by omega) le_rfl).trans (if_neg (by omega))
      · rw [if_neg hb1]
        by_cases hb2 : num_locked ≤ b
        · have hab : a ≠ b := by omega
          rw [if_pos hb2, if_neg hab]
          exact (hvy a _ ha0 (by omega)).trans (if_neg (by omega))
        · rw [if_neg hb2]
          exact horth a b ha0 (by omega) hb0 (by omega)

theorem computeKeptRitz_orthonormal_witness :
    (0 : Int) ≤ 0 ∧ (0 : Int) ≤ 2 ∧ (2 : Int) ≤ 2 - 0 ∧
      (∀ a b, 0 ≤ a → a ≤ 0 + 2 → 0 ≤ b → b ≤ 0 + 2 →
        euclid3.dot ((computeKeptRitz 2 0 2 rotationKrylov).kSpace a)
          ((computeKeptRitz 2 0 2 rotationKrylov).kSpace b) = if a = b then 1 else 0) ∧
      seg (computeKeptRitz 2 0 2 rotationKrylov).kSpace 0 3 =
        [(3 / 5, 4 / 5, 0), (-4 / 5, 3 / 5, 0), (0, 0, 1)] :=
  ⟨by decide, by decide, by decide,
    computeKeptRitz_orthonormal euclid3 dot3_inner 2 0 2 rotationKrylov (by decide) (by decide)
      (by decide)
      (by
        intro a b h1 h2 h3 h4
        interval_cases a <;> interval_cases b <;> decide!)
      (by
        intro i i' h1 h2 h3 h4
        interval_cases i <;> interval_cases i' <;> decide!),
    by decide!⟩



/-! ## Index safety of `reorder` -/

/-- C27 (code defect): `reorder` accesses `kSpace[-1]`. With `nKr = 2`,
`reverse` unset and `alpha = [2, 1]`, the iteration at `i = 1` takes the `else`
branch, `alpha[--i] = tmp` makes `i = 0`, and `std::swap(kSpace[i], kSpace[i - 1])`
exchanges `kSpace[0]` with `kSpace[-1]`: after the call the vector labelled `0`
is at index `-1`, the vector that was at index `-1` is at index `0`, and
`kSpace[1]` has not moved although `alpha` is now `[1, 2]`. -/
theorem reorder_swaps_below_index_zero :
    seg descendingPair 0 2 = [2, 1] ∧ seg labelledBasis (-1) 3 = [-1, 0, 1] ∧
      (reorderBody (fun x y : ℚ => decide (x ≤ y)) ⟨1, descendingPair, labelledBasis⟩).i = 0 ∧
      seg (reorderBody (fun x y : ℚ => decide (x ≤ y)) ⟨1, descendingPair, labelledBasis⟩).kSpace
        (-1) 3 = [0, -1, 1] ∧
      (reorder false 2 descendingPair labelledBasis).map (fun s => seg s.alpha 0 2) =
        some [1, 2] ∧
      (reorder false 2 descendingPair labelledBasis).map (fun s => seg s.kSpace (-1) 3) =
        some [0, -1, 1] := by
  decide!

/-! ## The running maximum `mat_norm` -/

theorem updateMatNorm_ge_init {K : Type} [LinearOrderedField K] (alpha : Int → K) (nKr : Int)
    (fuel : Nat) (i : Int) (m : K) : m ≤ updateMatNorm alpha nKr fuel i m := by
  induction fuel generalizing i m with
  | zero => exact le_rfl
  | succ n ih =>
    unfold updateMatNorm
    split_ifs with h1 h2
    · exact le_trans (le_of_lt h2) (ih _ _)
    · exact ih _ _
    · exact le_rfl

theorem updateMatNorm_ge_entry {K : Type} [LinearOrderedField K] (alpha : Int → K) (nKr : Int)
    (fuel : Nat) (i : Int) (m : K) (hf : (nKr - i).toNat ≤ fuel) (j : Int) (hij : i ≤ j)
    (hj : j < nKr) : |alpha j| ≤ updateMatNorm alpha nKr fuel i m := by
  induction fuel generalizing i m with
  | zero => omega
  | succ n ih =>
    unfold updateMatNorm
    rw [if_pos (by omega)]
    by_cases hji : j = i
    · subst hji
      refine le_trans ?_ (updateMatNorm_ge_init alpha nKr n _ _)
      split_ifs with h2
      · exact le_rfl
      · exact not_lt.mp h2
    · exact ih (i + 1) _ (by omega) (by omega)

theorem updateMatNorm_attained {K : Type} [LinearOrderedField K] (alpha : Int → K) (nKr : Int)
    (fuel : Nat) (i : Int) (m : K) :
    updateMatNorm alpha nKr fuel i m = m ∨
      ∃ j, i ≤ j ∧ j < nKr ∧ updateMatNorm alpha nKr fuel i m = |alpha j| := by
  induction fuel generalizing i m with
  | zero => exact Or.inl rfl
  | succ n ih =>
    unfold updateMatNorm
    split_ifs with h1 h2
    · rcases ih (i + 1) |alpha i| with h | ⟨j, hj1, hj2, hj3⟩
      · exact Or.inr ⟨i, le_rfl, h1, h⟩
      · exact Or.inr ⟨j, by omega, hj2, hj3⟩
    · rcases ih (i + 1) m with h | ⟨j, hj1, hj2, hj3⟩
      · exact Or.inl h
      · exact Or.inr ⟨j, by omega, hj2, hj3⟩
    · exact Or.inl rfl

/-- C22 (counterexample): in the second sweep `mat_norm` is not the maximum over
the active range. With `nEv = 8`, `nKr = 16`, two restarts, an eigen-step that
returns Ritz values all equal to `5` in the first sweep and all equal to `1` in
the second, and nothing locked, the values `|alpha[i]|` on `[0, 16)` are `{5}`,
then `{1}`, while `mat_norm` is `5` after both sweeps. -/
theorem mat_norm_exceeds_active_maximum :
    ∃ s1 : Session ℚ Int,
      (freshSession twoRestartParam).prepare shrinkingRitzKernels .QUDA_DOUBLE_PRECISION =
        .ok s1 ∧
      (restartLoop shrinkingRitzKernels 2 s1).map
        (fun run => (run.sweeps.map (fun t =>
          (t.ctl.num_locked, ((seg t.arr.alpha 0 16).map (fun a => |a|)).dedup, t.ctl.mat_norm)),
          run.aborted)) =
        some ([(0, [5], 5), (0, [1], 5)], none) :=
  ⟨_, rfl, by decide!⟩

/-- C22, as the code has it: `mat_norm` is a running maximum. After the update of
lines 605-606 in a sweep it is at least its previous value and at least
`|alpha[i]|` for every `num_locked <= i < nKr`, and it is equal to its previous
value or to one of these `|alpha[i]|`; when the previous value is `0` (the first
sweep) and the active range is not empty it is the maximum of `|alpha[i]|` over
the active range. -/
theorem mat_norm_running_maximum {K : Type} [LinearOrderedField K] (c : Control K)
    (alpha residua : Int → K) :
    c.mat_norm ≤ (c.classify alpha residua).mat_norm ∧
      (∀ i, c.num_locked ≤ i → i < c.nKr → |alpha i| ≤ (c.classify alpha residua).mat_norm) ∧
      ((c.classify alpha residua).mat_norm = c.mat_norm ∨
        ∃ i, c.num_locked ≤ i ∧ i < c.nKr ∧ (c.classify alpha residua).mat_norm = |alpha i|) ∧
      (c.mat_norm = 0 → c.num_locked < c.nKr →
        ∃ i, c.num_locked ≤ i ∧ i < c.nKr ∧ (c.classify alpha residua).mat_norm = |alpha i|) := by
  have hm : (c.classify alpha residua).mat_norm =
      updateMatNorm alpha c.nKr (c.nKr - c.num_locked).toNat c.num_locked c.mat_norm := rfl
  rw [hm]
  have hge := updateMatNorm_ge_entry alpha c.nKr (c.nKr - c.num_locked).toNat c.num_locked
    c.mat_norm le_rfl
  refine ⟨updateMatNorm_ge_init _ _ _ _ _, hge, updateMatNorm_attained _ _ _ _ _, ?_⟩
  intro h0 hne
  rcases updateMatNorm_attained alpha c.nKr (c.nKr - c.num_locked).toNat c.num_locked
    c.mat_norm with h | h
  · refine ⟨c.num_locked, le_rfl, hne, ?_⟩
    have h1 := hge c.num_locked le_rfl hne
    rw [h, h0] at h1
    rw [h, h0]
    exact le_antisymm (abs_nonneg _) h1
  · exact h

/-! ## The classification scans -/

theorem residuaScan_spec {K : Type} [LinearOrderedField K] (residua : Int → K)
    (nKr num_locked : Int) (threshold : K) (fuel : Nat) (i : Int)
    (hf : (nKr - num_locked - i).toNat ≤ fuel) :
    i - 1 ≤ residuaScan residua nKr num_locked threshold fuel i (i - 1) ∧
      (residuaScan residua nKr num_locked threshold fuel i (i - 1) ≤ nKr - num_locked - 1 ∨
        residuaScan residua nKr num_locked threshold fuel i (i - 1) = i - 1) ∧
      (∀ k, i ≤ k → k ≤ residuaScan residua nKr num_locked threshold fuel i (i - 1) →
        residua (k + num_locked) < threshold) ∧
      (residuaScan residua nKr num_locked threshold fuel i (i - 1) + 1 < nKr - num_locked →
        ¬ residua (residuaScan residua nKr num_locked threshold fuel i (i - 1) + 1 + num_locked) <
          threshold) := by
  induction fuel generalizing i with
  | zero =>
    have h0 : residuaScan residua nKr num_locked threshold 0 i (i - 1) = i - 1 := rfl
    rw [h0]
    exact ⟨le_rfl, Or.inr rfl, fun k h1 h2 => by omega, fun h => by omega⟩
  | succ n ih =>
    unfold residuaScan
    by_cases h1 : i < nKr - num_locked
    · rw [if_pos h1]
      by_cases h2 : residua (i + num_locked) < threshold
      · rw [if_pos h2]
        have hi : i = i + 1 - 1 := by omega
        have := ih (i + 1) (by omega)
        rw [← hi] at this
        obtain ⟨a1, a2, a3, a4⟩ := this
        refine ⟨by omega, ?_, ?_, a4⟩
        · rcases a2 with a2 | a2
          · exact Or.inl a2
          · exact Or.inl (by omega)
        · intro k hk1 hk2
          by_cases hki : k = i
          · subst hki
            exact h2
          · exact a3 k (by omega) hk2
      · rw [if_neg h2]
        refine ⟨le_rfl, Or.inr rfl, fun k hk1 hk2 => by omega, fun _ => ?_⟩
        have hi : i - 1 + 1 = i := by omega
        rw [hi]
        exact h2
    · rw [if_neg h1]
      exact ⟨le_rfl, Or.inr rfl, fun k hk1 hk2 => by omega, fun h => by omega⟩

theorem residuaScan_congr {K : Type} [LinearOrderedField K] (residua residua' : Int → K)
    (nKr num_locked : Int) (threshold : K) (fuel : Nat) (i found : Int)
    (h : ∀ k, i ≤ k → residua (k + num_locked) = residua' (k + num_locked)) :
    residuaScan residua nKr num_locked threshold fuel i found =
      residuaScan residua' nKr num_locked threshold fuel i found := by
  induction fuel generalizing i found with
  | zero => rfl
  | succ n ih =>
    unfold residuaScan
    rw [h i le_rfl, ih (i + 1) i (fun k hk => h k (by omega))]

/-- C25: for `num_locked < nKr`, `dim = nKr - num_locked` and `t` the control data
after the classification of lines 604-635: `iter_locked` is the largest `m` in
`[0, dim - 1]` with `residua[num_locked + k] < epsilon * mat_norm` for all
`1 <= k <= m`; `iter_converged` is the largest `m` in `[iter_locked, dim - 1]`
with `residua[num_locked + k] < tol * mat_norm` for all `iter_locked < k <= m`;
neither depends on `residua[num_locked]`; and after the counter update
`num_locked <= num_converged <= nKr - 1`. -/
theorem classification_scans_exact {K : Type} [LinearOrderedField K] (c t : Control K)
    (alpha residua : Int → K) (dim : Int) (ht : t = c.classify alpha residua)
    (hdim : dim = c.nKr - c.num_locked) (hpos : c.num_locked < c.nKr) :
    (0 ≤ t.iter_locked ∧ t.iter_locked ≤ dim - 1 ∧
        (∀ k, 1 ≤ k → k ≤ t.iter_locked →
          residua (c.num_locked + k) < c.epsilon * t.mat_norm) ∧
        ∀ m, 0 ≤ m → m ≤ dim - 1 →
          (∀ k, 1 ≤ k → k ≤ m → residua (c.num_locked + k) < c.epsilon * t.mat_norm) →
          m ≤ t.iter_locked) ∧
      (t.iter_locked ≤ t.iter_converged ∧ t.iter_converged ≤ dim - 1 ∧
        (∀ k, t.iter_locked < k → k ≤ t.iter_converged →
          residua (c.num_locked + k) < c.tol * t.mat_norm) ∧
        ∀ m, t.iter_locked ≤ m → m ≤ dim - 1 →
          (∀ k, t.iter_locked < k → k ≤ m → residua (c.num_locked + k) < c.tol * t.mat_norm) →
          m ≤ t.iter_converged) ∧
      (∀ x, (c.classify alpha (Function.update residua c.num_locked x)).iter_locked =
          t.iter_locked ∧
        (c.classify alpha (Function.update residua c.num_locked x)).iter_converged =
          t.iter_converged) ∧
      t.updateCounters.num_locked ≤ t.updateCounters.num_converged ∧
      t.updateCounters.num_converged ≤ c.nKr - 1 := by
  subst ht
  subst hdim
  have hmn : (c.classify alpha residua).mat_norm =
      updateMatNorm alpha c.nKr (c.nKr - c.num_locked).toNat c.num_locked c.mat_norm := rfl
  have hil : (c.classify alpha residua).iter_locked =
      residuaScan residua c.nKr c.num_locked (c.epsilon * (c.classify alpha residua).mat_norm)
        (c.nKr - c.num_locked - 1).toNat 1 (1 - 1) := rfl
  have hic : (c.classify alpha residua).iter_converged =
      residuaScan residua c.nKr c.num_locked (c.tol * (c.classify alpha residua).mat_norm)
        (c.nKr - c.num_locked - ((c.classify alpha residua).iter_locked + 1)).toNat
        ((c.classify alpha residua).iter_locked + 1)
        ((c.classify alpha residua).iter_locked + 1 - 1) := by
    have h1 : (c.classify alpha residua).iter_locked + 1 - 1 =
        (c.classify alpha residua).iter_locked := by omega
    rw [h1]
    rfl
  obtain ⟨a1, a2, a3, a4⟩ := residuaScan_spec residua c.nKr c.num_locked
    (c.epsilon * (c.classify alpha residua).mat_norm) (c.nKr - c.num_locked - 1).toNat 1 le_rfl
  rw [← hil] at a1 a2 a3 a4
  obtain ⟨b1, b2, b3, b4⟩ := residuaScan_spec residua c.nKr c.num_locked
    (c.tol * (c.classify alpha residua).mat_norm)
    (c.nKr - c.num_locked - ((c.classify alpha residua).iter_locked + 1)).toNat
    ((c.classify alpha residua).iter_locked + 1) le_rfl
  rw [← hic] at b1 b2 b3 b4
  have hl1 : (c.classify alpha residua).iter_locked ≤ c.nKr - c.num_locked - 1 := by omega
  have hc1 : (c.classify alpha residua).iter_converged ≤ c.nKr - c.num_locked - 1 := by omega
  refine ⟨⟨by omega, hl1, ?_, ?_⟩, ⟨by omega, hc1, ?_, ?_⟩, ?_, ?_, ?_⟩
  · intro k hk1 hk2
    rw [add_comm]
    exact a3 k hk1 hk2
  · intro m hm0 hm1 hall
    by_contra hlt
    have hnext := hall ((c.classify alpha residua).iter_locked + 1) (by omega) (by omega)
    rw [add_comm] at hnext
    exact a4 (by omega) hnext
  · intro k hk1 hk2
    rw [add_comm]
    exact b3 k (by omega) hk2
  · intro m hm0 hm1 hall
    by_contra hlt
    have hnext := hall ((c.classify alpha residua).iter_converged + 1) (by omega) (by omega)
    rw [add_comm] at hnext
    exact b4 (by omega) hnext
  · intro x
    have hmn' : (c.classify alpha (Function.update residua c.num_locked x)).mat_norm =
        (c.classify alpha residua).mat_norm := rfl
    have hil' : (c.classify alpha (Function.update residua c.num_locked x)).iter_locked =
        (c.classify alpha residua).iter_locked := by
      show residuaScan _ _ _ _ _ _ _ = residuaScan _ _ _ _ _ _ _
      apply residuaScan_congr
      intro k hk
      exact Function.update_noteq (by omega) _ _
    refine ⟨hil', ?_⟩
    show residuaScan _ _ _ _ _ _ _ = residuaScan _ _ _ _ _ _ _
    have h2 : lockingCheck (Function.update residua c.num_locked x) c.nKr c.num_locked c.epsilon
        (updateMatNorm alpha c.nKr (c.nKr - c.num_locked).toNat c.num_locked c.mat_norm) =
        lockingCheck residua c.nKr c.num_locked c.epsilon
        (updateMatNorm alpha c.nKr (c.nKr - c.num_locked).toNat c.num_locked c.mat_norm) := hil'
    rw [h2]
    apply residuaScan_congr
    intro k hk
    have := lockingCheck_nonneg residua c.nKr c.num_locked c.epsilon
      (updateMatNorm alpha c.nKr (c.nKr - c.num_locked).toNat c.num_locked c.mat_norm)
    exact Function.update_noteq (by omega) _ _
  · show c.num_locked + (c.classify alpha residua).iter_locked ≤
      c.num_locked + (c.classify alpha residua).iter_converged
    omega
  · show c.num_locked + (c.classify alpha residua).iter_converged ≤ c.nKr - 1
    omega

theorem classification_scans_exact_witness :
    sampleControl.num_locked < sampleControl.nKr ∧
      (sampleControl.classify (fun _ => 1) lateFirstResidua).iter_locked = 1 ∧
      (sampleControl.classify (fun _ => 1) lateFirstResidua).iter_converged = 1 ∧
      (sampleControl.classify (fun _ => 1) lateFirstResidua).updateCounters.num_locked ≤
        (sampleControl.classify (fun _ => 1) lateFirstResidua).updateCounters.num_converged :=
  ⟨by decide, by decide!, by decide!,
    (classification_scans_exact sampleControl _ (fun _ => 1) lateFirstResidua
      (sampleControl.nKr - sampleControl.num_locked) rfl rfl (by decide)).2.2.2.1⟩

/-! ## Locked pairs and the start of the next extension -/

/-- C24 (code defect): a sweep that does not end the solve can leave
`num_keep < num_locked`, and the next sweep then rewrites locked basis vectors.
With the valid configuration `nEv = 8`, `nKr = 14`, `nConv = 8` and residual
estimates below the locking threshold at positions 1 to 5, the first sweep
computes `iter_locked = iter_converged = 5` and
`iter_keep = min(5 + 14 / 2, 14 - 0 - 12) = 2`, so `num_locked = 5`, `num_keep = 2`
and `converged` stays unset; the second sweep starts `lanczosStep` at
`step = num_keep = 2` and overwrites `kSpace[3]` and `kSpace[4]`, both below
`num_locked = 5` (stamps `1002, 1003` of the first sweep become `2002, 2003`). -/
theorem locked_vectors_rewritten_by_next_sweep :
    (TRLM.construct roomyHost tightParam).outcome = .ok (freshSolver tightParam) ∧
      ∃ s1 : Session ℚ Int,
        (freshSession tightParam).prepare (stampingKernels fiveSmallResidua)
          .QUDA_DOUBLE_PRECISION = .ok s1 ∧
        (restartLoop (stampingKernels fiveSmallResidua) 2 s1).map
          (fun run => (run.sweeps.map (fun t =>
            ([t.ctl.iter_locked, t.ctl.iter_converged, t.ctl.iter_keep, t.ctl.num_locked,
              t.ctl.num_keep], t.ctl.converged, seg t.arr.kSpace 3 2)),
            run.aborted)) =
          some ([([5, 5, 2, 5, 2], false, [1002, 1003]), ([0, 0, -3, 5, 2], false, [2002, 2003])],
            none) :=
  ⟨rfl, _, rfl, by decide!⟩

/-! ## Invariants of the restart loop -/

theorem negate_pair_range {K : Type} [Field K] (alpha beta : Int → K) (lo hi : Int) :
    forRange lo hi
        (fun i (ab : (Int → K) × (Int → K)) =>
          (Function.update ab.1 i (ab.1 i * -1), Function.update ab.2 i (ab.2 i * -1)))
        (alpha, beta) =
      (fun i => if lo ≤ i ∧ i < hi then -alpha i else alpha i,
        fun i => if lo ≤ i ∧ i < hi then -beta i else beta i) := by
  by_cases hle : lo ≤ hi
  · refine forRange_invariant
      (fun k (ab : (Int → K) × (Int → K)) =>
        ab = (fun i => if lo ≤ i ∧ i < k then -alpha i else alpha i,
          fun i => if lo ≤ i ∧ i < k then -beta i else beta i)) lo hi _ _ hle ?_ ?_
    · refine Prod.ext ?_ ?_ <;>
      · funext i
        simp only
        rw [if_neg (by omega)]
    · intro k ab h1 h2 hab
      subst hab
      refine Prod.ext ?_ ?_ <;>
      · funext i
        simp only [Function.update_apply]
        split_ifs <;> first | rfl | (exfalso; omega) | (subst_vars; simp)
  · rw [forRange_of_ge _ _ _ _ (by omega)]
    refine Prod.ext ?_ ?_ <;>
    · funext i
      simp only
      rw [if_neg (by omega)]

theorem invertSpectrum_reverse {K : Type} [Field K] (nKr num_locked : Int)
    (alpha beta : Int → K) :
    invertSpectrum true nKr num_locked alpha beta =
      (fun i => if (num_locked ≤ i ∧ i < nKr - 1) ∨ i = nKr - 1 then -alpha i else alpha i,
        fun i => if num_locked ≤ i ∧ i < nKr - 1 then -beta i else beta i) := by
  unfold invertSpectrum
  simp only [if_true]
  rw [negate_pair_range]
  refine Prod.ext ?_ rfl
  funext i
  simp only [Function.update_apply]
  split_ifs <;> first | rfl | (exfalso; omega) | (subst_vars; simp)

theorem eigen_store_frame {K : Type} (f g : Int → K) (dim num_locked : Int) (r0 a0 : Int → K)
    (idx : Int) (hidx : idx < num_locked ∨ num_locked + dim ≤ idx) :
    (forRange 0 dim
        (fun i (ra : (Int → K) × (Int → K)) =>
          (Function.update ra.1 (i + num_locked) (f i), Function.update ra.2 (i + num_locked) (g i)))
        (r0, a0)).1 idx = r0 idx ∧
      (forRange 0 dim
        (fun i (ra : (Int → K) × (Int → K)) =>
          (Function.update ra.1 (i + num_locked) (f i), Function.update ra.2 (i + num_locked) (g i)))
        (r0, a0)).2 idx = a0 idx := by
  refine forRange_preserves
    (fun (ra : (Int → K) × (Int → K)) => ra.1 idx = r0 idx ∧ ra.2 idx = a0 idx) 0 dim _ _
    ⟨rfl, rfl⟩ ?_
  intro i ra h1 h2 hra
  have hne : idx ≠ i + num_locked := by omega
  simp only [Function.update_noteq hne]
  exact hra

/-- C30: the frame of `eigensolveFromArrowMat(num_locked, arrow_pos)`, for every
backend, either value of `reverse`, every `arrow_pos` and every call whose matrix
has at least one row, `dim = nKr - num_locked >= 1` (line 818 addresses
`alpha[nKr - 1]` as an entry of the active block, and the dense solver is
handed a `dim x dim` matrix). The call leaves `alpha[i]` and `residua[i]`
unchanged for `i < num_locked` (and for `i >= nKr`), and writes `alpha[i]` and
`residua[i]` for every `num_locked <= i < nKr`, from eigenpair `i - num_locked`
of the backend; it leaves `beta` unchanged when `reverse` is unset, and when
`reverse` is set it returns `beta[i]` negated for `num_locked <= i <= nKr - 2`
and every other entry of `beta` unchanged. -/
theorem eigensolveFromArrowMat_frame {K : Type} [LinearOrderedField K]
    (eigensolver : Int → (Int → Int → K) → EigenSolution K) (reverse : Bool) (nKr : Int)
    (st out : ArrowState K) (num_locked arrow_pos : Int) (sol : EigenSolution K)
    (hsol : sol = eigensolver (nKr - num_locked)
      (arrowMatrix (invertSpectrum reverse nKr num_locked st.alpha st.beta).1
        (invertSpectrum reverse nKr num_locked st.alpha st.beta).2 (nKr - num_locked) num_locked
        arrow_pos))
    (hout : out = eigensolveFromArrowMat eigensolver reverse nKr st num_locked arrow_pos)
    (hpos : num_locked < nKr) :
    (∀ i, i < num_locked ∨ nKr ≤ i →
        out.alpha i = st.alpha i ∧ out.residua i = st.residua i) ∧
      (∀ i, num_locked ≤ i → i < nKr →
        out.alpha i = (if reverse then -1 else 1) * sol.eigenvalues (i - num_locked) ∧
          out.residua i =
            |st.beta (nKr - 1) * sol.eigenvectors (i - num_locked) (nKr - num_locked - 1)|) ∧
      (reverse = false → out.beta = st.beta) ∧
      (reverse = true →
        ∀ i, out.beta i = if num_locked ≤ i ∧ i ≤ nKr - 2 then -st.beta i else st.beta i) := by
  subst hsol
  subst hout
  refine ⟨?_, ?_, ?_, ?_⟩
  · intro i hi
    have hfr := eigen_store_frame
      (fun i => |(invertSpectrum reverse nKr num_locked st.alpha st.beta).2 (nKr - 1) *
        (eigensolver (nKr - num_locked)
          (arrowMatrix (invertSpectrum reverse nKr num_locked st.alpha st.beta).1
            (invertSpectrum reverse nKr num_locked st.alpha st.beta).2 (nKr - num_locked)
            num_locked arrow_pos)).eigenvectors i (nKr - num_locked - 1)|)
      (eigensolver (nKr - num_locked)
        (arrowMatrix (invertSpectrum reverse nKr num_locked st.alpha st.beta).1
          (invertSpectrum reverse nKr num_locked st.alpha st.beta).2 (nKr - num_locked)
          num_locked arrow_pos)).eigenvalues
      (nKr - num_locked) num_locked st.residua
      (invertSpectrum reverse nKr num_locked st.alpha st.beta).1 i (by omega)
    refine ⟨?_, hfr.1⟩
    cases reverse
    · refine hfr.2.trans ?_
      rw [invertSpectrum_of_not_reverse]
    · show forRange num_locked nKr (fun i a => Function.update a i (a i * -1)) _ i = _
      rw [negate_range _ _ _ (by omega)]
      simp only
      rw [if_neg (by omega)]
      refine hfr.2.trans ?_
      rw [invertSpectrum_reverse]
      simp only
      rw [if_neg (by omega)]
  · intro i hi0 hi
    have hst := eigensolveFromArrowMat_store eigensolver reverse nKr st num_locked arrow_pos
      (i - num_locked) (by omega) (by omega)
    simp only [sub_add_cancel] at hst
    obtain ⟨-, hres, -, hf, ht⟩ := hst
    refine ⟨?_, hres⟩
    cases reverse
    · rw [hf rfl]
      simp
    · rw [ht rfl]
      simp
  · intro hrev
    subst hrev
    show (invertSpectrum false nKr num_locked st.alpha st.beta).2 = _
    rw [invertSpectrum_of_not_reverse]
  · intro hrev i
    subst hrev
    show (invertSpectrum true nKr num_locked st.alpha st.beta).2 i = _
    rw [invertSpectrum_reverse]
    simp only
    split_ifs <;> first | rfl | (exfalso; omega)

theorem eigensolveFromArrowMat_frame_witness :
    (1 : Int) < 3 ∧
      ((eigensolveFromArrowMat diagonalBackend true 3 descendingArrow 1 2).alpha 0 =
          descendingArrow.alpha 0 ∧
        (eigensolveFromArrowMat diagonalBackend true 3 descendingArrow 1 2).residua 0 =
          descendingArrow.residua 0) ∧
      seg (eigensolveFromArrowMat diagonalBackend true 3 descendingArrow 1 2).alpha 0 4 =
        [0, -1, -2, -3] ∧
      seg (eigensolveFromArrowMat diagonalBackend true 3 descendingArrow 1 2).residua 0 4 =
        [0, 0, 5, 0] :=
  ⟨by decide,
    (eigensolveFromArrowMat_frame diagonalBackend true 3 descendingArrow _ 1 2 _ rfl rfl
      (by decide)).1 0 (Or.inl (by decide)),
    by decide!, by decide!⟩

theorem arrowMatrix_reverse {K : Type} [Field K] (nKr num_locked arrow_pos : Int)
    (alpha beta : Int → K) (h2 : 2 ≤ arrow_pos) (hd : arrow_pos ≤ nKr - num_locked) :
    arrowMatrix (invertSpectrum true nKr num_locked alpha beta).1
        (invertSpectrum true nKr num_locked alpha beta).2 (nKr - num_locked) num_locked arrow_pos =
      fun r j => -arrowMatrix alpha beta (nKr - num_locked) num_locked arrow_pos r j := by
  funext r j
  rw [arrowMatrix_apply _ _ _ _ _ h2 hd, arrowMatrix_apply _ _ _ _ _ h2 hd,
    invertSpectrum_reverse]
  simp only
  split_ifs <;> first | rfl | (exfalso; omega) | simp

/-- C21: for `2 <= arrow_pos <= dim = nKr - num_locked`, let `A` be the arrow
matrix of the incoming `alpha` and `beta` and `M` the matrix handed to the dense
backend. Then `M = -A` when `reverse` is set and `M = A` when it is unset. If the
backend returns eigenpairs of `M` with eigenvalues in ascending order, every
stored Ritz vector satisfies `A x_i = alpha[i + num_locked] x_i` for the `alpha`
written by the call, and the written `alpha[num_locked .. nKr - 1]` is
non-increasing when `reverse` is set and non-decreasing when it is unset. -/
theorem eigensolveFromArrowMat_spectrum {K : Type} [LinearOrderedField K]
    (eigensolver : Int → (Int → Int → K) → EigenSolution K) (reverse : Bool) (nKr : Int)
    (st out : ArrowState K) (num_locked arrow_pos dim : Int) (A M : Int → Int → K)
    (sol : EigenSolution K) (hdim : dim = nKr - num_locked) (h2 : 2 ≤ arrow_pos)
    (hd : arrow_pos ≤ dim) (hA : A = arrowMatrix st.alpha st.beta dim num_locked arrow_pos)
    (hM : M = arrowMatrix (invertSpectrum reverse nKr num_locked st.alpha st.beta).1
      (invertSpectrum reverse nKr num_locked st.alpha st.beta).2 dim num_locked arrow_pos)
    (hsol : sol = eigensolver dim M)
    (hout : out = eigensolveFromArrowMat eigensolver reverse nKr st num_locked arrow_pos)
    (hasc : ∀ i i', 0 ≤ i → i ≤ i' → i' < dim → sol.eigenvalues i ≤ sol.eigenvalues i')
    (heig : ∀ i r, 0 ≤ i → i < dim → 0 ≤ r → r < dim →
      (seg (fun j => M r j * sol.eigenvectors i j) 0 dim.toNat).sum =
        sol.eigenvalues i * sol.eigenvectors i r) :
    (M = fun r j => if reverse then -A r j else A r j) ∧
      (∀ i r, 0 ≤ i → i < dim → 0 ≤ r → r < dim →
        (seg (fun j => A r j * out.ritz_mat (dim * i + j)) 0 dim.toNat).sum =
          out.alpha (i + num_locked) * out.ritz_mat (dim * i + r)) ∧
      (reverse = true → ∀ i i', 0 ≤ i → i ≤ i' → i' < dim →
        out.alpha (i' + num_locked) ≤ out.alpha (i + num_locked)) ∧
      (reverse = false → ∀ i i', 0 ≤ i → i ≤ i' → i' < dim →
        out.alpha (i + num_locked) ≤ out.alpha (i' + num_locked)) := by
  subst hdim
  have hMA : M = fun r j => if reverse then -A r j else A r j := by
    rw [hM, hA]
    cases reverse
    · rw [invertSpectrum_of_not_reverse]
      rfl
    · rw [arrowMatrix_reverse nKr num_locked arrow_pos st.alpha st.beta h2 hd]
      rfl
  have hstore : ∀ i, 0 ≤ i → i < nKr - num_locked →
      (∀ j, 0 ≤ j → j < nKr - num_locked →
        out.ritz_mat ((nKr - num_locked) * i + j) = sol.eigenvectors i j) ∧
      (reverse = false → out.alpha (i + num_locked) = sol.eigenvalues i) ∧
      (reverse = true → out.alpha (i + num_locked) = -sol.eigenvalues i) := by
    intro i hi0 hi
    have h := eigensolveFromArrowMat_store eigensolver reverse nKr st num_locked arrow_pos i
      hi0 hi
    rw [hsol, hM, hout]
    exact ⟨h.1, h.2.2.2.1, h.2.2.2.2⟩
  refine ⟨hMA, ?_, ?_, ?_⟩
  · intro i r hi0 hi hr0 hr
    obtain ⟨hx, hf, ht⟩ := hstore i hi0 hi
    have hseg : seg (fun j => A r j * out.ritz_mat ((nKr - num_locked) * i + j)) 0
          (nKr - num_locked).toNat =
        seg (fun j => A r j * sol.eigenvectors i j) 0 (nKr - num_locked).toNat := by
      apply seg_congr
      intro j hj0 hj
      rw [hx j (by omega) (by omega)]
    rw [hseg, hx r hr0 hr]
    have he := heig i r hi0 hi hr0 hr
    rw [hMA] at he
    cases reverse
    · rw [hf rfl]
      exact he
    · rw [ht rfl, neg_mul, ← he]
      simp only [if_true, neg_mul]
      rw [seg_sum_neg, neg_neg]
  · intro hrev i i' hi0 hii hi'
    rw [(hstore i hi0 (by omega)).2.2 hrev, (hstore i' (by omega) hi').2.2 hrev]
    exact neg_le_neg (hasc i i' hi0 hii hi')
  · intro hrev i i' hi0 hii hi'
    rw [(hstore i hi0 (by omega)).2.1 hrev, (hstore i' (by omega) hi').2.1 hrev]
    exact hasc i i' hi0 hii hi'

theorem eigensolveFromArrowMat_spectrum_witness :
    (2 : Int) = 3 - 1 ∧ (2 : Int) ≤ 2 ∧
      (∀ i i' : Int, 0 ≤ i → i ≤ i' → i' < 2 →
        (eigensolveFromArrowMat diagonalBackend true 3 descendingArrow 1 2).alpha (i' + 1) ≤
          (eigensolveFromArrowMat diagonalBackend true 3 descendingArrow 1 2).alpha (i + 1)) ∧
      seg (fun i => seg (arrowMatrix descendingArrow.alpha descendingArrow.beta 2 1 2 i) 0 2) 0 2 =
        [[-1, 0], [0, -2]] ∧
      seg (eigensolveFromArrowMat diagonalBackend true 3 descendingArrow 1 2).alpha 1 2 =
        [-1, -2] :=
  ⟨by decide, by decide,
    (eigensolveFromArrowMat_spectrum diagonalBackend true 3 descendingArrow _ 1 2 2 _ _ _
      (by decide) (by decide) (by decide) rfl rfl rfl rfl
      (by
        intro i i' h1 h2 h3
        have hi : i = 0 ∨ i = 1 := by omega
        have hi' : i' = 0 ∨ i' = 1 := by omega
        rcases hi with rfl | rfl <;> rcases hi' with rfl | rfl <;> first | decide! | omega)
      (by
        intro i r h1 h2 h3 h4
        have hi : i = 0 ∨ i = 1 := by omega
        have hr : r = 0 ∨ r = 1 := by omega
        rcases hi with rfl | rfl <;> rcases hr with rfl | rfl <;> decide!)).2.2.1 rfl,
    by decide!, by decide!⟩

/-! ## The effect of `computeKeptRitz` -/

theorem chebyshevT_ge_one {K : Type} [LinearOrderedField K] (t : K) (ht : 1 ≤ t) (n : Nat) :
    1 ≤ chebyshevT n t ∧ chebyshevT n t ≤ chebyshevT (n + 1) t := by
  induction n with
  | zero => exact ⟨le_rfl, ht⟩
  | succ n ih =>
    refine ⟨le_trans ih.1 ih.2, ?_⟩
    have h0 : 0 ≤ chebyshevT (n + 1) t := le_trans zero_le_one (le_trans ih.1 ih.2)
    have h1 : chebyshevT (n + 1) t ≤ t * chebyshevT (n + 1) t := by
      have := mul_le_mul_of_nonneg_right ht h0
      rwa [one_mul] at this
    show chebyshevT (n + 1) t ≤ 2 * t * chebyshevT (n + 1) t - chebyshevT n t
    have h2 : 2 * t * chebyshevT (n + 1) t = t * chebyshevT (n + 1) t + t * chebyshevT (n + 1) t := by
      ring
    rw [h2]
    linarith [ih.2]

theorem chebyshevT_ne_zero {K : Type} [LinearOrderedField K] (t : K) (ht : 1 ≤ t) (n : Nat) :
    chebyshevT n t ≠ 0 :=
  ne_of_gt (lt_of_lt_of_le zero_lt_one (chebyshevT_ge_one t ht n).1)

theorem cheby_sigma_step {K : Type} [LinearOrderedField K] (delta theta t a0 a1 : K)
    (ht : theta = t * delta) (hd : delta ≠ 0) (h1 : a1 ≠ 0) :
    1 / (2 / (-delta / theta) - -a0 / a1) = -a1 / (2 * t * a1 - a0) := by
  subst ht
  have e0 : -delta / (t * delta) = -1 / t := by
    rw [neg_div, neg_div, mul_comm, div_mul_cancel_left₀ hd, one_div]
  have e1 : 2 / (-1 / t) - -a0 / a1 = (a0 - 2 * t * a1) / a1 := by
    have e : (2 : K) / (-1 / t) = -(2 * t) := by
      rw [div_div_eq_mul_div, div_neg, div_one]
    rw [e, sub_div, neg_div, sub_neg_eq_add, mul_div_assoc, div_self h1]
    ring
  have e2 : -a1 / (2 * t * a1 - a0) = a1 / (a0 - 2 * t * a1) := by
    rw [neg_div, ← div_neg, neg_sub]
  rw [e0, e1, e2, one_div, inv_div]

theorem cheby_value_step {K : Type} [LinearOrderedField K] (x delta theta t a0 a1 b0 b1 : K)
    (ht : theta = t * delta) (hd : delta ≠ 0) (h0 : a0 ≠ 0) (h1 : a1 ≠ 0)
    (h2 : 2 * t * a1 - a0 ≠ 0) (sigma : K) (hs : sigma = -a1 / (2 * t * a1 - a0)) :
    -sigma * (-a0 / a1) * (b0 / a0) + -(2 * sigma / delta) * theta * (b1 / a1) +
        2 * sigma / delta * x * (b1 / a1) =
      (2 * ((theta - x) / delta) * b1 - b0) / (2 * t * a1 - a0) := by
  subst ht
  subst hs
  field_simp
  ring

theorem chebyLoop_matVecs {K V : Type} [Field K] [AddCommGroup V] [Module K V] (mat : V → V)
    (delta theta sigma1 : K) (d : Int) (fuel : Nat) (i : Int) (s : ChebyState K V)
    (hf : (d - i).toNat ≤ fuel) :
    (chebyLoop mat delta theta sigma1 d fuel i s).matVecs = s.matVecs + (d - i).toNat := by
  induction fuel generalizing i s with
  | zero =>
    have h0 : (d - i).toNat = 0 := by omega
    rw [h0]
    rfl
  | succ n ih =>
    unfold chebyLoop
    split_ifs with h
    · rw [ih (i + 1) _ (by omega)]
      have h1 : (d - i).toNat = (d - (i + 1)).toNat + 1 := by omega
      rw [h1]
      show s.matVecs + 1 + _ = _
      omega
    · have h0 : (d - i).toNat = 0 := by omega
      rw [h0]
      rfl

theorem chebyLoop_scalar {K V : Type} [LinearOrderedField K] [AddCommGroup V] [Module K V]
    (x delta theta : K) (hd : delta ≠ 0) (ht : 1 ≤ theta / delta) (inp : V) (d : Int)
    (fuel : Nat) (n : Nat) (s : ChebyState K V) (hf : (d - ((n : Int) + 2)).toNat ≤ fuel)
    (hn : (n : Int) + 2 ≤ d)
    (h1 : s.tmp1 =
      (chebyshevT n ((theta - x) / delta) / chebyshevT n (theta / delta)) • inp)
    (h2 : s.tmp2 =
      (chebyshevT (n + 1) ((theta - x) / delta) / chebyshevT (n + 1) (theta / delta)) • inp)
    (h3 : s.sigma_old = -chebyshevT n (theta / delta) / chebyshevT (n + 1) (theta / delta)) :
    (chebyLoop (fun v : V => x • v) delta theta (-delta / theta) d fuel ((n : Int) + 2) s).tmp2 =
      (chebyshevT (d - 1).toNat ((theta - x) / delta) /
        chebyshevT (d - 1).toNat (theta / delta)) • inp := by
  induction fuel generalizing n s with
  | zero =>
    have hdn : (d - 1).toNat = n + 1 := by omega
    rw [hdn]
    exact h2
  | succ fuel ih =>
    unfold chebyLoop
    by_cases hlt : (n : Int) + 2 < d
    · rw [if_pos hlt]
      have hcast : ((n + 1 : Nat) : Int) + 2 = (n : Int) + 2 + 1 := by push_cast; ring
      rw [← hcast]
      have hth : theta = theta / delta * delta := (div_mul_cancel₀ theta hd).symm
      have ha0 := chebyshevT_ne_zero (theta / delta) ht n
      have ha1 := chebyshevT_ne_zero (theta / delta) ht (n + 1)
      have ha2 : 2 * (theta / delta) * chebyshevT (n + 1) (theta / delta) -
          chebyshevT n (theta / delta) ≠ 0 := chebyshevT_ne_zero (theta / delta) ht (n + 2)
      have hsig : 1 / (2 / (-delta / theta) - s.sigma_old) =
          -chebyshevT (n + 1) (theta / delta) / chebyshevT (n + 1 + 1) (theta / delta) := by
        rw [h3]
        exact cheby_sigma_step delta theta (theta / delta) _ _ hth hd ha1
      refine ih (n + 1) _ (by omega) (by omega) ?_ ?_ ?_
      · exact h2
      · show blas.caxpbypczw _ s.tmp1 _ s.tmp2 _ (x • s.tmp2) = _
        unfold blas.caxpbypczw
        rw [h1, h2, smul_smul, smul_smul, smul_smul, smul_smul, ← add_smul, ← add_smul, h3]
        congr 1
        exact cheby_value_step x delta theta (theta / delta) _ _ _ _ hth hd ha0 ha1 ha2 _
          (cheby_sigma_step delta theta (theta / delta) _ _ hth hd ha1)
      · exact hsig
    · rw [if_neg hlt]
      have hdn : (d - 1).toNat = n + 1 := by omega
      rw [hdn]
      exact h2

theorem chebyOp_of_degree_ge_two {K V : Type} [Field K] [AddCommGroup V] [Module K V]
    (eig_param : QudaEigParam K) (mat : V → V) (inp : V) (hacc : eig_param.use_poly_acc = true)
    (hdeg : 2 ≤ eig_param.poly_deg) :
    chebyOp eig_param mat inp =
      .ok ⟨(chebyLoop mat ((eig_param.a_max - eig_param.a_min) / 2)
          ((eig_param.a_max + eig_param.a_min) / 2)
          (-((eig_param.a_max - eig_param.a_min) / 2) / ((eig_param.a_max + eig_param.a_min) / 2))
          eig_param.poly_deg (eig_param.poly_deg - 2).toNat 2
          ⟨blas.caxpby 1 inp
              (-((eig_param.a_max - eig_param.a_min) / 2) /
                ((eig_param.a_max + eig_param.a_min) / 2) /
                ((eig_param.a_max - eig_param.a_min) / 2)) (mat inp),
            inp,
            blas.caxpby 1 inp
              (-((eig_param.a_max - eig_param.a_min) / 2) /
                ((eig_param.a_max + eig_param.a_min) / 2) /
                ((eig_param.a_max - eig_param.a_min) / 2)) (mat inp),
            -((eig_param.a_max - eig_param.a_min) / 2) / ((eig_param.a_max + eig_param.a_min) / 2),
            1⟩).tmp2,
        1 + (eig_param.poly_deg - 2).toNat⟩ := by
  unfold chebyOp
  rw [if_neg (by rw [hacc]; decide), if_neg (by omega), if_neg (by omega)]
  simp only
  rw [chebyLoop_matVecs _ _ _ _ _ _ _ _ le_rfl]

/-- C26: with `use_poly_acc` set, `poly_deg = d >= 2`, `0 < a_min < a_max`,
`delta = (a_max - a_min) / 2` and `theta = (a_max + a_min) / 2`: for every
operator `chebyOp` returns after `d - 1` applications (one before the loop and
one in each of its `d - 2` iterations); an iteration maps `(tmp1, tmp2)` to
`(tmp2, d3 * tmp1 + d2 * tmp2 + d1 * Op(tmp2))` with
`sigma = 1 / (2 / sigma1 - sigma_old)`, `d1 = 2 sigma / delta`, `d2 = -d1 theta`,
`d3 = -sigma sigma_old`; for the operator that multiplies by the scalar `x` the
output is `T_{d-1}((theta - x) / delta) / T_{d-1}(theta / delta) * in`; and
`poly_deg = 2` gives the same result as `poly_deg = 1`. -/
theorem chebyOp_recursion {K V : Type} [LinearOrderedField K] [AddCommGroup V] [Module K V]
    (eig_param : QudaEigParam K) (x delta theta : K) (inp : V)
    (hacc : eig_param.use_poly_acc = true) (hdeg : 2 ≤ eig_param.poly_deg)
    (ha : 0 < eig_param.a_min) (hab : eig_param.a_min < eig_param.a_max)
    (hdelta : delta = (eig_param.a_max - eig_param.a_min) / 2)
    (htheta : theta = (eig_param.a_max + eig_param.a_min) / 2) :
    (∀ mat : V → V, ∃ r, chebyOp eig_param mat inp = .ok r ∧
        (r.matVecs : Int) = eig_param.poly_deg - 1) ∧
      (∀ (mat : V → V) (s : ChebyState K V),
        (chebyBody mat delta theta (-delta / theta) s).tmp1 = s.tmp2 ∧
        (chebyBody mat delta theta (-delta / theta) s).tmp2 =
          (-(1 / (2 / (-delta / theta) - s.sigma_old)) * s.sigma_old) • s.tmp1 +
            (-(2 * (1 / (2 / (-delta / theta) - s.sigma_old)) / delta) * theta) • s.tmp2 +
            (2 * (1 / (2 / (-delta / theta) - s.sigma_old)) / delta) • mat s.tmp2 ∧
        (chebyBody mat delta theta (-delta / theta) s).sigma_old =
          1 / (2 / (-delta / theta) - s.sigma_old) ∧
        (chebyBody mat delta theta (-delta / theta) s).matVecs = s.matVecs + 1) ∧
      chebyOp eig_param (fun v : V => x • v) inp =
        .ok ⟨(chebyshevT (eig_param.poly_deg - 1).toNat ((theta - x) / delta) /
          chebyshevT (eig_param.poly_deg - 1).toNat (theta / delta)) • inp,
          (eig_param.poly_deg - 1).toNat⟩ ∧
      (eig_param.poly_deg = 2 →
        ∀ mat : V → V,
          chebyOp eig_param mat inp = chebyOp { eig_param with poly_deg := 1 } mat inp) := by
  have hdpos : 0 < delta := by
    rw [hdelta]
    linarith
  have hd : delta ≠ 0 := ne_of_gt hdpos
  have hthpos : 0 < theta := by
    rw [htheta]
    linarith
  have hth : theta ≠ 0 := ne_of_gt hthpos
  have ht : 1 ≤ theta / delta := by
    rw [one_le_div hdpos, hdelta, htheta]
    linarith
  refine ⟨?_, ?_, ?_, ?_⟩
  · intro mat
    refine ⟨_, chebyOp_of_degree_ge_two eig_param mat inp hacc hdeg, ?_⟩
    simp only
    omega
  · intro mat s
    exact ⟨rfl, rfl, rfl, rfl⟩
  · rw [chebyOp_of_degree_ge_two eig_param _ inp hacc hdeg, ← hdelta, ← htheta]
    have hmv : 1 + (eig_param.poly_deg - 2).toNat = (eig_param.poly_deg - 1).toNat := by omega
    rw [hmv]
    congr 2
    refine chebyLoop_scalar x delta theta hd ht inp eig_param.poly_deg _ 0 _ (by simp) (by simpa using hdeg) ?_ ?_ ?_
    · show inp = ((1 : K) / 1) • inp
      rw [div_one, one_smul]
    · show blas.caxpby 1 inp (-delta / theta / delta) (x • inp) =
        (((theta - x) / delta) / (theta / delta)) • inp
      unfold blas.caxpby
      rw [smul_smul, ← add_smul]
      congr 1
      field_simp
      ring
    · show -delta / theta = -(1 : K) / (theta / delta)
      field_simp
  · intro h2 mat
    rw [chebyOp_of_degree_ge_two eig_param mat inp hacc hdeg]
    unfold chebyOp
    rw [if_neg (by show ¬ (eig_param.use_poly_acc = false); rw [hacc]; decide),
      if_neg (by show ¬ ((1 : Int) = 0); decide), if_pos rfl, h2]
    rfl

theorem chebyOp_recursion_witness :
    degreeThreeParam.use_poly_acc = true ∧ 2 ≤ degreeThreeParam.poly_deg ∧
      0 < degreeThreeParam.a_min ∧ degreeThreeParam.a_min < degreeThreeParam.a_max ∧
      chebyOp degreeThreeParam (fun v : ℚ => (5 : ℚ) • v) 1 =
        .ok ⟨(chebyshevT (degreeThreeParam.poly_deg - 1).toNat (((2 : ℚ) - 5) / 1) /
          chebyshevT (degreeThreeParam.poly_deg - 1).toNat ((2 : ℚ) / 1)) • (1 : ℚ),
          (degreeThreeParam.poly_deg - 1).toNat⟩ ∧
      (chebyOp degreeThreeParam (fun v : ℚ => (5 : ℚ) • v) 1).toOption.map
        (fun r => (r.out, r.matVecs)) = some (17 / 7, 2) :=
  ⟨by decide, by decide, by decide!, by decide!,
    (chebyOp_recursion degreeThreeParam 5 1 2 (1 : ℚ) (by decide) (by decide) (by decide!)
      (by decide!) (by decide!) (by decide!)).2.2.1,
    by decide!⟩

end quda
